import Mathlib

/-!
TicTacToe (M-N-K game): the board engine.

A shallow embedding of the board engine of `game.c`: the tile enumeration, the
settings and board structures, `placeTile`, `checkDirection`, `checkWin`,
`checkDraw`, `changePlayer`, `boardInit`, the turn loop of `playGame` and the
printing of a game log, with the linked list of `linkedList.c`, the reading of
the settings file and the naming of the log file of `fileIO.c`, and the
validation of a coordinate string of `interface.c`, followed by the properties
proved about them.

Conventions of the embedding.
* A C `int` is an `Int`.  Every index the scans reach from a cell of the grid
  with a step in `{-1,0,1}` lies in `[-1, max width height]`, so no 32-bit
  wrap-around is involved.
* `BOOL` (`FALSE = 0`, `TRUE = !FALSE`) is `Bool`.
* `TicTacTile` is a C enum, hence an integer with four named values.
* `board->tiles` (an array of `height` row pointers, each row an array of
  `width` tiles) is a list of rows.  `matches` is a reserved word in Lean, the
  field is called `matches_`.
* Every loop (the scans of `checkDirection`, the loops of `checkDraw`, the
  traversal of `printList`) takes a fuel argument, one unit per iteration;
  `none` means the fuel ran out.
* A node pointer is an index into the nodes allocated for its list, `none`
  for `NULL`; the functions of `linkedList.c` are modelled on a list pointer
  that is not `NULL`.
* Output is not modelled, except for what the claims are about: the
  announcement of a win or a draw and the calls `printList` makes to its
  printing function.
* A C string is a list of characters, read as `NUL` at and past its end; the
  settings file is the list of the results of the `fscanf` calls it allows.
-/

namespace TicTacToe

/-! ## Data model (`game.h`) -/

/-- An enumerator of the C enum `TicTacTile`. -/
abbrev TicTacTile := Int

/-- Enumerator `TicTacNone`: the empty cell. -/
abbrev TicTacNone : TicTacTile := 0
/-- Enumerator `TicTacX`: the first player. -/
abbrev TicTacX : TicTacTile := 1
/-- Enumerator `TicTacO`: the second player. -/
abbrev TicTacO : TicTacTile := 2
/-- Enumerator `TicTacTotal`: one more than the number of players. -/
abbrev TicTacTotal : TicTacTile := 3

/-- Struct `Coordinates`. -/
structure Coordinates where
  x : Int
  y : Int
deriving DecidableEq

/-- Struct `Settings`; `matches_` is the field `matches`. -/
structure Settings where
  width : Int
  height : Int
  matches_ : Int
deriving DecidableEq

/-- Struct `GameBoard`: the settings and the rows of tiles. -/
structure GameBoard where
  settings : Settings
  tiles : List (List TicTacTile)
deriving DecidableEq

/-- The read `board->tiles[i][j]`.  The code performs it only behind its range
guard; outside the allocated rows the model reads `TicTacNone`. -/
def GameBoard.tileAt (board : GameBoard) (i j : Int) : TicTacTile :=
  (board.tiles.getD i.toNat []).getD j.toNat TicTacNone

/-- The guard `i >= 0 && i < height && j >= 0 && j < width` on a row index `i`
and a column index `j`. -/
def GameBoard.inRange (board : GameBoard) (i j : Int) : Bool :=
  decide (i ≥ 0) && decide (i < board.settings.height) &&
    decide (j ≥ 0) && decide (j < board.settings.width)

/-- The grid has exactly `height` rows of `width` tiles each, as allocated by
`boardInit`. -/
def GameBoard.WellFormed (board : GameBoard) : Prop :=
  (board.tiles.length : Int) = board.settings.height ∧
    ∀ row ∈ board.tiles, (row.length : Int) = board.settings.width

instance (board : GameBoard) : Decidable board.WellFormed := by
  unfold GameBoard.WellFormed; infer_instance

/-! ## `placeTile` -/

/-- Function `placeTile`: the board after the call and the returned flag. -/
def placeTile (board : GameBoard) (tile : TicTacTile) (x y : Int) : GameBoard × Bool :=
  if x ≥ 0 ∧ x < board.settings.width ∧ y ≥ 0 ∧ y < board.settings.height then
    if board.tileAt y x = TicTacNone then
      ({ board with
          tiles := board.tiles.set y.toNat ((board.tiles.getD y.toNat []).set x.toNat tile) },
        true)
    else
      (board, false)
  else
    (board, false)

/-! ## `checkDirection` and `checkWin` -/

/-- The body of either `do ... while` loop of `checkDirection` before the
index update: inside the grid the cell is read into `currentTile` and counted
when it equals `tile`. -/
def scanBody (board : GameBoard) (tile : TicTacTile) (i j counter : Int)
    (currentTile : TicTacTile) : Int × TicTacTile :=
  if board.inRange i j then
    if board.tileAt i j = tile then (counter + 1, board.tileAt i j)
    else (counter, board.tileAt i j)
  else (counter, currentTile)

/-- The first loop of `checkDirection` (`i += yStep; j += xStep`), from the
state `(i, j, counter, currentTile)`; the result is the final
`(counter, currentTile)`. -/
def scanForward (board : GameBoard) (tile : TicTacTile) (yStep xStep : Int) :
    Nat → Int → Int → Int → TicTacTile → Option (Int × TicTacTile)
  | 0, _, _, _, _ => none
  | fuel + 1, i, j, counter, currentTile =>
    let r := scanBody board tile i j counter currentTile
    let i1 := i + yStep
    let j1 := j + xStep
    if board.inRange i1 j1 && decide (r.2 = tile) then
      scanForward board tile yStep xStep fuel i1 j1 r.1 r.2
    else some r

/-- The second loop of `checkDirection` (`i -= yStep; j -= xStep`). -/
def scanBackward (board : GameBoard) (tile : TicTacTile) (yStep xStep : Int) :
    Nat → Int → Int → Int → TicTacTile → Option (Int × TicTacTile)
  | 0, _, _, _, _ => none
  | fuel + 1, i, j, counter, currentTile =>
    let r := scanBody board tile i j counter currentTile
    let i1 := i - yStep
    let j1 := j - xStep
    if board.inRange i1 j1 && decide (r.2 = tile) then
      scanBackward board tile yStep xStep fuel i1 j1 r.1 r.2
    else some r

/-- Function `checkDirection`, each loop running on `fuel` iterations at
most. -/
def checkDirection (fuel : Nat) (board : GameBoard) (tile : TicTacTile)
    (x y xStep yStep : Int) : Option Int :=
  match scanForward board tile yStep xStep fuel y x 0 TicTacNone with
  | none => none
  | some (counter, currentTile) =>
    match scanBackward board tile yStep xStep fuel (y - yStep) (x - xStep) counter
        currentTile with
    | none => none
    | some (counter1, _) => some counter1

/-- Function `checkWin`: the four calls of `checkDirection`, each one made only
while `won` is still `FALSE`. -/
def checkWin (fuel : Nat) (board : GameBoard) (tile : TicTacTile) (x y : Int) :
    Option Bool :=
  match checkDirection fuel board tile x y 1 0 with
  | none => none
  | some count =>
    if count ≥ board.settings.matches_ then some true
    else
      match checkDirection fuel board tile x y 0 1 with
      | none => none
      | some count =>
        if count ≥ board.settings.matches_ then some true
        else
          match checkDirection fuel board tile x y 1 1 with
          | none => none
          | some count =>
            if count ≥ board.settings.matches_ then some true
            else
              match checkDirection fuel board tile x y 1 (-1) with
              | none => none
              | some count =>
                if count ≥ board.settings.matches_ then some true
                else some false

/-- Enough fuel for every loop over the grid of this board: a scan from a cell
of the grid visits fewer than `width + height` cells, and the loops of
`checkDraw` test their condition `width + 1` and `height + 1` times at most. -/
def loopFuel (board : GameBoard) : Nat :=
  board.settings.width.toNat + board.settings.height.toNat + 1

/-! ## `checkDraw` -/

/-- The inner `while ( j < width && noCellsLeft )` loop of `checkDraw` on row
`i`, from the state `(j, noCellsLeft)`; one unit of fuel per test of the
condition. -/
def checkDrawRow (board : GameBoard) (i : Int) : Nat → Int → Bool → Option Bool
  | 0, _, _ => none
  | fuel + 1, j, noCellsLeft =>
    if decide (j < board.settings.width) && noCellsLeft then
      checkDrawRow board i fuel (j + 1)
        (if board.tileAt i j = TicTacNone then false else noCellsLeft)
    else some noCellsLeft

/-- The outer `while ( i < height && noCellsLeft )` loop of `checkDraw`; every
inner loop runs on `fuel`. -/
def checkDrawRows (board : GameBoard) (fuel : Nat) : Nat → Int → Bool → Option Bool
  | 0, _, _ => none
  | n + 1, i, noCellsLeft =>
    if decide (i < board.settings.height) && noCellsLeft then
      match checkDrawRow board i fuel 0 noCellsLeft with
      | none => none
      | some r => checkDrawRows board fuel n (i + 1) r
    else some noCellsLeft

/-- Function `checkDraw`. -/
def checkDraw (fuel : Nat) (board : GameBoard) : Option Bool :=
  checkDrawRows board fuel fuel 0 true

/-! ## `changePlayer` and `boardInit` -/

/-- Function `changePlayer`: `*player % ( TicTacTotal - 1 ) + 1`, with the
remainder of C (truncated division). -/
def changePlayer (player : TicTacTile) : TicTacTile :=
  Int.tmod player (TicTacTotal - 1) + 1

/-- Function `boardInit`: `height` rows are allocated, each of `width` tiles,
and the two `for` loops set every tile to `TicTacNone`. -/
def boardInit (settings : Settings) : GameBoard :=
  { settings := settings
    tiles := List.replicate settings.height.toNat
      (List.replicate settings.width.toNat TicTacNone) }

/-- The inner `for ( j = 0; j < width; j++ )` loop of `boardInit` on the row
just allocated, from the column `j`: `tiles[i][j] = TicTacNone`. -/
def boardInitRow (settings : Settings) : Nat → Int → List TicTacTile → Option (List TicTacTile)
  | 0, _, _ => none
  | fuel + 1, j, row =>
    if j < settings.width then
      boardInitRow settings fuel (j + 1) (row.set j.toNat TicTacNone)
    else some row

/-- The outer `for ( i = 0; i < height; i++ )` loop of `boardInit`, from the
row `i`: row `i` is allocated, `fresh i` being what `malloc` left in it, and
set to `TicTacNone` by the inner loop run on `fuel`. -/
def boardInitRows (settings : Settings) (fresh : Nat → List TicTacTile) (fuel : Nat) :
    Nat → Int → List (List TicTacTile) → Option (List (List TicTacTile))
  | 0, _, _ => none
  | n + 1, i, tiles =>
    if i < settings.height then
      match boardInitRow settings fuel 0 (fresh i.toNat) with
      | none => none
      | some row => boardInitRows settings fresh fuel n (i + 1) (tiles.set i.toNat row)
    else some tiles

/-- Function `boardInit` with its two loops run on the memory that `malloc`
returns: an array of `height` row pointers not yet set, and for each row
`width` tiles of any content. -/
def boardInitLoops (fuel : Nat) (fresh : Nat → List TicTacTile) (settings : Settings) :
    Option GameBoard :=
  match boardInitRows settings fresh fuel fuel 0
      (List.replicate settings.height.toNat []) with
  | none => none
  | some tiles => some { settings := settings, tiles := tiles }

/-! ## The linked list (`linkedList.c`) -/

/-- Struct `ListNode`.  A node pointer is `some` index into the nodes allocated
for the list, or `none` for `NULL`. -/
structure ListNode (α : Type) where
  data : α
  next : Option Nat
  last : Option Nat
deriving DecidableEq

/-- Struct `LinkedList`, together with the nodes allocated for it so far
(`nodes[a]` is the node at address `a`; `malloc` appends). -/
structure LinkedList (α : Type) where
  nodes : List (ListNode α)
  head : Option Nat
  tail : Option Nat
  size : Int
deriving DecidableEq

/-- Function `createList`: `calloc` gives `head = tail = NULL` and `size = 0`. -/
def createList (α : Type) : LinkedList α :=
  { nodes := [], head := none, tail := none, size := 0 }

/-- Function `listInsertLast` on a list pointer that is not `NULL`. -/
def listInsertLast {α : Type} (list : LinkedList α) (data : α) : LinkedList α :=
  if list.head = none ∧ list.tail = none then
    let newNode := list.nodes.length
    { nodes := list.nodes ++ [{ data := data, next := none, last := none }]
      head := some newNode
      tail := some newNode
      size := 1 }
  else
    match list.head, list.tail with
    | some _, some t =>
      let newNode := list.nodes.length
      let nodes1 := list.nodes ++ [{ data := data, next := none, last := some t }]
      { nodes := nodes1.modify (fun node => { node with next := some newNode }) t
        head := list.head
        tail := some newNode
        size := list.size + 1 }
    | _, _ => list

/-- The data met on the way from node `curr` along the `next` pointers. -/
def walkNext {α : Type} (nodes : List (ListNode α)) : Nat → Option Nat → List α
  | 0, _ => []
  | _ + 1, none => []
  | fuel + 1, some a =>
    match nodes[a]? with
    | none => []
    | some node => node.data :: walkNext nodes fuel node.next

/-- The entries of a list: the data read from `head` along `next`. -/
def LinkedList.entries {α : Type} (list : LinkedList α) : List α :=
  walkNext list.nodes list.nodes.length list.head

/-! ## `playGame` -/

/-- Struct `TurnLog`. -/
structure TurnLog where
  turnNum : Int
  player : TicTacTile
  location : Coordinates
deriving DecidableEq

/-- Struct `GameLog` (build without `Editor`: the turn list only). -/
structure GameLog where
  turnList : LinkedList TurnLog
deriving DecidableEq

/-- The local variables of `playGame`. -/
structure PlayState where
  gameLog : GameLog
  gameBoard : GameBoard
  currentPlayer : TicTacTile
  turnNum : Int
  finished : Bool
deriving DecidableEq

/-- The state of `playGame` on entry to its `while` loop. -/
def playInit (settings : Settings) : PlayState :=
  { gameLog := { turnList := createList TurnLog }
    gameBoard := boardInit settings
    currentPlayer := TicTacX
    turnNum := 1
    finished := false }

/-- One iteration of the `while ( !finished )` loop of `playGame`, `newTile`
being the coordinates that `getCoordinates` returned. -/
def playTurn (fuel : Nat) (st : PlayState) (newTile : Coordinates) : Option PlayState :=
  let placed := placeTile st.gameBoard st.currentPlayer newTile.x newTile.y
  if placed.2 then
    let log : TurnLog :=
      { turnNum := st.turnNum, player := st.currentPlayer, location := newTile }
    let gameLog : GameLog := { turnList := listInsertLast st.gameLog.turnList log }
    match checkWin fuel placed.1 st.currentPlayer newTile.x newTile.y with
    | none => none
    | some true =>
      some { gameLog := gameLog, gameBoard := placed.1,
             currentPlayer := changePlayer st.currentPlayer,
             turnNum := st.turnNum + 1, finished := true }
    | some false =>
      match checkDraw fuel placed.1 with
      | none => none
      | some draw =>
        some { gameLog := gameLog, gameBoard := placed.1,
               currentPlayer := changePlayer st.currentPlayer,
               turnNum := st.turnNum + 1,
               finished := if draw then true else st.finished }
  else some { st with gameBoard := placed.1 }

/-- The `while ( !finished )` loop of `playGame` on the coordinates delivered
by the successive calls of `getCoordinates`; the loop is left as soon as
`finished` is set, the state is returned as it stands when the input ends. -/
def playLoop (fuel : Nat) : PlayState → List Coordinates → Option PlayState
  | st, [] => some st
  | st, newTile :: rest =>
    if st.finished then some st
    else
      match playTurn fuel st newTile with
      | none => none
      | some st1 => playLoop fuel st1 rest

/-- Function `playGame` on the coordinates entered by the players. -/
def playGame (fuel : Nat) (settings : Settings) (moves : List Coordinates) :
    Option PlayState :=
  playLoop fuel (playInit settings) moves

/-- What an iteration of the loop of `playGame` announces on the screen when it
sets `finished`: `Player %d has won!` with the current player, or
`All tiles are taken, this is a draw!`. -/
inductive Announcement where
  | won (player : TicTacTile)
  | draw
deriving DecidableEq

/-- One iteration of the loop of `playGame` together with its announcement:
the body of `playTurn` with the two `printf` calls that follow `checkWin` and
`checkDraw`. -/
def playTurnOutput (fuel : Nat) (st : PlayState) (newTile : Coordinates) :
    Option (PlayState × Option Announcement) :=
  let placed := placeTile st.gameBoard st.currentPlayer newTile.x newTile.y
  if placed.2 then
    let log : TurnLog :=
      { turnNum := st.turnNum, player := st.currentPlayer, location := newTile }
    let gameLog : GameLog := { turnList := listInsertLast st.gameLog.turnList log }
    match checkWin fuel placed.1 st.currentPlayer newTile.x newTile.y with
    | none => none
    | some true =>
      some ({ gameLog := gameLog, gameBoard := placed.1,
              currentPlayer := changePlayer st.currentPlayer,
              turnNum := st.turnNum + 1, finished := true },
            some (Announcement.won st.currentPlayer))
    | some false =>
      match checkDraw fuel placed.1 with
      | none => none
      | some true =>
        some ({ gameLog := gameLog, gameBoard := placed.1,
                currentPlayer := changePlayer st.currentPlayer,
                turnNum := st.turnNum + 1, finished := true },
              some Announcement.draw)
      | some false =>
        some ({ gameLog := gameLog, gameBoard := placed.1,
                currentPlayer := changePlayer st.currentPlayer,
                turnNum := st.turnNum + 1, finished := st.finished },
              none)
  else some ({ st with gameBoard := placed.1 }, none)

/-! ## `printList`, `printTurnLog` and `printGameLog` -/

/-- The outcome of `printList` on a list pointer that is not `NULL`: the data
handed to the printing function, call after call, or the error message
`List is corrupt or invalid`. -/
inductive PrintResult (α : Type) where
  | printed (calls : List α)
  | corrupt
deriving DecidableEq

/-- The traversal of `printList` from `currNode`: the `while` loop prints a
node and moves on while `currNode->next` is not `NULL`, the last node is
printed after the loop.  `calls` are the calls of the printing function made
so far; `none` when the fuel runs out or `currNode` is not an allocated node. -/
def printNodes {α : Type} (nodes : List (ListNode α)) :
    Nat → Nat → List α → Option (List α)
  | 0, _, _ => none
  | fuel + 1, currNode, calls =>
    match nodes[currNode]? with
    | none => none
    | some node =>
      match node.next with
      | some next => printNodes nodes fuel next (calls ++ [node.data])
      | none => some (calls ++ [node.data])

/-- Function `printList` on a list pointer that is not `NULL`. -/
def printList {α : Type} (fuel : Nat) (list : LinkedList α) : Option (PrintResult α) :=
  match list.head, list.tail with
  | some head, some _ =>
    match printNodes list.nodes fuel head [] with
    | none => none
    | some calls => some (PrintResult.printed calls)
  | _, _ => some PrintResult.corrupt

/-- The values that `printTurnLog` formats into its three lines `Turn: %d`,
`Player: %c`, `Location: %d,%d`. -/
structure TurnText where
  turnNum : Int
  tile : Char
  x : Int
  y : Int
deriving DecidableEq

/-- Function `printTurnLog`: the `switch` on the player and the values
printed. -/
def printTurnLog (turnLog : TurnLog) : TurnText :=
  { turnNum := turnLog.turnNum
    tile := if turnLog.player = TicTacX then 'X'
      else if turnLog.player = TicTacO then 'O' else 'N'
    x := turnLog.location.x
    y := turnLog.location.y }

/-- Function `printGameLog` (build without `Editor`): `printList` on the turn
list with `printTurnLog` as the printing function, so every call of the
printing function prints the text of its turn. -/
def printGameLog (fuel : Nat) (gameLog : GameLog) : Option (PrintResult TurnText) :=
  match printList fuel gameLog.turnList with
  | none => none
  | some (PrintResult.printed calls) => some (PrintResult.printed (calls.map printTurnLog))
  | some PrintResult.corrupt => some PrintResult.corrupt

/-! ## `validSetting`, `getSettings` and `createLogFile` (`fileIO.c`) -/

/-- Macro `MAX_DIMENSION` of `game.h`. -/
abbrev MAX_DIMENSION : Int := 99

/-- Macro `LOG_NAME_LEN` of `fileIO.h`. -/
abbrev LOG_NAME_LEN : Nat := 29

/-- The terminator of a C string.  A C string is the list of its characters
before the terminator. -/
abbrev NUL : Char := Char.ofNat 0

/-- The first character of a C string (the terminator when it is empty),
turned to lower case as by `tolower( setting[0] )`. -/
def firstLower (setting : List Char) : Char :=
  (setting.headD NUL).toLower

/-- Function `validSetting`. -/
def validSetting (setting : List Char) (value : Int) : Bool :=
  if setting.length = 1 then
    if firstLower setting = 'm' ∨ firstLower setting = 'n' ∨ firstLower setting = 'k' then
      if value > 0 ∧ value ≤ MAX_DIMENSION then true else false
    else false
  else false

/-- The local variables of `getSettings` that its loop works on. -/
structure SettingsRead where
  error : Bool
  lineCount : Int
  width : Int
  height : Int
  matches_ : Int
deriving DecidableEq

/-- The body of the `while` loop of `getSettings`.  `line` is what
`fscanf( file, "%[^=]=%d\n", setting, &value )` read: `none` when it did not
return 2, the name and the value otherwise. -/
def readSettingLine (st : SettingsRead) (line : Option (List Char × Int)) : SettingsRead :=
  match line with
  | none => { st with error := true, lineCount := st.lineCount + 1 }
  | some (setting, value) =>
    if validSetting setting value then
      if firstLower setting = 'm' ∧ st.width = 0 then
        { st with width := value, lineCount := st.lineCount + 1 }
      else if firstLower setting = 'n' ∧ st.height = 0 then
        { st with height := value, lineCount := st.lineCount + 1 }
      else if firstLower setting = 'k' ∧ st.matches_ = 0 then
        { st with matches_ := value, lineCount := st.lineCount + 1 }
      else { st with error := true, lineCount := st.lineCount + 1 }
    else { st with error := true, lineCount := st.lineCount + 1 }

/-- The `while ( !error && !feof( file ) && !ferror( file ) )` loop of
`getSettings`; `lines` are the results of the `fscanf` calls that the file
allows before its end (or a read error) is reached. -/
def readSettingLines : SettingsRead → List (Option (List Char × Int)) → SettingsRead
  | st, [] => st
  | st, line :: rest =>
    if st.error then st else readSettingLines (readSettingLine st line) rest

/-- Function `getSettings`: the returned `error` and the settings struct after
the call.  `file` is `none` when `fopen` returns `NULL`. -/
def getSettings (file : Option (List (Option (List Char × Int)))) (settings : Settings) :
    Bool × Settings :=
  match file with
  | none => (true, settings)
  | some lines =>
    let st := readSettingLines
      { error := false, lineCount := 0, width := 0, height := 0, matches_ := 0 } lines
    if !st.error && decide (st.lineCount < 3) then (true, settings)
    else if !st.error then
      if st.width < st.matches_ ∨ st.height < st.matches_ then (true, settings)
      else (false, { width := st.width, height := st.height, matches_ := st.matches_ })
    else (st.error, settings)

/-- The conversion `%d` of `sprintf`. -/
def formatD (n : Int) : List Char :=
  if n < 0 then '-' :: Nat.toDigits 10 n.natAbs else Nat.toDigits 10 n.toNat

/-- The conversion `%02d` of `sprintf`: `%d` padded with zeros to two
characters. -/
def format02D (n : Int) : List Char :=
  if (formatD n).length < 2 then List.replicate (2 - (formatD n).length) '0' ++ formatD n
  else formatD n

/-- The file name that `createLogFile` writes into `fileName` with
`sprintf( fileName, "MNK_%d-%d-%d_%02d-%02d_%02d-%02d.log", ... )`, from the
settings and the fields `tm_hour`, `tm_min`, `tm_mday`, `tm_mon` of the local
time. -/
def createLogFileName (settings : Settings) (tm_hour tm_min tm_mday tm_mon : Int) :
    List Char :=
  ['M', 'N', 'K', '_'] ++ formatD settings.width ++ ['-'] ++ formatD settings.height ++
    ['-'] ++ formatD settings.matches_ ++ ['_'] ++ format02D tm_hour ++ ['-'] ++
    format02D tm_min ++ ['_'] ++ format02D tm_mday ++ ['-'] ++ format02D (tm_mon + 1) ++
    ['.', 'l', 'o', 'g']

/-! ## `validCoordString` and `skipSpace` (`interface.c`)

A C string is the list of the characters stored from its first one on; reading
at or past the end of the list gives the terminator `NUL`.  A pointer into the
string is the list that is left after dropping the characters before it. -/

abbrev TAB : Char := Char.ofNat 9
abbrev NEWLINE : Char := Char.ofNat 10
abbrev SPACE : Char := Char.ofNat 32

/-- The C library classification `isspace` in the "C" locale: space, and the
control characters tab, newline, vertical tab, form feed and carriage return
(codes 9 to 13). -/
def isspace (c : Char) : Bool :=
  decide (c = SPACE ∨ (9 ≤ c.toNat ∧ c.toNat ≤ 13))

/-- The C library classification `isdigit`. -/
def isdigit (c : Char) : Bool :=
  decide (48 ≤ c.toNat ∧ c.toNat ≤ 57)

/-- The C library function `strtol( nptr, &endptr, 10 )`, as far as its end
pointer is concerned: the result is `endptr - nptr`.  The function skips the
leading `isspace` characters, then an optional sign `+` or `-`, then the
decimal digits; when there is no digit, no conversion is made and `endptr` is
`nptr`. -/
def strtolEnd (nptr : List Char) : Nat :=
  let spaces := (nptr.takeWhile isspace).length
  let sign := if (nptr.drop spaces).headD NUL = '+' ∨ (nptr.drop spaces).headD NUL = '-'
    then 1 else 0
  let digits := ((nptr.drop (spaces + sign)).takeWhile isdigit).length
  if digits = 0 then 0 else spaces + sign + digits

/-- Function `skipSpace`: the index of the first character that is neither a
space nor a tab. -/
def skipSpace : List Char → Nat
  | [] => 0
  | c :: rest => if c = SPACE ∨ c = TAB then skipSpace rest + 1 else 0

/-- Function `validCoordString`.  `strtolEnd string` is
`delimPointer - string` after the first call of `strtol`, and
`string.drop (strtolEnd string)` is `delimPointer`. -/
def validCoordString (string : List Char) : Bool :=
  if strtolEnd string > 0 then
    let delimPointer := string.drop (strtolEnd string)
    let i := skipSpace delimPointer
    if delimPointer.getD i NUL = ',' then
      let temp := delimPointer.drop (i + 1)
      if strtolEnd temp > 0 then
        let delimPointer1 := temp.drop (strtolEnd temp)
        let i1 := skipSpace delimPointer1
        if delimPointer1.getD i1 NUL = NUL ∨ delimPointer1.getD i1 NUL = NEWLINE then true
        else false
      else false
    else false
  else false

/-! ## Vocabulary of the statements -/

/-- Cell `(x, y)` (column `x`, row `y`) lies inside the grid and holds `p`. -/
def Holds (board : GameBoard) (p : TicTacTile) (x y : Int) : Prop :=
  board.inRange y x = true ∧ board.tileAt y x = p

instance (board : GameBoard) (p : TicTacTile) (x y : Int) : Decidable (Holds board p x y) := by
  unfold Holds; infer_instance

/-- Exactly `n` cells hold `p` after `(x, y)` in direction `(dx, dy)`: the cells
`(x + k*dx, y + k*dy)` for `k = 1, ..., n` all hold `p`, and the next one is
outside the grid or holds another tile. -/
def RunLength (board : GameBoard) (p : TicTacTile) (x y dx dy : Int) (n : Nat) : Prop :=
  (∀ k : Nat, k < n → Holds board p (x + ((k : Int) + 1) * dx) (y + ((k : Int) + 1) * dy)) ∧
    ¬ Holds board p (x + ((n : Int) + 1) * dx) (y + ((n : Int) + 1) * dy)

instance (board : GameBoard) (p : TicTacTile) (x y dx dy : Int) (n : Nat) :
    Decidable (RunLength board p x y dx dy n) := by
  unfold RunLength; infer_instance

/-- The four axes scanned by `checkWin`, as `(xStep, yStep)`, in the order of
the calls. -/
def winAxes : List (Int × Int) := [(1, 0), (0, 1), (1, 1), (1, -1)]

/-- There are `m` consecutive cells on the axis `(dx, dy)` that all hold `p`,
the cell `(x, y)` being the one of index `s` among them (indices `0, ..., m-1`). -/
def LineThrough (board : GameBoard) (p : TicTacTile) (x y dx dy : Int) (s m : Nat) : Prop :=
  s < m ∧ ∀ k : Nat, k < m →
    Holds board p (x + ((k : Int) - (s : Int)) * dx) (y + ((k : Int) - (s : Int)) * dy)

instance (board : GameBoard) (p : TicTacTile) (x y dx dy : Int) (s m : Nat) :
    Decidable (LineThrough board p x y dx dy s m) := by
  unfold LineThrough; infer_instance

/-- The board's player `p` has `matches` contiguous tiles somewhere: on one of
the four axes, from some cell `(x0, y0)` of the grid, the `matches` cells
`(x0 + k*dx, y0 + k*dy)` all hold `p`. -/
def HasRun (board : GameBoard) (p : TicTacTile) : Prop :=
  ∃ d ∈ winAxes, ∃ x0 : Nat, x0 < board.settings.width.toNat ∧
    ∃ y0 : Nat, y0 < board.settings.height.toNat ∧
      ∀ k : Nat, k < board.settings.matches_.toNat →
        Holds board p ((x0 : Int) + (k : Int) * d.1) ((y0 : Int) + (k : Int) * d.2)

instance (board : GameBoard) (p : TicTacTile) : Decidable (HasRun board p) := by
  unfold HasRun; infer_instance

/-- The board reflected left-right: every row reversed, same settings. -/
def mirrorLeftRight (board : GameBoard) : GameBoard :=
  { board with tiles := board.tiles.map List.reverse }

/-- The board reflected top-bottom: the rows in reverse order, same settings. -/
def mirrorTopBottom (board : GameBoard) : GameBoard :=
  { board with tiles := board.tiles.reverse }

/-- The board after a sequence of `placeTile` calls, each given as
`(tile, x, y)`. -/
def placeAll (board : GameBoard) : List (TicTacTile × Int × Int) → GameBoard
  | [] => board
  | call :: rest => placeAll (placeTile board call.1 call.2.1 call.2.2).1 rest

/-- The number of `TicTacNone` tiles in the grid. -/
def emptyCount (board : GameBoard) : Nat :=
  (board.tiles.map (List.count TicTacNone)).sum

/-- Settings as `getSettings` and `editSettings` accept them: the three values
in `1 .. MAX_DIMENSION` and neither dimension smaller than `matches`. -/
def ValidSettings (settings : Settings) : Prop :=
  (0 < settings.width ∧ settings.width ≤ 99) ∧
  (0 < settings.height ∧ settings.height ≤ 99) ∧
  (0 < settings.matches_ ∧ settings.matches_ ≤ 99) ∧
  ¬ (settings.width < settings.matches_ ∨ settings.height < settings.matches_)

instance (settings : Settings) : Decidable (ValidSettings settings) := by
  unfold ValidSettings; infer_instance

/-- On one of the four axes there is a line of at least `matches` consecutive
cells through `(x, y)` that all hold `p`. -/
def WinLine (board : GameBoard) (p : TicTacTile) (x y : Int) : Prop :=
  ∃ d ∈ winAxes, ∃ s m : Nat,
    board.settings.matches_ ≤ (m : Int) ∧ LineThrough board p x y d.1 d.2 s m

/-- The list is the well-formed linked list holding the data sequence `ds`:
node `k` carries `ds[k]`, its `next` is node `k + 1` (`NULL` on the last node),
its `last` is node `k - 1` (`NULL` on the first node), `head` and `tail` are
the first and the last node (both `NULL` for the empty list), and `size` is
the number of nodes. -/
def LinkedList.Represents {α : Type} (list : LinkedList α) (ds : List α) : Prop :=
  list.size = (ds.length : Int) ∧ list.nodes.length = ds.length ∧
  list.head = (if ds.length = 0 then none else some 0) ∧
  list.tail = (if ds.length = 0 then none else some (ds.length - 1)) ∧
  ∀ k : Nat, list.nodes[k]? = (ds[k]?).map (fun d =>
    { data := d
      next := if k + 1 < ds.length then some (k + 1) else none
      last := if k = 0 then none else some (k - 1) })

/-- What holds of the variables of `playGame` at every test of its loop
condition: the board is the well-formed grid of the settings, the player to
move is X or O, the tiles on the board are as many as the turns logged, the
turn list is a well-formed list with one entry for each turn played, and an
unfinished game has an empty cell. -/
def PlayInv (settings : Settings) (st : PlayState) : Prop :=
  st.gameBoard.settings = settings ∧ st.gameBoard.WellFormed ∧
  (st.currentPlayer = TicTacX ∨ st.currentPlayer = TicTacO) ∧
  (emptyCount st.gameBoard : Int) + (st.turnNum - 1) = settings.width * settings.height ∧
  (∃ ds : List TurnLog, st.gameLog.turnList.Represents ds ∧
    (ds.length : Int) = st.turnNum - 1) ∧
  (st.finished = false →
    ∃ i j : Int, st.gameBoard.inRange i j = true ∧ st.gameBoard.tileAt i j = TicTacNone)

/-- The coordinates of the `placeTile` calls that returned `TRUE` while the
loop of `playGame` ran from the state `st` on the submitted coordinates, in
the order of the calls. -/
def placedMoves (fuel : Nat) : PlayState → List Coordinates → List Coordinates
  | _, [] => []
  | st, newTile :: rest =>
    if st.finished then []
    else
      match playTurn fuel st newTile with
      | none => []
      | some st1 =>
        if (placeTile st.gameBoard st.currentPlayer newTile.x newTile.y).2 then
          newTile :: placedMoves fuel st1 rest
        else placedMoves fuel st1 rest

/-- The entries that successive placements at the given coordinates add to the
log when the first of them is turn `turnNum` played by `player`. -/
def logFrom (turnNum : Int) (player : TicTacTile) : List Coordinates → List TurnLog
  | [] => []
  | c :: rest =>
    { turnNum := turnNum, player := player, location := c } ::
      logFrom (turnNum + 1) (changePlayer player) rest

/-- The list grown from `createList` by `listInsertLast` of the data of `s`,
one after the other. -/
def buildList {α : Type} (s : List α) : LinkedList α :=
  s.foldl listInsertLast (createList α)

/-- A 1 x 5 board (`width = 1`, `height = 5`), `matches = 5`, filled by X. -/
def columnBoard : GameBoard :=
  { settings := { width := 1, height := 5, matches_ := 5 }
    tiles := [[1], [1], [1], [1], [1]] }

/-- A 5 x 1 board (`width = 5`, `height = 1`), `matches = 3`, with three O. -/
def rowBoard : GameBoard :=
  { settings := { width := 5, height := 1, matches_ := 3 }
    tiles := [[1, 2, 2, 2, 0]] }

/-- A 5 x 5 board, `matches = 4`, with O on row 2, columns 0 to 3. -/
def runBoard : GameBoard :=
  { settings := { width := 5, height := 5, matches_ := 4 }
    tiles := [[1, 1, 0, 0, 0], [0, 1, 0, 0, 0], [2, 2, 2, 2, 0], [0, 0, 0, 1, 0],
      [0, 0, 0, 0, 0]] }

/-- A 3 x 3 board, `matches = 3`, with X on the descending diagonal. -/
def diagonalBoard : GameBoard :=
  { settings := { width := 3, height := 3, matches_ := 3 }
    tiles := [[1, 2, 0], [2, 1, 0], [0, 0, 1]] }

/-- A 3 x 3 board, `matches = 3`, two X in the top row and the corner free. -/
def openBoard : GameBoard :=
  { settings := { width := 3, height := 3, matches_ := 3 }
    tiles := [[1, 1, 0], [2, 2, 0], [0, 0, 0]] }

/-- Eight placements on the 3 x 3 board after which only the centre is empty
and the descending diagonal lacks only the centre for X, who is to move. -/
def centreLastMoves : List Coordinates :=
  [Coordinates.mk 0 0, Coordinates.mk 1 0, Coordinates.mk 2 0, Coordinates.mk 0 1,
    Coordinates.mk 1 2, Coordinates.mk 2 1, Coordinates.mk 2 2, Coordinates.mk 0 2]

/-- A state of `playGame` on `openBoard` with X to move on turn 5. -/
def openState : PlayState :=
  { gameLog := { turnList := createList TurnLog }
    gameBoard := openBoard
    currentPlayer := TicTacX
    turnNum := 5
    finished := false }

/-- The number of cells of the grid from `(i, j)` to the edge that a scan
with the step `(yStep, xStep)` moves towards (measured along the column index
when `xStep` is not 0, along the row index otherwise): a bound on the
iterations a scan can still make from a cell of the grid. -/
def raySteps (board : GameBoard) (i j yStep xStep : Int) : Nat :=
  if xStep > 0 then (board.settings.width - j).toNat
  else if xStep < 0 then (j + 1).toNat
  else if yStep > 0 then (board.settings.height - i).toNat
  else (i + 1).toNat

/-- A 4 x 1 board, `matches = 3`, with three X and the last cell empty. -/
def gapBoard : GameBoard :=
  { settings := { width := 4, height := 1, matches_ := 3 }
    tiles := [[1, 1, 1, 0]] }

/-- The number of tiles of the grid other than `TicTacNone`. -/
def occupiedCount (board : GameBoard) : Nat :=
  (board.tiles.map (fun row => (row.filter (fun t => decide (t ≠ TicTacNone))).length)).sum

/-- The log entries `ds` and the occupied cells of the board correspond: every
entry lies in the grid on a cell that holds its player, no two entries have
the same location, and every occupied cell of the grid is the location of an
entry. -/
def BoardLog (board : GameBoard) (ds : List TurnLog) : Prop :=
  (∀ e ∈ ds, board.inRange e.location.y e.location.x = true ∧
    board.tileAt e.location.y e.location.x = e.player ∧ e.player ≠ TicTacNone) ∧
  (ds.map (fun e => e.location)).Nodup ∧
  (∀ i j : Int, board.inRange i j = true → board.tileAt i j ≠ TicTacNone →
    ∃ e ∈ ds, e.location = Coordinates.mk j i)

/-- The name of a settings line is the single letter `letter`, in either
case. -/
def IsSettingLine (letter : Char) (line : List Char × Int) : Prop :=
  line.1.length = 1 ∧ firstLower line.1 = letter

instance (letter : Char) (line : List Char × Int) : Decidable (IsSettingLine letter line) := by
  unfold IsSettingLine; infer_instance

/-- The character of the decimal digit `d`. -/
def digitChar (d : Nat) : Char := Char.ofNat (48 + d)

/-- A number below 100 written without leading zero. -/
def decimal (n : Nat) : List Char :=
  if n < 10 then [digitChar n] else [digitChar (n / 10), digitChar (n % 10)]

/-- A number below 100 written with two digits. -/
def twoDigits (n : Nat) : List Char := [digitChar (n / 10), digitChar (n % 10)]

/-- The values of the lines named `letter` among `vs`, in file order. -/
def settingValues (letter : Char) (vs : List (List Char × Int)) : List Int :=
  (vs.filter (fun line => decide (IsSettingLine letter line))).map Prod.snd

/-- What a local variable of `getSettings` holds for the lines `values` read
so far: zero when there is none, the value of the only one otherwise, which
lies in `1 .. MAX_DIMENSION`. -/
def HoldsSetting (held : Int) (values : List Int) : Prop :=
  (held = 0 ∧ values = []) ∨ (values = [held] ∧ 0 < held ∧ held ≤ MAX_DIMENSION)

/-- The state of the loop of `getSettings` after reading the lines `vs`
without error. -/
def SettingsInv (st : SettingsRead) (vs : List (List Char × Int)) : Prop :=
  st.error = false ∧
  st.lineCount = vs.length ∧
  HoldsSetting st.width (settingValues 'm' vs) ∧
  HoldsSetting st.height (settingValues 'n' vs) ∧
  HoldsSetting st.matches_ (settingValues 'k' vs) ∧
  vs.length = (settingValues 'm' vs).length + (settingValues 'n' vs).length +
    (settingValues 'k' vs).length

/-- A text of spaces and tabs, the whitespace that `skipSpace` skips. -/
def BlankText (t : List Char) : Prop :=
  ∀ c ∈ t, c = SPACE ∨ c = TAB

instance (t : List Char) : Decidable (BlankText t) := by
  unfold BlankText; infer_instance

/-- A text of one or two decimal digits. -/
def DigitText (t : List Char) : Prop :=
  (t.length = 1 ∨ t.length = 2) ∧ ∀ c ∈ t, isdigit c = true

instance (t : List Char) : Decidable (DigitText t) := by
  unfold DigitText; infer_instance

/-- The format that the comment of `validCoordString` documents:
`[ws] 1-2 digits [ws] comma [ws] 1-2 digits [ws][\n]`, with spaces and tabs
for whitespace. -/
def DocumentedCoordFormat (s : List Char) : Prop :=
  ∃ w1 d1 w2 w3 d2 w4 nl : List Char,
    s = w1 ++ d1 ++ w2 ++ [','] ++ w3 ++ d2 ++ w4 ++ nl ∧
    BlankText w1 ∧ DigitText d1 ∧ BlankText w2 ∧ BlankText w3 ∧ DigitText d2 ∧
    BlankText w4 ∧ (nl = [] ∨ nl = [NEWLINE])

/-- A text that `strtol` converts as a whole: `isspace` characters, an optional
sign, and at least one digit. -/
def NumberText (t : List Char) : Prop :=
  ∃ ws sign ds : List Char, t = ws ++ sign ++ ds ∧ (∀ c ∈ ws, isspace c = true) ∧
    (sign = [] ∨ sign = ['+'] ∨ sign = ['-']) ∧ ds ≠ [] ∧ ∀ c ∈ ds, isdigit c = true

/-- The strings that `validCoordString` takes: a number text, spaces and tabs,
a comma, a number text, spaces and tabs, and then the end of the string or a
newline (after which anything may follow). -/
def AcceptedCoordFormat (s : List Char) : Prop :=
  ∃ n1 b1 n2 b2 rest : List Char,
    s = n1 ++ b1 ++ [','] ++ n2 ++ b2 ++ rest ∧
    NumberText n1 ∧ BlankText b1 ∧ NumberText n2 ∧ BlankText b2 ∧
    (rest.headD NUL = NUL ∨ rest.headD NUL = NEWLINE)

/-- A settings file of three lines, `M=4`, `n=5` and `K=3`, as `fscanf` reads
them. -/
def threeLineFile : Option (List (Option (List Char × Int))) :=
  some [some (['M'], 4), some (['n'], 5), some (['K'], 3)]

/-- The coordinate string ` 12 , 7` followed by a newline. -/
def paddedCoordString : List Char :=
  [SPACE, '1', '2', SPACE, ',', TAB, '7', NEWLINE]

/-! ## The scans of `checkDirection` -/

theorem inRange_iff (board : GameBoard) (i j : Int) :
    board.inRange i j = true ↔
      0 ≤ i ∧ i < board.settings.height ∧ 0 ≤ j ∧ j < board.settings.width := by
  simp [GameBoard.inRange, and_assoc]

theorem scanBackward_eq_scanForward (board : GameBoard) (tile : TicTacTile)
    (yStep xStep : Int) (fuel : Nat) (i j counter : Int) (currentTile : TicTacTile) :
    scanBackward board tile yStep xStep fuel i j counter currentTile =
      scanForward board tile (-yStep) (-xStep) fuel i j counter currentTile := by
  induction fuel generalizing i j counter currentTile with
  | zero => rfl
  | succ fuel ih =>
    simp only [scanBackward, scanForward, sub_eq_add_neg, ih]

/-- A scan entered at a cell of the grid counts the `n` cells holding `tile`
from there on and stops at the first cell that does not. -/
theorem scanForward_count (board : GameBoard) (tile : TicTacTile) (yStep xStep : Int)
    (n : Nat) : ∀ (fuel : Nat) (i j counter : Int) (currentTile : TicTacTile),
    n < fuel → board.inRange i j = true →
    (∀ k : Nat, k < n → Holds board tile (j + (k : Int) * xStep) (i + (k : Int) * yStep)) →
    ¬ Holds board tile (j + (n : Int) * xStep) (i + (n : Int) * yStep) →
    ∃ ct, scanForward board tile yStep xStep fuel i j counter currentTile
      = some (counter + (n : Int), ct) := by
  induction n with
  | zero =>
    intro fuel i j counter currentTile hfuel hin _ hstop
    obtain ⟨fuel, rfl⟩ : ∃ f, fuel = f + 1 := ⟨fuel - 1, by omega⟩
    have hne : board.tileAt i j ≠ tile := by
      intro h
      apply hstop
      simpa [Holds, hin] using h
    refine ⟨board.tileAt i j, ?_⟩
    simp [scanForward, scanBody, hin, hne]
  | succ n ih =>
    intro fuel i j counter currentTile hfuel hin hrun hstop
    obtain ⟨fuel, rfl⟩ : ∃ f, fuel = f + 1 := ⟨fuel - 1, by omega⟩
    have h0 : board.tileAt i j = tile := by
      have := (hrun 0 (by omega)).2
      simpa using this
    by_cases hnext : board.inRange (i + yStep) (j + xStep) = true
    · have hrun1 : ∀ k : Nat, k < n →
          Holds board tile (j + xStep + (k : Int) * xStep) (i + yStep + (k : Int) * yStep) := by
        intro k hk
        have := hrun (k + 1) (by omega)
        have e1 : j + xStep + (k : Int) * xStep = j + ((k + 1 : Nat) : Int) * xStep := by
          push_cast; ring
        have e2 : i + yStep + (k : Int) * yStep = i + ((k + 1 : Nat) : Int) * yStep := by
          push_cast; ring
        rw [e1, e2]; exact this
      have hstop1 : ¬ Holds board tile (j + xStep + (n : Int) * xStep)
          (i + yStep + (n : Int) * yStep) := by
        have e1 : j + xStep + (n : Int) * xStep = j + ((n + 1 : Nat) : Int) * xStep := by
          push_cast; ring
        have e2 : i + yStep + (n : Int) * yStep = i + ((n + 1 : Nat) : Int) * yStep := by
          push_cast; ring
        rw [e1, e2]; exact hstop
      obtain ⟨ct, hct⟩ := ih fuel (i + yStep) (j + xStep) (counter + 1) tile (by omega) hnext
        hrun1 hstop1
      refine ⟨ct, ?_⟩
      simp only [scanForward, scanBody, hin, h0, if_true, hnext, decide_True, Bool.and_self]
      rw [hct]
      congr 2
      push_cast; ring
    · have hn : n = 0 := by
        by_contra hn
        have := (hrun 1 (by omega)).1
        apply hnext
        simpa using this
      subst hn
      refine ⟨tile, ?_⟩
      simp [scanForward, scanBody, hin, h0, hnext]

/-- A cell of the grid reached from a cell of the grid in `k` steps of a
non-zero step leaves room for two more iterations within `loopFuel`. -/
theorem steps_lt_loopFuel (board : GameBoard) (x y dx dy : Int) (k : Nat)
    (hstep : dx ≠ 0 ∨ dy ≠ 0) (h0 : board.inRange y x = true)
    (hk : board.inRange (y + (k : Int) * dy) (x + (k : Int) * dx) = true) :
    k + 2 ≤ loopFuel board := by
  rw [inRange_iff] at h0 hk
  obtain ⟨hy0, hy1, hx0, hx1⟩ := h0
  obtain ⟨ky0, ky1, kx0, kx1⟩ := hk
  have hk0 : (0 : Int) ≤ (k : Int) := Int.natCast_nonneg k
  unfold loopFuel
  rcases hstep with hdx | hdy
  · have hkw : (k : Int) < board.settings.width := by
      rcases lt_or_gt_of_ne hdx with hneg | hpos
      · have : (k : Int) * dx ≤ -(k : Int) := by nlinarith
        omega
      · have : (k : Int) ≤ (k : Int) * dx := by nlinarith
        omega
    omega
  · have hkh : (k : Int) < board.settings.height := by
      rcases lt_or_gt_of_ne hdy with hneg | hpos
      · have : (k : Int) * dy ≤ -(k : Int) := by nlinarith
        omega
      · have : (k : Int) ≤ (k : Int) * dy := by nlinarith
        omega
    omega

theorem loopFuel_pos (board : GameBoard) (x y : Int) (h0 : board.inRange y x = true) :
    2 ≤ loopFuel board := by
  rw [inRange_iff] at h0
  unfold loopFuel
  omega

/-- The count returned by `checkDirection` from a cell holding `tile`, for any
non-zero step: the cell itself, the `f` cells of the run ahead and the `bk`
cells of the run behind. -/
theorem checkDirection_eq (board : GameBoard) (tile : TicTacTile) (x y dx dy : Int)
    (f bk fuel : Nat) (hstep : dx ≠ 0 ∨ dy ≠ 0) (hstart : Holds board tile x y)
    (hf : RunLength board tile x y dx dy f) (hb : RunLength board tile x y (-dx) (-dy) bk)
    (hfuel : loopFuel board ≤ fuel) :
    checkDirection fuel board tile x y dx dy = some (1 + (f : Int) + (bk : Int)) := by
  have hin := hstart.1
  -- forward scan: the start cell and the `f` cells ahead
  have hfwd : ∃ ct, scanForward board tile dy dx fuel y x 0 TicTacNone
      = some ((0 : Int) + ((f + 1 : Nat) : Int), ct) := by
    apply scanForward_count board tile dy dx (f + 1) fuel y x 0 TicTacNone
    · rcases Nat.eq_zero_or_pos f with h | h
      · have := loopFuel_pos board x y hin
        omega
      · have hlast := (hf.1 (f - 1) (by omega)).1
        have e : ((f - 1 : Nat) : Int) + 1 = (f : Int) := by omega
        rw [e] at hlast
        have := steps_lt_loopFuel board x y dx dy f hstep hin hlast
        omega
    · exact hin
    · intro k hk
      rcases Nat.eq_zero_or_pos k with h | h
      · subst h; simpa using hstart
      · have := hf.1 (k - 1) (by omega)
        have e : ((k - 1 : Nat) : Int) + 1 = (k : Int) := by omega
        rw [e] at this
        exact this
    · have := hf.2
      push_cast
      exact this
  obtain ⟨ct, hct⟩ := hfwd
  -- backward scan
  have hbwd : ∃ ct1, scanBackward board tile dy dx fuel (y - dy) (x - dx)
      ((0 : Int) + ((f + 1 : Nat) : Int)) ct
      = some ((0 : Int) + ((f + 1 : Nat) : Int) + (bk : Int), ct1) := by
    rw [scanBackward_eq_scanForward]
    by_cases hprev : board.inRange (y - dy) (x - dx) = true
    · apply scanForward_count board tile (-dy) (-dx) bk fuel (y - dy) (x - dx) _ ct
      · rcases Nat.eq_zero_or_pos bk with h | h
        · have := loopFuel_pos board x y hin
          omega
        · have hlast := (hb.1 (bk - 1) (by omega)).1
          have e : ((bk - 1 : Nat) : Int) + 1 = (bk : Int) := by omega
          rw [e] at hlast
          have hstep1 : -dx ≠ 0 ∨ -dy ≠ 0 := by
            rcases hstep with h1 | h1
            · left; simpa using h1
            · right; simpa using h1
          have := steps_lt_loopFuel board x y (-dx) (-dy) bk hstep1 hin hlast
          omega
      · exact hprev
      · intro k hk
        have := hb.1 k hk
        have e1 : x - dx + (k : Int) * -dx = x + ((k : Int) + 1) * -dx := by ring
        have e2 : y - dy + (k : Int) * -dy = y + ((k : Int) + 1) * -dy := by ring
        rw [e1, e2]; exact this
      · have := hb.2
        have e1 : x - dx + (bk : Int) * -dx = x + ((bk : Int) + 1) * -dx := by ring
        have e2 : y - dy + (bk : Int) * -dy = y + ((bk : Int) + 1) * -dy := by ring
        rw [e1, e2]; exact this
    · have hbk : bk = 0 := by
        by_contra hne
        have := (hb.1 0 (by omega)).1
        apply hprev
        have e1 : x + (((0 : Nat) : Int) + 1) * -dx = x - dx := by push_cast; ring
        have e2 : y + (((0 : Nat) : Int) + 1) * -dy = y - dy := by push_cast; ring
        rw [e1, e2] at this
        exact this
      subst hbk
      obtain ⟨fuel, rfl⟩ : ∃ n, fuel = n + 1 := by
        have := loopFuel_pos board x y hin
        exact ⟨fuel - 1, by omega⟩
      have hprev2 : board.inRange (y - dy + -dy) (x - dx + -dx) = false := by
        rw [Bool.eq_false_iff]
        intro h2
        apply hprev
        rw [inRange_iff] at hin h2 ⊢
        omega
      refine ⟨ct, ?_⟩
      simp [scanForward, scanBody, hprev, hprev2]
  obtain ⟨ct1, hct1⟩ := hbwd
  unfold checkDirection
  rw [hct]
  simp only [hct1]
  congr 1
  push_cast
  ring

/-- From a cell of the grid every non-zero step has a run length. -/
theorem runLength_exists (board : GameBoard) (p : TicTacTile) (x y dx dy : Int)
    (hstep : dx ≠ 0 ∨ dy ≠ 0) (hin : board.inRange y x = true) :
    ∃ n : Nat, RunLength board p x y dx dy n := by
  have hex : ∃ n : Nat,
      ¬ Holds board p (x + ((n : Int) + 1) * dx) (y + ((n : Int) + 1) * dy) := by
    refine ⟨loopFuel board, fun h => ?_⟩
    have h1 := h.1
    have e1 : x + ((loopFuel board : Int) + 1) * dx
        = x + ((loopFuel board + 1 : Nat) : Int) * dx := by push_cast; ring
    have e2 : y + ((loopFuel board : Int) + 1) * dy
        = y + ((loopFuel board + 1 : Nat) : Int) * dy := by push_cast; ring
    rw [e1, e2] at h1
    have := steps_lt_loopFuel board x y dx dy (loopFuel board + 1) hstep hin h1
    omega
  refine ⟨Nat.find hex, ?_, Nat.find_spec hex⟩
  intro k hk
  have := Nat.find_min hex hk
  exact not_not.mp this

theorem runLength_unique (board : GameBoard) (p : TicTacTile) (x y dx dy : Int)
    (n m : Nat) (hn : RunLength board p x y dx dy n) (hm : RunLength board p x y dx dy m) :
    n = m := by
  rcases Nat.lt_trichotomy n m with h | h | h
  · exact absurd (hm.1 n h) hn.2
  · exact h
  · exact absurd (hn.1 m h) hm.2

theorem winAxes_step {dx dy : Int} (h : (dx, dy) ∈ winAxes) : dx ≠ 0 ∨ dy ≠ 0 := by
  simp only [winAxes, List.mem_cons, Prod.mk.injEq, List.mem_singleton, List.not_mem_nil,
    or_false] at h
  omega

/-! ## Lines through a cell and the two runs around it -/

/-- Every cell between the end of the run behind and the end of the run ahead
holds `p`. -/
theorem holds_between_runs (board : GameBoard) (p : TicTacTile) (x y dx dy : Int)
    (f bk : Nat) (hstart : Holds board p x y)
    (hf : RunLength board p x y dx dy f) (hb : RunLength board p x y (-dx) (-dy) bk)
    (t : Int) (h1 : -(bk : Int) ≤ t) (h2 : t ≤ (f : Int)) :
    Holds board p (x + t * dx) (y + t * dy) := by
  rcases lt_trichotomy t 0 with h | h | h
  · have := hb.1 (-t - 1).toNat (by omega)
    have e : (((-t - 1).toNat : Nat) : Int) + 1 = -t := by omega
    rw [e] at this
    have e1 : x + -t * -dx = x + t * dx := by ring
    have e2 : y + -t * -dy = y + t * dy := by ring
    rw [e1, e2] at this
    exact this
  · subst h; simpa using hstart
  · have := hf.1 (t - 1).toNat (by omega)
    have e : (((t - 1).toNat : Nat) : Int) + 1 = t := by omega
    rw [e] at this
    exact this

/-- A line through `(x, y)` lies within the two runs around `(x, y)`. -/
theorem line_le_runs (board : GameBoard) (p : TicTacTile) (x y dx dy : Int)
    (f bk s m : Nat)
    (hf : RunLength board p x y dx dy f) (hb : RunLength board p x y (-dx) (-dy) bk)
    (hl : LineThrough board p x y dx dy s m) : m ≤ 1 + f + bk := by
  obtain ⟨hs, hall⟩ := hl
  have hahead : m - 1 - s ≤ f := by
    by_contra hlt
    have := hall (s + f + 1) (by omega)
    have e : (((s + f + 1 : Nat) : Int) - (s : Int)) = (f : Int) + 1 := by push_cast; ring
    rw [e] at this
    exact hf.2 this
  have hbehind : s ≤ bk := by
    by_contra hlt
    have := hall (s - bk - 1) (by omega)
    have e : (((s - bk - 1 : Nat) : Int) - (s : Int)) = -((bk : Int) + 1) := by omega
    rw [e] at this
    have e1 : x + -((bk : Int) + 1) * dx = x + ((bk : Int) + 1) * -dx := by ring
    have e2 : y + -((bk : Int) + 1) * dy = y + ((bk : Int) + 1) * -dy := by ring
    rw [e1, e2] at this
    exact hb.2 this
  omega

/-- Within the two runs there is a line of every length from 1 to their total. -/
theorem line_of_runs (board : GameBoard) (p : TicTacTile) (x y dx dy : Int)
    (f bk m : Nat) (hstart : Holds board p x y)
    (hf : RunLength board p x y dx dy f) (hb : RunLength board p x y (-dx) (-dy) bk)
    (hm0 : 0 < m) (hm : m ≤ 1 + f + bk) :
    ∃ s : Nat, LineThrough board p x y dx dy s m := by
  refine ⟨min bk (m - 1), ?_, ?_⟩
  · omega
  · intro k hk
    apply holds_between_runs board p x y dx dy f bk hstart hf hb <;> omega

/-- The value of `checkWin` from the four counts. -/
theorem checkWin_of_counts (fuel : Nat) (board : GameBoard) (tile : TicTacTile) (x y : Int)
    (c1 c2 c3 c4 : Int)
    (h1 : checkDirection fuel board tile x y 1 0 = some c1)
    (h2 : checkDirection fuel board tile x y 0 1 = some c2)
    (h3 : checkDirection fuel board tile x y 1 1 = some c3)
    (h4 : checkDirection fuel board tile x y 1 (-1) = some c4) :
    checkWin fuel board tile x y = some (decide
      (board.settings.matches_ ≤ c1 ∨ board.settings.matches_ ≤ c2 ∨
        board.settings.matches_ ≤ c3 ∨ board.settings.matches_ ≤ c4)) := by
  unfold checkWin
  simp only [h1, h2, h3, h4, ge_iff_le]
  by_cases a1 : board.settings.matches_ ≤ c1
  · simp [a1]
  · by_cases a2 : board.settings.matches_ ≤ c2
    · simp [a1, a2]
    · by_cases a3 : board.settings.matches_ ≤ c3
      · simp [a1, a2, a3]
      · by_cases a4 : board.settings.matches_ ≤ c4 <;> simp [a1, a2, a3, a4]

/-- The total length of the two runs around `(x, y)` on an axis, the cell
itself included: `some` value exists from every cell of the grid. -/
theorem axis_count (board : GameBoard) (p : TicTacTile) (x y dx dy : Int)
    (hstep : dx ≠ 0 ∨ dy ≠ 0) (hstart : Holds board p x y) :
    ∃ c : Nat, (∀ fuel, loopFuel board ≤ fuel →
        checkDirection fuel board p x y dx dy = some (c : Int)) ∧
      (∀ s m : Nat, LineThrough board p x y dx dy s m → m ≤ c) ∧
      (∀ m : Nat, 0 < m → m ≤ c → ∃ s, LineThrough board p x y dx dy s m) ∧ 0 < c := by
  obtain ⟨f, hf⟩ := runLength_exists board p x y dx dy hstep hstart.1
  obtain ⟨bk, hb⟩ := runLength_exists board p x y (-dx) (-dy)
    (by rcases hstep with h | h
        · left; simpa using h
        · right; simpa using h) hstart.1
  refine ⟨1 + f + bk, ?_, ?_, ?_, by omega⟩
  · intro fuel hfuel
    have := checkDirection_eq board p x y dx dy f bk fuel hstep hstart hf hb hfuel
    rw [this]; push_cast; rfl
  · intro s m hl
    exact line_le_runs board p x y dx dy f bk s m hf hb hl
  · intro m hm0 hm
    exact line_of_runs board p x y dx dy f bk m hstart hf hb hm0 hm

/-- The value of `checkWin` from a cell holding `p`, in terms of lines. -/
theorem checkWin_spec (board : GameBoard) (p : TicTacTile) (x y : Int) (fuel : Nat)
    (hstart : Holds board p x y) (hfuel : loopFuel board ≤ fuel) :
    ∃ won : Bool, checkWin fuel board p x y = some won ∧
      (won = true ↔ WinLine board p x y) ∧
      (0 < board.settings.matches_ →
        (won = true ↔ ∃ d ∈ winAxes, ∃ s : Nat,
          LineThrough board p x y d.1 d.2 s board.settings.matches_.toNat)) := by
  obtain ⟨c1, hc1, hle1, hex1, hpos1⟩ := axis_count board p x y 1 0 (by omega) hstart
  obtain ⟨c2, hc2, hle2, hex2, hpos2⟩ := axis_count board p x y 0 1 (by omega) hstart
  obtain ⟨c3, hc3, hle3, hex3, hpos3⟩ := axis_count board p x y 1 1 (by omega) hstart
  obtain ⟨c4, hc4, hle4, hex4, hpos4⟩ := axis_count board p x y 1 (-1) (by omega) hstart
  refine ⟨_, checkWin_of_counts fuel board p x y c1 c2 c3 c4 (hc1 fuel hfuel) (hc2 fuel hfuel)
    (hc3 fuel hfuel) (hc4 fuel hfuel), ?_, ?_⟩
  · rw [decide_eq_true_iff]
    unfold WinLine
    constructor
    · rintro (h | h | h | h)
      · obtain ⟨s, hs⟩ := hex1 c1 hpos1 le_rfl
        exact ⟨(1, 0), by simp [winAxes], s, c1, h, hs⟩
      · obtain ⟨s, hs⟩ := hex2 c2 hpos2 le_rfl
        exact ⟨(0, 1), by simp [winAxes], s, c2, h, hs⟩
      · obtain ⟨s, hs⟩ := hex3 c3 hpos3 le_rfl
        exact ⟨(1, 1), by simp [winAxes], s, c3, h, hs⟩
      · obtain ⟨s, hs⟩ := hex4 c4 hpos4 le_rfl
        exact ⟨(1, -1), by simp [winAxes], s, c4, h, hs⟩
    · rintro ⟨⟨dx, dy⟩, hd, s, m, hm, hl⟩
      simp only [winAxes, List.mem_cons, Prod.mk.injEq, List.mem_singleton, List.not_mem_nil,
        or_false] at hd
      rcases hd with ⟨rfl, rfl⟩ | ⟨rfl, rfl⟩ | ⟨rfl, rfl⟩ | ⟨rfl, rfl⟩
      · have := hle1 s m hl; left; omega
      · have := hle2 s m hl; right; left; omega
      · have := hle3 s m hl; right; right; left; omega
      · have := hle4 s m hl; right; right; right; omega
  · intro hmpos
    rw [decide_eq_true_iff]
    constructor
    · rintro (h | h | h | h)
      · obtain ⟨s, hs⟩ := hex1 board.settings.matches_.toNat (by omega) (by omega)
        exact ⟨(1, 0), by simp [winAxes], s, hs⟩
      · obtain ⟨s, hs⟩ := hex2 board.settings.matches_.toNat (by omega) (by omega)
        exact ⟨(0, 1), by simp [winAxes], s, hs⟩
      · obtain ⟨s, hs⟩ := hex3 board.settings.matches_.toNat (by omega) (by omega)
        exact ⟨(1, 1), by simp [winAxes], s, hs⟩
      · obtain ⟨s, hs⟩ := hex4 board.settings.matches_.toNat (by omega) (by omega)
        exact ⟨(1, -1), by simp [winAxes], s, hs⟩
    · rintro ⟨⟨dx, dy⟩, hd, s, hl⟩
      simp only [winAxes, List.mem_cons, Prod.mk.injEq, List.mem_singleton, List.not_mem_nil,
        or_false] at hd
      rcases hd with ⟨rfl, rfl⟩ | ⟨rfl, rfl⟩ | ⟨rfl, rfl⟩ | ⟨rfl, rfl⟩
      · have := hle1 s _ hl; left; omega
      · have := hle2 s _ hl; right; left; omega
      · have := hle3 s _ hl; right; right; left; omega
      · have := hle4 s _ hl; right; right; right; omega

/-! ## Claims on `checkWin` and `checkDirection` -/

/-- C1: from a cell of the grid that holds `p` (so the board has positive
dimensions), with fuel for the scans, `checkWin` returns a value, and it is
`TRUE` if and only if on one of the four axes there is a line of consecutive
cells through `(x, y)`, all inside the grid and holding `p`, of length at
least `matches`; for `matches >= 1` this is the same as a line of exactly
`matches` cells. -/
theorem checkWin_iff_line (board : GameBoard) (p : TicTacTile) (x y : Int) (fuel : Nat)
    (hstart : Holds board p x y) (hfuel : loopFuel board ≤ fuel) :
    ∃ won : Bool, checkWin fuel board p x y = some won ∧
      (won = true ↔ ∃ d ∈ winAxes, ∃ s m : Nat,
          board.settings.matches_ ≤ (m : Int) ∧ LineThrough board p x y d.1 d.2 s m) ∧
      (0 < board.settings.matches_ →
        (won = true ↔ ∃ d ∈ winAxes, ∃ s : Nat,
          LineThrough board p x y d.1 d.2 s board.settings.matches_.toNat)) :=
  checkWin_spec board p x y fuel hstart hfuel

/-- C2: from a cell of the grid that holds `p`, along each of the four
directions of `checkWin`, `checkDirection` returns `1 + f + b`, where `f` cells
hold `p` ahead of `(x, y)` before the first cell that is outside the grid or
holds another tile, and `b` cells do behind it. -/
theorem checkDirection_count (board : GameBoard) (p : TicTacTile) (x y dx dy : Int)
    (hstart : Holds board p x y) (hdir : (dx, dy) ∈ winAxes) :
    ∃ f b : Nat, RunLength board p x y dx dy f ∧ RunLength board p x y (-dx) (-dy) b ∧
      ∀ fuel : Nat, loopFuel board ≤ fuel →
        checkDirection fuel board p x y dx dy = some (1 + (f : Int) + (b : Int)) := by
  have hstep := winAxes_step hdir
  obtain ⟨f, hf⟩ := runLength_exists board p x y dx dy hstep hstart.1
  obtain ⟨bk, hb⟩ := runLength_exists board p x y (-dx) (-dy)
    (by rcases hstep with h | h
        · left; simpa using h
        · right; simpa using h) hstart.1
  exact ⟨f, bk, hf, hb, fun fuel hfuel =>
    checkDirection_eq board p x y dx dy f bk fuel hstep hstart hf hb hfuel⟩

/-! ## `placeTile` -/

theorem getD_set_grid {α : Type} (l : List (List α)) (a c i j : Nat) (t d : α) :
    ((l.set a ((l.getD a []).set c t)).getD i []).getD j d =
      if i = a ∧ j = c ∧ a < l.length ∧ c < (l.getD a []).length then t
      else (l.getD i []).getD j d := by
  simp only [List.getD_eq_getElem?_getD, List.getElem?_set]
  by_cases hia : a = i
  · subst hia
    by_cases hal : a < l.length
    · simp only [hal, if_true, Option.getD_some, List.getElem?_set]
      by_cases hjc : c = j
      · subst hjc
        by_cases hc : c < (l[a]?.getD []).length
        · simp [hc]
        · have h2 : (l[a]?.getD [])[c]? = none := List.getElem?_eq_none (by omega)
          simp [hc, h2]
      · have : ¬ j = c := fun h => hjc h.symm
        simp [hjc, this]
    · have h1 : l[a]? = none := List.getElem?_eq_none (by omega)
      simp [hal, h1]
  · have : ¬ i = a := fun h => hia h.symm
    simp [hia, this]

/-- The two outcomes of `placeTile`. -/
theorem placeTile_cases (board : GameBoard) (tile : TicTacTile) (x y : Int) :
    (board.inRange y x = true ∧ board.tileAt y x = TicTacNone ∧
      placeTile board tile x y =
        ({ board with tiles :=
            board.tiles.set y.toNat ((board.tiles.getD y.toNat []).set x.toNat tile) }, true)) ∨
    (¬ (board.inRange y x = true ∧ board.tileAt y x = TicTacNone) ∧
      placeTile board tile x y = (board, false)) := by
  unfold placeTile
  by_cases hr : x ≥ 0 ∧ x < board.settings.width ∧ y ≥ 0 ∧ y < board.settings.height
  · have hin : board.inRange y x = true := by rw [inRange_iff]; omega
    by_cases he : board.tileAt y x = TicTacNone
    · left; simp [hr, he, hin]
    · right; simp [hr, he]
  · have hin : ¬ board.inRange y x = true := by rw [inRange_iff]; omega
    right; simp [hr, hin]

theorem placeTile_settings (board : GameBoard) (tile : TicTacTile) (x y : Int) :
    (placeTile board tile x y).1.settings = board.settings := by
  rcases placeTile_cases board tile x y with ⟨_, _, h⟩ | ⟨_, h⟩ <;> rw [h]

/-- A row index inside a well-formed grid reads a row of `width` tiles. -/
theorem wellFormed_row (board : GameBoard) (hwf : board.WellFormed) (i : Int)
    (h0 : 0 ≤ i) (h1 : i < board.settings.height) :
    i.toNat < board.tiles.length ∧
      ((board.tiles.getD i.toNat []).length : Int) = board.settings.width := by
  have hlen : i.toNat < board.tiles.length := by
    have := hwf.1; omega
  refine ⟨hlen, ?_⟩
  apply hwf.2
  rw [List.getD_eq_getElem?_getD, List.getElem?_eq_getElem hlen]
  exact List.getElem_mem hlen

theorem placeTile_wellFormed (board : GameBoard) (tile : TicTacTile) (x y : Int)
    (hwf : board.WellFormed) : (placeTile board tile x y).1.WellFormed := by
  rcases placeTile_cases board tile x y with ⟨hin, _, h⟩ | ⟨_, h⟩
  · rw [h]
    rw [inRange_iff] at hin
    obtain ⟨_, hrow⟩ := wellFormed_row board hwf y hin.1 hin.2.1
    refine ⟨by simpa using hwf.1, ?_⟩
    intro row hmem
    rcases List.mem_or_eq_of_mem_set hmem with h1 | h1
    · exact hwf.2 row h1
    · rw [h1]; simpa using hrow
  · rw [h]; exact hwf

/-- The tiles read after a successful `placeTile` on a well-formed board. -/
theorem placeTile_tileAt (board : GameBoard) (tile : TicTacTile) (x y : Int)
    (hok : (placeTile board tile x y).2 = true) (i j : Int) (hi : 0 ≤ i) (hj : 0 ≤ j) :
    (i ≠ y ∨ j ≠ x → (placeTile board tile x y).1.tileAt i j = board.tileAt i j) ∧
    (board.WellFormed → (placeTile board tile x y).1.tileAt y x = tile) := by
  rcases placeTile_cases board tile x y with ⟨hin, _, h⟩ | ⟨_, h⟩
  · rw [h]
    rw [inRange_iff] at hin
    constructor
    · intro hne
      simp only [GameBoard.tileAt]
      rw [getD_set_grid]
      have : ¬ (i.toNat = y.toNat ∧ j.toNat = x.toNat ∧ y.toNat < board.tiles.length ∧
          x.toNat < (board.tiles.getD y.toNat []).length) := by
        intro hc; omega
      rw [if_neg this]
    · intro hwf
      obtain ⟨hlen, hrow⟩ := wellFormed_row board hwf y hin.1 hin.2.1
      simp only [GameBoard.tileAt]
      rw [getD_set_grid]
      have : y.toNat = y.toNat ∧ x.toNat = x.toNat ∧ y.toNat < board.tiles.length ∧
          x.toNat < (board.tiles.getD y.toNat []).length := by
        refine ⟨rfl, rfl, hlen, ?_⟩
        omega
      rw [if_pos this]
  · rw [h] at hok; simp at hok

theorem placeTile_inRange (board : GameBoard) (tile : TicTacTile) (x y i j : Int) :
    (placeTile board tile x y).1.inRange i j = board.inRange i j := by
  simp only [GameBoard.inRange, placeTile_settings]

theorem placeTile_failure_same (board : GameBoard) (tile : TicTacTile) (x y : Int)
    (hfail : (placeTile board tile x y).2 = false) :
    (placeTile board tile x y).1 = board := by
  rcases placeTile_cases board tile x y with ⟨_, _, h⟩ | ⟨_, h⟩
  · rw [h] at hfail; simp at hfail
  · rw [h]

/-- C3: `placeTile` returns `FALSE` exactly when `x` is outside `[0, width)`,
or `y` is outside `[0, height)`, or the target cell is not `TicTacNone`; in
every other case it returns `TRUE`. -/
theorem placeTile_fails_iff (board : GameBoard) (tile : TicTacTile) (x y : Int) :
    ((placeTile board tile x y).2 = false ↔
      ((x < 0 ∨ board.settings.width ≤ x) ∨ (y < 0 ∨ board.settings.height ≤ y) ∨
        board.tileAt y x ≠ TicTacNone)) ∧
    ((placeTile board tile x y).2 = true ↔
      ((0 ≤ x ∧ x < board.settings.width) ∧ (0 ≤ y ∧ y < board.settings.height) ∧
        board.tileAt y x = TicTacNone)) := by
  rcases placeTile_cases board tile x y with ⟨hin, he, h⟩ | ⟨hn, h⟩
  · rw [h]
    rw [inRange_iff] at hin
    simp only [Bool.true_eq_false, false_iff, true_iff, he, ne_eq, not_true_eq_false, or_false,
      and_true]
    omega
  · rw [h]
    rw [inRange_iff] at hn
    simp only [true_iff, Bool.false_eq_true, false_iff]
    constructor
    · by_cases he : board.tileAt y x = TicTacNone
      · have : ¬ (0 ≤ y ∧ y < board.settings.height ∧ 0 ≤ x ∧ x < board.settings.width) :=
          fun hc => hn ⟨hc, he⟩
        omega
      · exact Or.inr (Or.inr he)
    · rintro ⟨hx, hy, he⟩
      exact hn ⟨⟨hy.1, hy.2, hx.1, hx.2⟩, he⟩

/-- C4: after a successful `placeTile` on a well-formed board the cell
`(x, y)` (row `y`, column `x`) holds `tile`, every other cell reads as before,
the settings are unchanged and the grid keeps its shape. -/
theorem placeTile_success_frame (board : GameBoard) (tile : TicTacTile) (x y : Int)
    (hwf : board.WellFormed) (hok : (placeTile board tile x y).2 = true) :
    (placeTile board tile x y).1.tileAt y x = tile ∧
    (∀ i j : Int, 0 ≤ i → 0 ≤ j → (i ≠ y ∨ j ≠ x) →
      (placeTile board tile x y).1.tileAt i j = board.tileAt i j) ∧
    (placeTile board tile x y).1.settings = board.settings ∧
    (placeTile board tile x y).1.WellFormed := by
  refine ⟨?_, ?_, placeTile_settings board tile x y, placeTile_wellFormed board tile x y hwf⟩
  · exact (placeTile_tileAt board tile x y hok 0 0 le_rfl le_rfl).2 hwf
  · intro i j hi hj hne
    exact (placeTile_tileAt board tile x y hok i j hi hj).1 hne

/-- C5: when `placeTile` fails the board after the call is the board before
the call: the same grid, cell for cell, and the same settings. -/
theorem placeTile_failure_unchanged (board : GameBoard) (tile : TicTacTile) (x y : Int)
    (hfail : (placeTile board tile x y).2 = false) :
    (placeTile board tile x y).1 = board :=
  placeTile_failure_same board tile x y hfail

/-! ## `checkDraw` -/

/-- The inner loop of `checkDraw`: the flag stays `TRUE` exactly when it was
`TRUE` and no tile from column `j` on is `TicTacNone`. -/
theorem checkDrawRow_spec (board : GameBoard) (i : Int) (n : Nat) :
    ∀ (fuel : Nat) (j : Int) (flag : Bool),
      (board.settings.width - j).toNat = n → n < fuel →
      ∃ r, checkDrawRow board i fuel j flag = some r ∧
        (r = true ↔ flag = true ∧
          ∀ j1 : Int, j ≤ j1 → j1 < board.settings.width → board.tileAt i j1 ≠ TicTacNone) := by
  induction n with
  | zero =>
    intro fuel j flag hn hfuel
    obtain ⟨fuel, rfl⟩ : ∃ f, fuel = f + 1 := ⟨fuel - 1, by omega⟩
    have hj : ¬ j < board.settings.width := by omega
    refine ⟨flag, by simp [checkDrawRow, hj], ?_⟩
    constructor
    · intro h; exact ⟨h, fun j1 h1 h2 => by omega⟩
    · intro h; exact h.1
  | succ n ih =>
    intro fuel j flag hn hfuel
    obtain ⟨fuel, rfl⟩ : ∃ f, fuel = f + 1 := ⟨fuel - 1, by omega⟩
    have hj : j < board.settings.width := by omega
    cases flag with
    | false => exact ⟨false, by simp [checkDrawRow], by simp⟩
    | true =>
      obtain ⟨r, hr, hiff⟩ := ih fuel (j + 1)
        (if board.tileAt i j = TicTacNone then false else true) (by omega) (by omega)
      refine ⟨r, ?_, ?_⟩
      · simp only [checkDrawRow, hj, decide_True, Bool.and_self, if_true]
        exact hr
      rw [hiff]
      constructor
      · rintro ⟨hflag, hall⟩
        have hcur : board.tileAt i j ≠ TicTacNone := by
          intro hc; simp [hc] at hflag
        refine ⟨rfl, fun j1 h1 h2 => ?_⟩
        rcases eq_or_lt_of_le h1 with h | h
        · rw [← h]; exact hcur
        · exact hall j1 (by omega) h2
      · rintro ⟨_, hall⟩
        have hcur := hall j le_rfl hj
        exact ⟨by simp [hcur], fun j1 h1 h2 => hall j1 (by omega) h2⟩

/-- The outer loop of `checkDraw`, from row `i`. -/
theorem checkDrawRows_spec (board : GameBoard) (fuel : Nat)
    (hfuel : board.settings.width.toNat < fuel) (n : Nat) :
    ∀ (m : Nat) (i : Int) (flag : Bool),
      (board.settings.height - i).toNat = n → n < m →
      ∃ r, checkDrawRows board fuel m i flag = some r ∧
        (r = true ↔ flag = true ∧
          ∀ i1 j1 : Int, i ≤ i1 → i1 < board.settings.height → 0 ≤ j1 →
            j1 < board.settings.width → board.tileAt i1 j1 ≠ TicTacNone) := by
  induction n with
  | zero =>
    intro m i flag hn hm
    obtain ⟨m, rfl⟩ : ∃ f, m = f + 1 := ⟨m - 1, by omega⟩
    have hi : ¬ i < board.settings.height := by omega
    refine ⟨flag, by simp [checkDrawRows, hi], ?_⟩
    constructor
    · intro h; exact ⟨h, fun i1 j1 h1 h2 => by omega⟩
    · intro h; exact h.1
  | succ n ih =>
    intro m i flag hn hm
    obtain ⟨m, rfl⟩ : ∃ f, m = f + 1 := ⟨m - 1, by omega⟩
    have hi : i < board.settings.height := by omega
    cases flag with
    | false => exact ⟨false, by simp [checkDrawRows], by simp⟩
    | true =>
      obtain ⟨r0, hr0, hiff0⟩ := checkDrawRow_spec board i (board.settings.width - 0).toNat
        fuel 0 true rfl (by simpa using hfuel)
      obtain ⟨r, hr, hiff⟩ := ih m (i + 1) r0 (by omega) (by omega)
      refine ⟨r, by simp [checkDrawRows, hi, hr0, hr], ?_⟩
      rw [hiff, hiff0]
      constructor
      · rintro ⟨⟨_, hrow⟩, hall⟩
        refine ⟨rfl, fun i1 j1 h1 h2 h3 h4 => ?_⟩
        rcases eq_or_lt_of_le h1 with h | h
        · rw [← h]; exact hrow j1 h3 h4
        · exact hall i1 j1 (by omega) h2 h3 h4
      · rintro ⟨_, hall⟩
        exact ⟨⟨rfl, fun j1 h3 h4 => hall i j1 le_rfl hi h3 h4⟩,
          fun i1 j1 h1 h2 h3 h4 => hall i1 j1 (by omega) h2 h3 h4⟩

/-- The value of `checkDraw` with enough fuel. -/
theorem checkDraw_spec (board : GameBoard) (fuel : Nat) (hfuel : loopFuel board ≤ fuel) :
    ∃ r, checkDraw fuel board = some r ∧
      (r = true ↔
        ∀ i j : Int, board.inRange i j = true → board.tileAt i j ≠ TicTacNone) := by
  unfold loopFuel at hfuel
  obtain ⟨r, hr, hiff⟩ := checkDrawRows_spec board fuel (by omega)
    (board.settings.height - 0).toNat fuel 0 true rfl (by simp only [sub_zero]; omega)
  refine ⟨r, hr, ?_⟩
  rw [hiff]
  constructor
  · rintro ⟨_, hall⟩ i j hin
    rw [inRange_iff] at hin
    exact hall i j hin.1 hin.2.1 hin.2.2.1 hin.2.2.2
  · intro hall
    exact ⟨rfl, fun i1 j1 h1 h2 h3 h4 => hall i1 j1 (by rw [inRange_iff]; omega)⟩

/-- C8: with fuel for its loops `checkDraw` returns a value; it is `TRUE` if
and only if no cell of the `height` x `width` grid is `TicTacNone`, and it is
`FALSE` as soon as one cell of the grid, wherever it is, is `TicTacNone`. -/
theorem checkDraw_iff_full (board : GameBoard) (fuel : Nat) (hfuel : loopFuel board ≤ fuel) :
    ∃ r, checkDraw fuel board = some r ∧
      (r = true ↔
        ∀ i j : Int, board.inRange i j = true → board.tileAt i j ≠ TicTacNone) ∧
      (r = false ↔
        ∃ i j : Int, board.inRange i j = true ∧ board.tileAt i j = TicTacNone) := by
  obtain ⟨r, hr, hiff⟩ := checkDraw_spec board fuel hfuel
  refine ⟨r, hr, hiff, ?_⟩
  rw [← Bool.not_eq_true, hiff]
  push_neg
  rfl

/-- C9: through any sequence of `placeTile` calls, with any tiles and
coordinates, a cell that is not `TicTacNone` after some of the calls holds the
same value after every later call. -/
theorem placeAll_keeps_tiles (board : GameBoard) (calls later : List (TicTacTile × Int × Int))
    (i j : Int) (hi : 0 ≤ i) (hj : 0 ≤ j)
    (hne : (placeAll board calls).tileAt i j ≠ TicTacNone) :
    (placeAll board (calls ++ later)).tileAt i j = (placeAll board calls).tileAt i j := by
  have happ : ∀ (b : GameBoard) (l1 l2 : List (TicTacTile × Int × Int)),
      placeAll b (l1 ++ l2) = placeAll (placeAll b l1) l2 := by
    intro b l1
    induction l1 generalizing b with
    | nil => intro l2; rfl
    | cons c l1 ih => intro l2; exact ih (placeTile b c.1 c.2.1 c.2.2).1 l2
  have hkeep : ∀ (l : List (TicTacTile × Int × Int)) (b : GameBoard),
      b.tileAt i j ≠ TicTacNone → (placeAll b l).tileAt i j = b.tileAt i j := by
    intro l
    induction l with
    | nil => intro b _; rfl
    | cons c l ih =>
      intro b hb
      have hstep : (placeTile b c.1 c.2.1 c.2.2).1.tileAt i j = b.tileAt i j := by
        rcases placeTile_cases b c.1 c.2.1 c.2.2 with ⟨_, he, h⟩ | ⟨_, h⟩
        · have hok : (placeTile b c.1 c.2.1 c.2.2).2 = true := by rw [h]
          apply (placeTile_tileAt b c.1 c.2.1 c.2.2 hok i j hi hj).1
          by_contra hc
          push_neg at hc
          rw [hc.1, hc.2] at hb
          exact hb he
        · rw [h]
      simp only [placeAll]
      rw [ih _ (by rw [hstep]; exact hb), hstep]
  rw [happ]
  exact hkeep later _ hne

/-! ## Reflected boards -/

theorem getD_map_reverse (l : List (List TicTacTile)) (i : Nat) :
    (l.map List.reverse).getD i [] = (l.getD i []).reverse := by
  simp only [List.getD_eq_getElem?_getD, List.getElem?_map]
  cases l[i]? <;> simp

theorem getD_reverse {α : Type} (l : List α) (j : Nat) (d : α) (hj : j < l.length) :
    l.reverse.getD j d = l.getD (l.length - 1 - j) d := by
  simp only [List.getD_eq_getElem?_getD, List.getElem?_reverse hj]

theorem tileAt_mirrorLeftRight (board : GameBoard) (hwf : board.WellFormed) (i j : Int)
    (hin : board.inRange i j = true) :
    (mirrorLeftRight board).tileAt i j = board.tileAt i (board.settings.width - 1 - j) := by
  rw [inRange_iff] at hin
  obtain ⟨_, hrow⟩ := wellFormed_row board hwf i hin.1 hin.2.1
  simp only [GameBoard.tileAt, mirrorLeftRight, getD_map_reverse]
  rw [getD_reverse _ _ _ (by omega)]
  congr 1
  omega

theorem tileAt_mirrorTopBottom (board : GameBoard) (hwf : board.WellFormed) (i j : Int)
    (hin : board.inRange i j = true) :
    (mirrorTopBottom board).tileAt i j = board.tileAt (board.settings.height - 1 - i) j := by
  rw [inRange_iff] at hin
  have hlen := hwf.1
  simp only [GameBoard.tileAt, mirrorTopBottom]
  rw [getD_reverse _ _ _ (by omega)]
  congr 2
  omega

theorem holds_mirrorLeftRight (board : GameBoard) (hwf : board.WellFormed) (p : TicTacTile)
    (x y : Int) :
    Holds (mirrorLeftRight board) p x y ↔ Holds board p (board.settings.width - 1 - x) y := by
  have hr : (mirrorLeftRight board).inRange y x = board.inRange y x := rfl
  have hr2 : board.inRange y (board.settings.width - 1 - x) = board.inRange y x := by
    rw [Bool.eq_iff_iff, inRange_iff, inRange_iff]; omega
  unfold Holds
  rw [hr, hr2]
  constructor
  · rintro ⟨hin, ht⟩
    exact ⟨hin, by rw [← tileAt_mirrorLeftRight board hwf y x hin]; exact ht⟩
  · rintro ⟨hin, ht⟩
    exact ⟨hin, by rw [tileAt_mirrorLeftRight board hwf y x hin]; exact ht⟩

theorem holds_mirrorTopBottom (board : GameBoard) (hwf : board.WellFormed) (p : TicTacTile)
    (x y : Int) :
    Holds (mirrorTopBottom board) p x y ↔ Holds board p x (board.settings.height - 1 - y) := by
  have hr : (mirrorTopBottom board).inRange y x = board.inRange y x := rfl
  have hr2 : board.inRange (board.settings.height - 1 - y) x = board.inRange y x := by
    rw [Bool.eq_iff_iff, inRange_iff, inRange_iff]; omega
  unfold Holds
  rw [hr, hr2]
  constructor
  · rintro ⟨hin, ht⟩
    exact ⟨hin, by rw [← tileAt_mirrorTopBottom board hwf y x hin]; exact ht⟩
  · rintro ⟨hin, ht⟩
    exact ⟨hin, by rw [tileAt_mirrorTopBottom board hwf y x hin]; exact ht⟩

/-- A line seen on the left-right reflected board is the line with the
horizontal step reversed. -/
theorem line_mirrorLeftRight (board : GameBoard) (hwf : board.WellFormed) (p : TicTacTile)
    (x y dx dy : Int) (s m : Nat) :
    LineThrough (mirrorLeftRight board) p (board.settings.width - 1 - x) y dx dy s m ↔
      LineThrough board p x y (-dx) dy s m := by
  unfold LineThrough
  apply and_congr_right
  intro _
  apply forall_congr'
  intro k
  apply imp_congr_right
  intro _
  rw [holds_mirrorLeftRight board hwf]
  have e : board.settings.width - 1 -
      (board.settings.width - 1 - x + ((k : Int) - (s : Int)) * dx)
      = x + ((k : Int) - (s : Int)) * -dx := by ring
  rw [e]

/-- A line seen on the top-bottom reflected board is the line with the
vertical step reversed. -/
theorem line_mirrorTopBottom (board : GameBoard) (hwf : board.WellFormed) (p : TicTacTile)
    (x y dx dy : Int) (s m : Nat) :
    LineThrough (mirrorTopBottom board) p x (board.settings.height - 1 - y) dx dy s m ↔
      LineThrough board p x y dx (-dy) s m := by
  unfold LineThrough
  apply and_congr_right
  intro _
  apply forall_congr'
  intro k
  apply imp_congr_right
  intro _
  rw [holds_mirrorTopBottom board hwf]
  have e : board.settings.height - 1 -
      (board.settings.height - 1 - y + ((k : Int) - (s : Int)) * dy)
      = y + ((k : Int) - (s : Int)) * -dy := by ring
  rw [e]

/-- A line read in the opposite direction. -/
theorem line_flip (board : GameBoard) (p : TicTacTile) (x y dx dy : Int) (s m : Nat)
    (h : LineThrough board p x y (-dx) (-dy) s m) :
    LineThrough board p x y dx dy (m - 1 - s) m := by
  obtain ⟨hs, hall⟩ := h
  refine ⟨by omega, fun k hk => ?_⟩
  have := hall (m - 1 - k) (by omega)
  have e : (((m - 1 - k : Nat) : Int) - (s : Int)) = -((k : Int) - ((m - 1 - s : Nat) : Int)) := by
    omega
  rw [e] at this
  have e1 : x + -((k : Int) - ((m - 1 - s : Nat) : Int)) * -dx
      = x + ((k : Int) - ((m - 1 - s : Nat) : Int)) * dx := by ring
  have e2 : y + -((k : Int) - ((m - 1 - s : Nat) : Int)) * -dy
      = y + ((k : Int) - ((m - 1 - s : Nat) : Int)) * dy := by ring
  rw [e1, e2] at this
  exact this

/-- A long enough line along an axis of `checkWin` or along the opposite of
one is a winning line. -/
theorem winLine_of_line (board : GameBoard) (p : TicTacTile) (x y dx dy : Int) (s m : Nat)
    (hd : (dx, dy) ∈ winAxes ∨ (-dx, -dy) ∈ winAxes)
    (hm : board.settings.matches_ ≤ (m : Int))
    (hl : LineThrough board p x y dx dy s m) : WinLine board p x y := by
  rcases hd with hd | hd
  · exact ⟨(dx, dy), hd, s, m, hm, hl⟩
  · refine ⟨(-dx, -dy), hd, m - 1 - s, m, hm, ?_⟩
    apply line_flip
    simpa using hl

theorem winLine_mirrorLeftRight (board : GameBoard) (hwf : board.WellFormed) (p : TicTacTile)
    (x y : Int) :
    WinLine (mirrorLeftRight board) p (board.settings.width - 1 - x) y ↔
      WinLine board p x y := by
  constructor
  · rintro ⟨⟨dx, dy⟩, hd, s, m, hm, hl⟩
    rw [line_mirrorLeftRight board hwf] at hl
    refine winLine_of_line board p x y (-dx) dy s m ?_ hm hl
    simp only [winAxes, List.mem_cons, Prod.mk.injEq, List.mem_singleton, List.not_mem_nil,
      or_false] at hd
    rcases hd with ⟨rfl, rfl⟩ | ⟨rfl, rfl⟩ | ⟨rfl, rfl⟩ | ⟨rfl, rfl⟩ <;> decide
  · rintro ⟨⟨dx, dy⟩, hd, s, m, hm, hl⟩
    have hl1 : LineThrough (mirrorLeftRight board) p (board.settings.width - 1 - x) y
        (-dx) dy s m := by
      rw [line_mirrorLeftRight board hwf]; simpa using hl
    refine winLine_of_line _ p _ y (-dx) dy s m ?_ hm hl1
    simp only [winAxes, List.mem_cons, Prod.mk.injEq, List.mem_singleton, List.not_mem_nil,
      or_false] at hd
    rcases hd with ⟨rfl, rfl⟩ | ⟨rfl, rfl⟩ | ⟨rfl, rfl⟩ | ⟨rfl, rfl⟩ <;> decide

theorem winLine_mirrorTopBottom (board : GameBoard) (hwf : board.WellFormed) (p : TicTacTile)
    (x y : Int) :
    WinLine (mirrorTopBottom board) p x (board.settings.height - 1 - y) ↔
      WinLine board p x y := by
  constructor
  · rintro ⟨⟨dx, dy⟩, hd, s, m, hm, hl⟩
    rw [line_mirrorTopBottom board hwf] at hl
    refine winLine_of_line board p x y dx (-dy) s m ?_ hm hl
    simp only [winAxes, List.mem_cons, Prod.mk.injEq, List.mem_singleton, List.not_mem_nil,
      or_false] at hd
    rcases hd with ⟨rfl, rfl⟩ | ⟨rfl, rfl⟩ | ⟨rfl, rfl⟩ | ⟨rfl, rfl⟩ <;> decide
  · rintro ⟨⟨dx, dy⟩, hd, s, m, hm, hl⟩
    have hl1 : LineThrough (mirrorTopBottom board) p x (board.settings.height - 1 - y)
        dx (-dy) s m := by
      rw [line_mirrorTopBottom board hwf]; simpa using hl
    refine winLine_of_line _ p x _ dx (-dy) s m ?_ hm hl1
    simp only [winAxes, List.mem_cons, Prod.mk.injEq, List.mem_singleton, List.not_mem_nil,
      or_false] at hd
    rcases hd with ⟨rfl, rfl⟩ | ⟨rfl, rfl⟩ | ⟨rfl, rfl⟩ | ⟨rfl, rfl⟩ <;> decide

/-- C7: from a cell of a well-formed board that holds `p`, `checkWin` returns
the same value on the board, on the left-right reflected board at
`(width-1-x, y)` and on the top-bottom reflected board at `(x, height-1-y)`. -/
theorem checkWin_mirror (board : GameBoard) (p : TicTacTile) (x y : Int) (fuel : Nat)
    (hwf : board.WellFormed) (hstart : Holds board p x y) (hfuel : loopFuel board ≤ fuel) :
    ∃ won : Bool, checkWin fuel board p x y = some won ∧
      checkWin fuel (mirrorLeftRight board) p (board.settings.width - 1 - x) y = some won ∧
      checkWin fuel (mirrorTopBottom board) p x (board.settings.height - 1 - y) = some won := by
  obtain ⟨won, hwon, hiff, _⟩ := checkWin_spec board p x y fuel hstart hfuel
  have hs1 : Holds (mirrorLeftRight board) p (board.settings.width - 1 - x) y := by
    rw [holds_mirrorLeftRight board hwf]
    have e : board.settings.width - 1 - (board.settings.width - 1 - x) = x := by ring
    rw [e]; exact hstart
  have hs2 : Holds (mirrorTopBottom board) p x (board.settings.height - 1 - y) := by
    rw [holds_mirrorTopBottom board hwf]
    have e : board.settings.height - 1 - (board.settings.height - 1 - y) = y := by ring
    rw [e]; exact hstart
  obtain ⟨won1, hwon1, hiff1, _⟩ := checkWin_spec (mirrorLeftRight board) p
    (board.settings.width - 1 - x) y fuel hs1 hfuel
  obtain ⟨won2, hwon2, hiff2, _⟩ := checkWin_spec (mirrorTopBottom board) p
    x (board.settings.height - 1 - y) fuel hs2 hfuel
  rw [winLine_mirrorLeftRight board hwf] at hiff1
  rw [winLine_mirrorTopBottom board hwf] at hiff2
  have e1 : won1 = won := by
    rw [Bool.eq_iff_iff]; exact hiff1.trans hiff.symm
  have e2 : won2 = won := by
    rw [Bool.eq_iff_iff]; exact hiff2.trans hiff.symm
  exact ⟨won, hwon, by rw [hwon1, e1], by rw [hwon2, e2]⟩

/-! ## The scan through the new tile against a scan of the whole board -/

/-- A winning line through `(x, y)` is a run on the board. -/
theorem hasRun_of_winLine (board : GameBoard) (p : TicTacTile) (x y : Int)
    (h : WinLine board p x y) : HasRun board p := by
  obtain ⟨⟨dx, dy⟩, hd, s, m, hm, hs, hall⟩ := h
  have h0 := (hall 0 (by omega)).1
  rw [inRange_iff] at h0
  simp only [Nat.cast_zero, zero_sub] at h0
  refine ⟨(dx, dy), hd, (x + -(s : Int) * dx).toNat, by omega,
    (y + -(s : Int) * dy).toNat, by omega, ?_⟩
  intro k hk
  have := hall k (by omega)
  have e1 : (((x + -(s : Int) * dx).toNat : Nat) : Int) + (k : Int) * dx
      = x + ((k : Int) - (s : Int)) * dx := by
    rw [Int.toNat_of_nonneg (by omega)]; ring
  have e2 : (((y + -(s : Int) * dy).toNat : Nat) : Int) + (k : Int) * dy
      = y + ((k : Int) - (s : Int)) * dy := by
    rw [Int.toNat_of_nonneg (by omega)]; ring
  simp only [] at e1 e2 ⊢
  rw [e1, e2]
  exact this

/-- When only the cell `(x, y)` differs between `board` and `board1`, and
`board` has no run of `p`, every run of `p` on `board1` is a winning line
through `(x, y)`. -/
theorem winLine_of_new_run (board board1 : GameBoard) (p : TicTacTile) (x y : Int)
    (hset : board1.settings = board.settings)
    (hframe : ∀ i j : Int, 0 ≤ i → 0 ≤ j → (i ≠ y ∨ j ≠ x) →
      board1.tileAt i j = board.tileAt i j)
    (hnone : ¬ HasRun board p) (h : HasRun board1 p) : WinLine board1 p x y := by
  obtain ⟨⟨dx, dy⟩, hd, x0, hx0, y0, hy0, hall⟩ := h
  rw [hset] at hx0 hy0
  by_cases hthrough : ∃ s : Nat, s < board1.settings.matches_.toNat ∧
      (x0 : Int) + (s : Int) * dx = x ∧ (y0 : Int) + (s : Int) * dy = y
  · obtain ⟨s, hs, hx, hy⟩ := hthrough
    refine ⟨(dx, dy), hd, s, board1.settings.matches_.toNat, by omega, hs, ?_⟩
    intro k hk
    have := hall k hk
    have e1 : x + ((k : Int) - (s : Int)) * dx = (x0 : Int) + (k : Int) * dx := by
      rw [← hx]; ring
    have e2 : y + ((k : Int) - (s : Int)) * dy = (y0 : Int) + (k : Int) * dy := by
      rw [← hy]; ring
    simp only [] at this ⊢
    rw [e1, e2]
    exact this
  · exfalso
    apply hnone
    refine ⟨(dx, dy), hd, x0, hx0, y0, hy0, ?_⟩
    intro k hk
    rw [← hset] at hk
    obtain ⟨hin, ht⟩ := hall k hk
    have hin1 : board.inRange ((y0 : Int) + (k : Int) * dy) ((x0 : Int) + (k : Int) * dx)
        = true := by
      simp only [GameBoard.inRange, hset] at hin ⊢
      exact hin
    refine ⟨hin1, ?_⟩
    rw [inRange_iff] at hin1
    rw [← hframe _ _ hin1.1 hin1.2.2.1]
    · exact ht
    · by_contra hc
      push_neg at hc
      exact hthrough ⟨k, hk, hc.2, hc.1⟩

/-- C6: on a well-formed board where `p` has no run of `matches` contiguous
tiles, placing `p` on an empty cell `(x, y)` of the grid succeeds, and after it
the board has a run of `matches` contiguous `p` tiles somewhere, on any axis,
if and only if `checkWin(board, p, x, y)` returns `TRUE`. -/
theorem checkWin_iff_new_run (board : GameBoard) (p : TicTacTile) (x y : Int) (fuel : Nat)
    (hwf : board.WellFormed) (hnone : ¬ HasRun board p)
    (hin : board.inRange y x = true) (hempty : board.tileAt y x = TicTacNone)
    (hfuel : loopFuel board ≤ fuel) :
    (placeTile board p x y).2 = true ∧
    ∃ won : Bool, checkWin fuel (placeTile board p x y).1 p x y = some won ∧
      (HasRun (placeTile board p x y).1 p ↔ won = true) := by
  have hok : (placeTile board p x y).2 = true := by
    rcases placeTile_cases board p x y with ⟨_, _, h⟩ | ⟨hn, _⟩
    · rw [h]
    · exact absurd ⟨hin, hempty⟩ hn
  have hset := placeTile_settings board p x y
  have hstart : Holds (placeTile board p x y).1 p x y := by
    refine ⟨by rw [placeTile_inRange]; exact hin, ?_⟩
    exact (placeTile_tileAt board p x y hok 0 0 le_rfl le_rfl).2 hwf
  have hfuel1 : loopFuel (placeTile board p x y).1 ≤ fuel := by
    unfold loopFuel at hfuel ⊢
    rw [hset]; exact hfuel
  obtain ⟨won, hwon, hiff, _⟩ := checkWin_spec _ p x y fuel hstart hfuel1
  refine ⟨hok, won, hwon, ?_⟩
  rw [hiff]
  constructor
  · intro h
    exact winLine_of_new_run board _ p x y hset
      (fun i j hi hj hne => (placeTile_tileAt board p x y hok i j hi hj).1 hne) hnone h
  · exact hasRun_of_winLine _ p x y

/-! ## The linked list -/

theorem createList_represents (α : Type) : (createList α).Represents [] := by
  refine ⟨rfl, rfl, rfl, rfl, fun k => ?_⟩
  simp [createList]

/-- Function `listInsertLast` on a well-formed list appends the datum. -/
theorem listInsertLast_represents {α : Type} (list : LinkedList α) (ds : List α) (d : α)
    (h : list.Represents ds) : (listInsertLast list d).Represents (ds ++ [d]) := by
  obtain ⟨hsize, hlen, hhead, htail, hnodes⟩ := h
  rcases Nat.eq_zero_or_pos ds.length with h0 | hpos
  · have hds : ds = [] := List.length_eq_zero.mp h0
    subst hds
    have hn : list.nodes = [] := List.length_eq_zero.mp hlen
    simp only [List.length_nil, if_true] at hhead htail
    simp only [listInsertLast, hhead, htail, and_self, if_true, hn]
    refine ⟨rfl, rfl, rfl, rfl, fun k => ?_⟩
    rcases Nat.eq_zero_or_pos k with hk | hk
    · subst hk; simp
    · have e1 : ([] ++ [d] : List α)[k]? = none := List.getElem?_eq_none (by simp; omega)
      rw [e1]
      exact List.getElem?_eq_none (by simp; omega)
  · have hne : ¬ ds.length = 0 := by omega
    simp only [hne, if_false] at hhead htail
    simp only [listInsertLast, hhead, htail, false_and, if_false, reduceCtorEq]
    refine ⟨by simp [hsize], by simp [hlen], by simp, by simp [hlen], fun k => ?_⟩
    rw [List.getElem?_modify, hlen]
    rcases Nat.lt_trichotomy k ds.length with hk | hk | hk
    · rw [List.getElem?_append_left (by omega), List.getElem?_append_left hk, hnodes k,
        List.getElem?_eq_getElem hk]
      by_cases hlast : ds.length - 1 = k
      · have h1 : ¬ k + 1 < ds.length := by omega
        simp [hlast, h1]
        omega
      · have h1 : k + 1 < ds.length := by omega
        simp [hlast, h1]
        omega
    · subst hk
      rw [List.getElem?_append_right (by omega), List.getElem?_append_right le_rfl, hlen]
      have h1 : ¬ ds.length - 1 = ds.length := by omega
      simp [h1]
      exact List.ne_nil_of_length_pos hpos
    · have e1 : (list.nodes ++ [({ data := d, next := none, last := some (ds.length - 1) } :
          ListNode α)])[k]? = none := List.getElem?_eq_none (by simp; omega)
      have e2 : (ds ++ [d])[k]? = none := List.getElem?_eq_none (by simp; omega)
      rw [e1, e2]
      rfl

theorem walkNext_none {α : Type} (nodes : List (ListNode α)) (fuel : Nat) :
    walkNext nodes fuel none = [] := by
  cases fuel <;> rfl

/-- Walking a well-formed list from node `k` reads the data from `ds[k]` on. -/
theorem walkNext_represents {α : Type} (list : LinkedList α) (ds : List α)
    (h : list.Represents ds) (m : Nat) :
    ∀ (fuel k : Nat), ds.length - k = m → m ≤ fuel → k < ds.length →
      walkNext list.nodes fuel (some k) = ds.drop k := by
  induction m with
  | zero => intro fuel k h1 _ h3; omega
  | succ m ih =>
    intro fuel k h1 h2 h3
    obtain ⟨fuel, rfl⟩ : ∃ f, fuel = f + 1 := ⟨fuel - 1, by omega⟩
    have hk := h.2.2.2.2 k
    rw [List.getElem?_eq_getElem h3] at hk
    simp only [Option.map_some'] at hk
    simp only [walkNext, hk]
    rw [List.drop_eq_getElem_cons h3]
    congr 1
    by_cases hnext : k + 1 < ds.length
    · simp only [hnext, if_true]
      exact ih fuel (k + 1) (by omega) (by omega) hnext
    · simp only [hnext, if_false, walkNext_none]
      rw [List.drop_eq_nil_of_le (by omega)]

theorem entries_represents {α : Type} (list : LinkedList α) (ds : List α)
    (h : list.Represents ds) : list.entries = ds := by
  unfold LinkedList.entries
  rcases Nat.eq_zero_or_pos ds.length with h0 | hpos
  · have hds : ds = [] := List.length_eq_zero.mp h0
    rw [h.2.1, h0, hds]
    rfl
  · have hhead := h.2.2.1
    rw [if_neg (by omega)] at hhead
    rw [hhead, h.2.1]
    exact walkNext_represents list ds h ds.length ds.length 0 (by omega) le_rfl hpos

/-! ## Counting the empty cells -/

theorem sum_map_set {α : Type} (f : α → Nat) (l : List α) (a : Nat) (r d : α)
    (ha : a < l.length) :
    ((l.set a r).map f).sum + f (l.getD a d) = (l.map f).sum + f r := by
  induction l generalizing a with
  | nil => simp at ha
  | cons x xs ih =>
    cases a with
    | zero => simp; omega
    | succ a =>
      simp only [List.set_cons_succ, List.map_cons, List.sum_cons, List.getD_cons_succ]
      have := ih a (by simpa using ha)
      omega

theorem count_set_none (row : List TicTacTile) (c : Nat) (t : TicTacTile)
    (hc : c < row.length) (h0 : row.getD c TicTacNone = TicTacNone) (ht : t ≠ TicTacNone) :
    List.count TicTacNone (row.set c t) + 1 = List.count TicTacNone row := by
  rw [List.getD_eq_getElem _ _ hc] at h0
  have hpos : 0 < List.count TicTacNone row :=
    List.count_pos_iff.mpr (h0 ▸ List.getElem_mem hc)
  rw [List.count_set _ _ _ _ hc]
  simp [h0, ht]
  omega

/-- A successful `placeTile` of a player's tile takes one empty cell away. -/
theorem emptyCount_placeTile (board : GameBoard) (tile : TicTacTile) (x y : Int)
    (hwf : board.WellFormed) (ht : tile ≠ TicTacNone)
    (hok : (placeTile board tile x y).2 = true) :
    emptyCount (placeTile board tile x y).1 + 1 = emptyCount board := by
  rcases placeTile_cases board tile x y with ⟨hin, he, h⟩ | ⟨_, h⟩
  · rw [h]
    rw [inRange_iff] at hin
    obtain ⟨hlen, hrow⟩ := wellFormed_row board hwf y hin.1 hin.2.1
    have h1 := sum_map_set (List.count TicTacNone) board.tiles y.toNat
      ((board.tiles.getD y.toNat []).set x.toNat tile) [] hlen
    have h2 := count_set_none (board.tiles.getD y.toNat []) x.toNat tile (by omega) he ht
    simp only [emptyCount]
    omega
  · rw [h] at hok; simp at hok

/-- A board with an empty cell in its grid has a positive count. -/
theorem emptyCount_pos (board : GameBoard) (hwf : board.WellFormed) (i j : Int)
    (hin : board.inRange i j = true) (he : board.tileAt i j = TicTacNone) :
    0 < emptyCount board := by
  rw [inRange_iff] at hin
  obtain ⟨hlen, hrow⟩ := wellFormed_row board hwf i hin.1 hin.2.1
  have hj : j.toNat < (board.tiles.getD i.toNat []).length := by omega
  have hmem : TicTacNone ∈ board.tiles.getD i.toNat [] := by
    unfold GameBoard.tileAt at he
    rw [List.getD_eq_getElem _ _ hj] at he
    rw [← he]; exact List.getElem_mem hj
  have hcount : 0 < List.count TicTacNone (board.tiles.getD i.toNat []) :=
    List.count_pos_iff.mpr hmem
  have hrowmem : board.tiles.getD i.toNat [] ∈ board.tiles := by
    rw [List.getD_eq_getElem _ _ hlen]; exact List.getElem_mem hlen
  have := List.le_sum_of_mem (List.mem_map_of_mem (List.count TicTacNone) hrowmem)
  unfold emptyCount
  omega

/-! ## `boardInit` and `changePlayer` -/

theorem boardInit_wellFormed (settings : Settings) (hw : 0 ≤ settings.width)
    (hh : 0 ≤ settings.height) : (boardInit settings).WellFormed := by
  constructor
  · show ((List.replicate settings.height.toNat
      (List.replicate settings.width.toNat TicTacNone)).length : Int) = settings.height
    rw [List.length_replicate]; omega
  · intro row hrow
    show (row.length : Int) = settings.width
    simp only [boardInit] at hrow
    rw [List.eq_of_mem_replicate hrow, List.length_replicate]; omega

theorem boardInit_tileAt (settings : Settings) (i j : Int) :
    (boardInit settings).tileAt i j = TicTacNone := by
  simp only [GameBoard.tileAt, boardInit, List.getD_eq_getElem?_getD, List.getElem?_replicate]
  split
  · simp only [Option.getD_some, List.getElem?_replicate]
    split <;> rfl
  · rfl

theorem emptyCount_boardInit (settings : Settings) :
    emptyCount (boardInit settings) = settings.height.toNat * settings.width.toNat := by
  simp [emptyCount, boardInit, List.map_replicate, List.sum_replicate]

theorem changePlayer_player (player : TicTacTile)
    (h : player = TicTacX ∨ player = TicTacO) :
    changePlayer player = TicTacX ∨ changePlayer player = TicTacO := by
  rcases h with h | h <;> subst h <;> decide

/-! ## The turn loop of `playGame` -/

theorem playInit_inv (settings : Settings) (hvalid : ValidSettings settings) :
    PlayInv settings (playInit settings) := by
  obtain ⟨⟨hw, _⟩, ⟨hh, _⟩, _, _⟩ := hvalid
  refine ⟨rfl, boardInit_wellFormed settings (by omega) (by omega), Or.inl rfl, ?_,
    ⟨[], createList_represents TurnLog, by simp [playInit]⟩, fun _ => ⟨0, 0, ?_, ?_⟩⟩
  · simp only [playInit, emptyCount_boardInit]
    push_cast
    rw [Int.toNat_of_nonneg (by omega), Int.toNat_of_nonneg (by omega)]
    ring
  · show (boardInit settings).inRange 0 0 = true
    rw [inRange_iff]; exact ⟨le_rfl, hh, le_rfl, hw⟩
  · exact boardInit_tileAt settings 0 0

/-- One iteration of the loop returns a state, and keeps the invariant. -/
theorem playTurn_inv (fuel : Nat) (settings : Settings) (st : PlayState)
    (newTile : Coordinates) (hinv : PlayInv settings st)
    (hfuel : loopFuel (boardInit settings) ≤ fuel) :
    ∃ st1, playTurn fuel st newTile = some st1 ∧ PlayInv settings st1 := by
  obtain ⟨hset, hwf, hplayer, hcount, ⟨ds, hrep, hds⟩, hfree⟩ := hinv
  have hne : st.currentPlayer ≠ TicTacNone := by
    rcases hplayer with h | h <;> rw [h] <;> decide
  by_cases hok : (placeTile st.gameBoard st.currentPlayer newTile.x newTile.y).2 = true
  · have hset1 := placeTile_settings st.gameBoard st.currentPlayer newTile.x newTile.y
    have hwf1 := placeTile_wellFormed st.gameBoard st.currentPlayer newTile.x newTile.y hwf
    have hcnt1 := emptyCount_placeTile st.gameBoard st.currentPlayer newTile.x newTile.y
      hwf hne hok
    have hinr : st.gameBoard.inRange newTile.y newTile.x = true := by
      rcases placeTile_cases st.gameBoard st.currentPlayer newTile.x newTile.y with
        ⟨hin, _, _⟩ | ⟨_, h⟩
      · exact hin
      · rw [h] at hok; simp at hok
    have hstart : Holds (placeTile st.gameBoard st.currentPlayer newTile.x newTile.y).1
        st.currentPlayer newTile.x newTile.y :=
      ⟨by rw [placeTile_inRange]; exact hinr,
        (placeTile_tileAt st.gameBoard st.currentPlayer newTile.x newTile.y hok 0 0
          le_rfl le_rfl).2 hwf⟩
    have hfuel1 : loopFuel (placeTile st.gameBoard st.currentPlayer newTile.x newTile.y).1
        ≤ fuel := by
      unfold loopFuel at hfuel ⊢
      rw [hset1, hset]; exact hfuel
    obtain ⟨won, hwon, _⟩ := checkWin_spec _ st.currentPlayer newTile.x newTile.y fuel
      hstart hfuel1
    obtain ⟨draw, hdraw, hdiff⟩ := checkDraw_spec _ fuel hfuel1
    have hlog := listInsertLast_represents st.gameLog.turnList ds
      { turnNum := st.turnNum, player := st.currentPlayer, location := newTile } hrep
    have hlen : (((ds ++ [TurnLog.mk st.turnNum st.currentPlayer newTile]).length : Nat) : Int)
        = st.turnNum + 1 - 1 := by
      simp only [List.length_append, List.length_singleton]
      push_cast; omega
    have hcount1 : (emptyCount
        (placeTile st.gameBoard st.currentPlayer newTile.x newTile.y).1 : Int)
        + (st.turnNum + 1 - 1) = settings.width * settings.height := by
      have : (emptyCount st.gameBoard : Int) = (emptyCount
        (placeTile st.gameBoard st.currentPlayer newTile.x newTile.y).1 : Int) + 1 := by
        rw [← hcnt1]; push_cast; rfl
      linarith
    cases won with
    | true =>
      have hstep : playTurn fuel st newTile = some (PlayState.mk
          (GameLog.mk (listInsertLast st.gameLog.turnList
            (TurnLog.mk st.turnNum st.currentPlayer newTile)))
          (placeTile st.gameBoard st.currentPlayer newTile.x newTile.y).1
          (changePlayer st.currentPlayer) (st.turnNum + 1) true) := by
        simp only [playTurn, hok, if_true, hwon]
      refine ⟨_, hstep, ?_⟩
      exact ⟨by rw [hset1, hset], hwf1, changePlayer_player _ hplayer, hcount1,
        ⟨_, hlog, hlen⟩, fun h => by simp at h⟩
    | false =>
      have hstep : playTurn fuel st newTile = some (PlayState.mk
          (GameLog.mk (listInsertLast st.gameLog.turnList
            (TurnLog.mk st.turnNum st.currentPlayer newTile)))
          (placeTile st.gameBoard st.currentPlayer newTile.x newTile.y).1
          (changePlayer st.currentPlayer) (st.turnNum + 1)
          (if draw then true else st.finished)) := by
        simp only [playTurn, hok, if_true, hwon, hdraw]
      refine ⟨_, hstep, ?_⟩
      refine ⟨by rw [hset1, hset], hwf1, changePlayer_player _ hplayer, hcount1,
        ⟨_, hlog, hlen⟩, fun h => ?_⟩
      have hd : draw = false := by
        cases draw with
        | false => rfl
        | true => simp at h
      have hnot : ¬ draw = true := by rw [hd]; simp
      rw [hdiff] at hnot
      push_neg at hnot
      exact hnot
  · have hfail : (placeTile st.gameBoard st.currentPlayer newTile.x newTile.y).2 = false := by
      simpa using hok
    have hsame := placeTile_failure_same st.gameBoard st.currentPlayer newTile.x newTile.y hfail
    have hstep : playTurn fuel st newTile = some st := by
      simp only [playTurn, hfail, Bool.false_eq_true, if_false, hsame]
    exact ⟨st, hstep, hset, hwf, hplayer, hcount, ⟨ds, hrep, hds⟩, hfree⟩

/-- The loop returns a state on every input, and keeps the invariant. -/
theorem playLoop_inv (fuel : Nat) (settings : Settings)
    (hfuel : loopFuel (boardInit settings) ≤ fuel) (moves : List Coordinates) :
    ∀ st : PlayState, PlayInv settings st →
      ∃ st1, playLoop fuel st moves = some st1 ∧ PlayInv settings st1 := by
  induction moves with
  | nil => intro st hinv; exact ⟨st, rfl, hinv⟩
  | cons newTile rest ih =>
    intro st hinv
    by_cases hfin : st.finished = true
    · have hstep : playLoop fuel st (newTile :: rest) = some st := by
        simp only [playLoop, hfin, if_true]
      exact ⟨st, hstep, hinv⟩
    · obtain ⟨st1, hst1, hinv1⟩ := playTurn_inv fuel settings st newTile hinv hfuel
      obtain ⟨st2, hst2, hinv2⟩ := ih st1 hinv1
      have hstep : playLoop fuel st (newTile :: rest) = some st2 := by
        simp only [playLoop, hfin, if_false, hst1, hst2, Bool.false_eq_true]
      exact ⟨st2, hstep, hinv2⟩

/-- C10: for valid settings and any sequence of submitted moves, `playGame`
reaches a state in which the game log holds one entry for each tile on the
board and at most `width * height` entries, and in which the loop is finished
once `width * height` placements have succeeded. -/
theorem playGame_termination_bound (settings : Settings) (moves : List Coordinates)
    (fuel : Nat) (hvalid : ValidSettings settings)
    (hfuel : loopFuel (boardInit settings) ≤ fuel) :
    ∃ st, playGame fuel settings moves = some st ∧
      (emptyCount st.gameBoard : Int) + (st.gameLog.turnList.entries.length : Int)
        = settings.width * settings.height ∧
      (st.gameLog.turnList.entries.length : Int) ≤ settings.width * settings.height ∧
      ((st.gameLog.turnList.entries.length : Int) = settings.width * settings.height →
        st.finished = true) ∧
      st.gameLog.turnList.size = (st.gameLog.turnList.entries.length : Int) ∧
      st.turnNum = (st.gameLog.turnList.entries.length : Int) + 1 := by
  obtain ⟨st, hst, hset, hwf, _, hcount, ⟨ds, hrep, hds⟩, hfree⟩ :=
    playLoop_inv fuel settings hfuel moves (playInit settings) (playInit_inv settings hvalid)
  have hentries := entries_represents _ ds hrep
  refine ⟨st, hst, ?_, ?_, ?_, ?_, ?_⟩
  · rw [hentries, hds]; exact hcount
  · rw [hentries, hds]
    have : (0 : Int) ≤ (emptyCount st.gameBoard : Int) := Int.natCast_nonneg _
    omega
  · intro hfull
    rw [hentries, hds] at hfull
    by_contra hfin
    obtain ⟨i, j, hin, he⟩ := hfree (by simpa using hfin)
    have := emptyCount_pos st.gameBoard hwf i j hin he
    omega
  · rw [hentries, hrep.1]
  · rw [hentries, hds]; ring

/-! ## Runs seen from each of their cells -/

/-- The run ahead of a cell, seen from a cell `k` steps further inside it. -/
theorem runLength_shift_ahead (board : GameBoard) (p : TicTacTile) (x y dx dy : Int)
    (f k : Nat) (hf : RunLength board p x y dx dy f) (hk : k ≤ f) :
    RunLength board p (x + (k : Int) * dx) (y + (k : Int) * dy) dx dy (f - k) := by
  constructor
  · intro j hj
    have := hf.1 (k + j) (by omega)
    have e1 : x + (k : Int) * dx + ((j : Int) + 1) * dx
        = x + (((k + j : Nat) : Int) + 1) * dx := by push_cast; ring
    have e2 : y + (k : Int) * dy + ((j : Int) + 1) * dy
        = y + (((k + j : Nat) : Int) + 1) * dy := by push_cast; ring
    rw [e1, e2]; exact this
  · have := hf.2
    have e1 : x + (k : Int) * dx + (((f - k : Nat) : Int) + 1) * dx
        = x + ((f : Int) + 1) * dx := by
      rw [Nat.cast_sub hk]; ring
    have e2 : y + (k : Int) * dy + (((f - k : Nat) : Int) + 1) * dy
        = y + ((f : Int) + 1) * dy := by
      rw [Nat.cast_sub hk]; ring
    rw [e1, e2]; exact this

/-- The run behind a cell, seen from a cell `k` steps ahead of it when the
cells in between hold `p`. -/
theorem runLength_shift_behind (board : GameBoard) (p : TicTacTile) (x y dx dy : Int)
    (b k : Nat) (hstart : Holds board p x y)
    (hb : RunLength board p x y (-dx) (-dy) b)
    (hcells : ∀ j : Nat, j < k →
      Holds board p (x + ((j : Int) + 1) * dx) (y + ((j : Int) + 1) * dy)) :
    RunLength board p (x + (k : Int) * dx) (y + (k : Int) * dy) (-dx) (-dy) (b + k) := by
  constructor
  · intro j hj
    rcases Nat.lt_trichotomy (j + 1) k with h | h | h
    · have := hcells (k - j - 2) (by omega)
      have e : (((k - j - 2 : Nat) : Int) + 1) = (k : Int) - ((j : Int) + 1) := by omega
      rw [e] at this
      have e1 : x + (k : Int) * dx + ((j : Int) + 1) * -dx
          = x + ((k : Int) - ((j : Int) + 1)) * dx := by ring
      have e2 : y + (k : Int) * dy + ((j : Int) + 1) * -dy
          = y + ((k : Int) - ((j : Int) + 1)) * dy := by ring
      rw [e1, e2]; exact this
    · have e1 : x + (k : Int) * dx + ((j : Int) + 1) * -dx = x := by
        rw [← h]; push_cast; ring
      have e2 : y + (k : Int) * dy + ((j : Int) + 1) * -dy = y := by
        rw [← h]; push_cast; ring
      rw [e1, e2]; exact hstart
    · have := hb.1 (j - k) (by omega)
      have e : (((j - k : Nat) : Int) + 1) = (j : Int) + 1 - (k : Int) := by omega
      rw [e] at this
      have e1 : x + (k : Int) * dx + ((j : Int) + 1) * -dx
          = x + ((j : Int) + 1 - (k : Int)) * -dx := by ring
      have e2 : y + (k : Int) * dy + ((j : Int) + 1) * -dy
          = y + ((j : Int) + 1 - (k : Int)) * -dy := by ring
      rw [e1, e2]; exact this
  · have := hb.2
    have e1 : x + (k : Int) * dx + (((b + k : Nat) : Int) + 1) * -dx
        = x + ((b : Int) + 1) * -dx := by push_cast; ring
    have e2 : y + (k : Int) * dy + (((b + k : Nat) : Int) + 1) * -dy
        = y + ((b : Int) + 1) * -dy := by push_cast; ring
    rw [e1, e2]; exact this

/-- Along a non-zero step, the count of `checkDirection` is the same at every
one of `n` consecutive cells holding `p`, and it is `n` when the `n` cells are
a maximal run. -/
theorem checkDirection_same_on_run (board : GameBoard) (p : TicTacTile) (x0 y0 dx dy : Int)
    (n fuel : Nat) (hstep : dx ≠ 0 ∨ dy ≠ 0)
    (hcells : ∀ k : Nat, k < n → Holds board p (x0 + (k : Int) * dx) (y0 + (k : Int) * dy))
    (hfuel : loopFuel board ≤ fuel) :
    ∃ c : Int, (n : Int) ≤ c ∧
      (∀ k : Nat, k < n →
        checkDirection fuel board p (x0 + (k : Int) * dx) (y0 + (k : Int) * dy) dx dy
          = some c) ∧
      (¬ Holds board p (x0 - dx) (y0 - dy) →
        ¬ Holds board p (x0 + (n : Int) * dx) (y0 + (n : Int) * dy) → c = (n : Int)) := by
  rcases Nat.eq_zero_or_pos n with hn | hn
  · subst hn
    exact ⟨0, by simp, fun k hk => by omega, fun _ _ => by simp⟩
  · have hstart : Holds board p x0 y0 := by simpa using hcells 0 hn
    have hstep1 : -dx ≠ 0 ∨ -dy ≠ 0 := by
      rcases hstep with h | h
      · left; simpa using h
      · right; simpa using h
    obtain ⟨f, hf⟩ := runLength_exists board p x0 y0 dx dy hstep hstart.1
    obtain ⟨b, hb⟩ := runLength_exists board p x0 y0 (-dx) (-dy) hstep1 hstart.1
    have hfn : n - 1 ≤ f := by
      by_contra hlt
      have := hcells (f + 1) (by omega)
      apply hf.2
      have e : (((f + 1 : Nat) : Int)) = (f : Int) + 1 := by push_cast; ring
      rw [e] at this
      exact this
    have hahead : ∀ j : Nat, j < n - 1 →
        Holds board p (x0 + ((j : Int) + 1) * dx) (y0 + ((j : Int) + 1) * dy) := by
      intro j hj
      have := hcells (j + 1) (by omega)
      have e : (((j + 1 : Nat) : Int)) = (j : Int) + 1 := by push_cast; ring
      rw [e] at this
      exact this
    refine ⟨1 + (f : Int) + (b : Int), by omega, ?_, ?_⟩
    · intro k hk
      have h1 := runLength_shift_ahead board p x0 y0 dx dy f k hf (by omega)
      have h2 := runLength_shift_behind board p x0 y0 dx dy b k hstart hb
        (fun j hj => hahead j (by omega))
      rw [checkDirection_eq board p _ _ dx dy (f - k) (b + k) fuel hstep (hcells k hk) h1 h2
        hfuel]
      congr 1
      rw [Nat.cast_sub (by omega)]
      push_cast; ring
    · intro hprev hnext
      have hb0 : b = 0 := by
        by_contra hne
        have := hb.1 0 (by omega)
        apply hprev
        have e1 : x0 + (((0 : Nat) : Int) + 1) * -dx = x0 - dx := by push_cast; ring
        have e2 : y0 + (((0 : Nat) : Int) + 1) * -dy = y0 - dy := by push_cast; ring
        rw [e1, e2] at this
        exact this
      have hf0 : f = n - 1 := by
        by_contra hne
        have := hf.1 (n - 1) (by omega)
        apply hnext
        have e : (((n - 1 : Nat) : Int)) + 1 = (n : Int) := by omega
        rw [e] at this
        exact this
      subst hb0
      rw [hf0]
      push_cast
      omega

/-- C17: when `n >= matches` consecutive cells of the grid on one of the four
axes all hold `p`, `checkWin` returns `TRUE` at each of these cells, and
`checkDirection` along the axis returns one and the same count at each of
them, the count `n` when the cells are a maximal run. -/
theorem checkWin_any_cell_of_run (board : GameBoard) (p : TicTacTile) (x0 y0 dx dy : Int)
    (n fuel : Nat) (hdir : (dx, dy) ∈ winAxes)
    (hcells : ∀ k : Nat, k < n → Holds board p (x0 + (k : Int) * dx) (y0 + (k : Int) * dy))
    (hn : board.settings.matches_ ≤ (n : Int)) (hfuel : loopFuel board ≤ fuel) :
    (∀ k : Nat, k < n →
      checkWin fuel board p (x0 + (k : Int) * dx) (y0 + (k : Int) * dy) = some true) ∧
    ∃ c : Int, (n : Int) ≤ c ∧
      (∀ k : Nat, k < n →
        checkDirection fuel board p (x0 + (k : Int) * dx) (y0 + (k : Int) * dy) dx dy
          = some c) ∧
      (¬ Holds board p (x0 - dx) (y0 - dy) →
        ¬ Holds board p (x0 + (n : Int) * dx) (y0 + (n : Int) * dy) → c = (n : Int)) := by
  refine ⟨?_, checkDirection_same_on_run board p x0 y0 dx dy n fuel (winAxes_step hdir)
    hcells hfuel⟩
  intro k hk
  obtain ⟨won, hwon, hiff, _⟩ := checkWin_spec board p _ _ fuel (hcells k hk) hfuel
  have hline : WinLine board p (x0 + (k : Int) * dx) (y0 + (k : Int) * dy) := by
    refine ⟨(dx, dy), hdir, k, n, hn, hk, fun j hj => ?_⟩
    have := hcells j hj
    have e1 : x0 + (k : Int) * dx + ((j : Int) - (k : Int)) * dx = x0 + (j : Int) * dx := by
      ring
    have e2 : y0 + (k : Int) * dy + ((j : Int) - (k : Int)) * dy = y0 + (j : Int) * dy := by
      ring
    simp only []
    rw [e1, e2]; exact this
  rw [hwon, hiff.mpr hline]

/-! ## `changePlayer` -/

/-- C16: `changePlayer` turns `TicTacX` into `TicTacO` and `TicTacO` into
`TicTacX`, so applying it twice to either player gives that player back. -/
theorem changePlayer_two_cycle :
    changePlayer TicTacX = TicTacO ∧ changePlayer TicTacO = TicTacX ∧
    changePlayer (changePlayer TicTacX) = TicTacX ∧
    changePlayer (changePlayer TicTacO) = TicTacO := by
  decide

/-! ## Boards of width 1 or height 1 -/

/-- A scan whose first step on either side leaves the grid counts the start
cell only. -/
theorem checkDirection_single (board : GameBoard) (p : TicTacTile) (x y dx dy : Int)
    (fuel : Nat) (hstep : dx ≠ 0 ∨ dy ≠ 0) (hstart : Holds board p x y)
    (hahead : board.inRange (y + dy) (x + dx) = false)
    (hbehind : board.inRange (y - dy) (x - dx) = false)
    (hfuel : loopFuel board ≤ fuel) :
    checkDirection fuel board p x y dx dy = some 1 := by
  have hf : RunLength board p x y dx dy 0 := by
    refine ⟨fun k hk => by omega, fun h => ?_⟩
    have := h.1
    simp only [Nat.cast_zero, zero_add, one_mul] at this
    rw [hahead] at this
    exact Bool.false_ne_true this
  have hb : RunLength board p x y (-dx) (-dy) 0 := by
    refine ⟨fun k hk => by omega, fun h => ?_⟩
    have := h.1
    simp only [Nat.cast_zero, zero_add, one_mul, ← sub_eq_add_neg] at this
    rw [hbehind] at this
    exact Bool.false_ne_true this
  rw [checkDirection_eq board p x y dx dy 0 0 fuel hstep hstart hf hb hfuel]
  rfl

/-- On a board of width 1 only the vertical scan can count more than the
start cell. -/
theorem checkWin_width_one (board : GameBoard) (p : TicTacTile) (y : Int) (fuel : Nat)
    (hw : board.settings.width = 1) (hstart : Holds board p 0 y)
    (hfuel : loopFuel board ≤ fuel) :
    checkDirection fuel board p 0 y 1 0 = some 1 ∧
    checkDirection fuel board p 0 y 1 1 = some 1 ∧
    checkDirection fuel board p 0 y 1 (-1) = some 1 ∧
    ∃ f b : Nat, RunLength board p 0 y 0 1 f ∧ RunLength board p 0 y 0 (-1) b ∧
      checkDirection fuel board p 0 y 0 1 = some (1 + (f : Int) + (b : Int)) ∧
      ∃ won : Bool, checkWin fuel board p 0 y = some won ∧
        (won = true ↔ board.settings.matches_ ≤ 1 + (f : Int) + (b : Int)) := by
  have hout : ∀ i j : Int, j ≠ 0 → board.inRange i j = false := by
    intro i j hj
    rw [Bool.eq_false_iff]
    intro h
    rw [inRange_iff] at h
    omega
  have h1 := checkDirection_single board p 0 y 1 0 fuel (by omega) hstart
    (hout _ _ (by omega)) (hout _ _ (by omega)) hfuel
  have h3 := checkDirection_single board p 0 y 1 1 fuel (by omega) hstart
    (hout _ _ (by omega)) (hout _ _ (by omega)) hfuel
  have h4 := checkDirection_single board p 0 y 1 (-1) fuel (by omega) hstart
    (hout _ _ (by omega)) (hout _ _ (by omega)) hfuel
  obtain ⟨f, hf⟩ := runLength_exists board p 0 y 0 1 (by omega) hstart.1
  obtain ⟨b, hb⟩ := runLength_exists board p 0 y 0 (-1) (by omega) hstart.1
  have h2 := checkDirection_eq board p 0 y 0 1 f b fuel (by omega) hstart hf
    (by simpa using hb) hfuel
  refine ⟨h1, h3, h4, f, b, hf, hb, h2, _,
    checkWin_of_counts fuel board p 0 y 1 _ 1 1 h1 h2 h3 h4, ?_⟩
  rw [decide_eq_true_iff]
  constructor
  · rintro (h | h | h | h) <;> omega
  · intro h; exact Or.inr (Or.inl h)

/-- On a board of height 1 only the horizontal scan can count more than the
start cell. -/
theorem checkWin_height_one (board : GameBoard) (p : TicTacTile) (x : Int) (fuel : Nat)
    (hh : board.settings.height = 1) (hstart : Holds board p x 0)
    (hfuel : loopFuel board ≤ fuel) :
    checkDirection fuel board p x 0 0 1 = some 1 ∧
    checkDirection fuel board p x 0 1 1 = some 1 ∧
    checkDirection fuel board p x 0 1 (-1) = some 1 ∧
    ∃ f b : Nat, RunLength board p x 0 1 0 f ∧ RunLength board p x 0 (-1) 0 b ∧
      checkDirection fuel board p x 0 1 0 = some (1 + (f : Int) + (b : Int)) ∧
      ∃ won : Bool, checkWin fuel board p x 0 = some won ∧
        (won = true ↔ board.settings.matches_ ≤ 1 + (f : Int) + (b : Int)) := by
  have hout : ∀ i j : Int, i ≠ 0 → board.inRange i j = false := by
    intro i j hi
    rw [Bool.eq_false_iff]
    intro h
    rw [inRange_iff] at h
    omega
  have h2 := checkDirection_single board p x 0 0 1 fuel (by omega) hstart
    (hout _ _ (by omega)) (hout _ _ (by omega)) hfuel
  have h3 := checkDirection_single board p x 0 1 1 fuel (by omega) hstart
    (hout _ _ (by omega)) (hout _ _ (by omega)) hfuel
  have h4 := checkDirection_single board p x 0 1 (-1) fuel (by omega) hstart
    (hout _ _ (by omega)) (hout _ _ (by omega)) hfuel
  obtain ⟨f, hf⟩ := runLength_exists board p x 0 1 0 (by omega) hstart.1
  obtain ⟨b, hb⟩ := runLength_exists board p x 0 (-1) 0 (by omega) hstart.1
  have h1 := checkDirection_eq board p x 0 1 0 f b fuel (by omega) hstart hf
    (by simpa using hb) hfuel
  refine ⟨h2, h3, h4, f, b, hf, hb, h1, _,
    checkWin_of_counts fuel board p x 0 _ 1 1 1 h1 h2 h3 h4, ?_⟩
  rw [decide_eq_true_iff]
  constructor
  · rintro (h | h | h | h) <;> omega
  · intro h; exact Or.inl h

/-- C18: on a board of width 1, from a cell `(0, y)` holding `p`, the
horizontal scan and both diagonal scans of `checkDirection` return 1, and
`checkWin` is `TRUE` if and only if the vertical run of `p` through the cell
(the cell, the `f` cells below and the `b` cells above) has length at least
`matches`; the same holds on a board of height 1 with the vertical and the
horizontal axis exchanged. -/
theorem checkWin_degenerate_boards (board : GameBoard) (p : TicTacTile) (fuel : Nat)
    (hfuel : loopFuel board ≤ fuel) :
    (board.settings.width = 1 → ∀ y : Int, Holds board p 0 y →
      checkDirection fuel board p 0 y 1 0 = some 1 ∧
      checkDirection fuel board p 0 y 1 1 = some 1 ∧
      checkDirection fuel board p 0 y 1 (-1) = some 1 ∧
      ∃ f b : Nat, RunLength board p 0 y 0 1 f ∧ RunLength board p 0 y 0 (-1) b ∧
        checkDirection fuel board p 0 y 0 1 = some (1 + (f : Int) + (b : Int)) ∧
        ∃ won : Bool, checkWin fuel board p 0 y = some won ∧
          (won = true ↔ board.settings.matches_ ≤ 1 + (f : Int) + (b : Int))) ∧
    (board.settings.height = 1 → ∀ x : Int, Holds board p x 0 →
      checkDirection fuel board p x 0 0 1 = some 1 ∧
      checkDirection fuel board p x 0 1 1 = some 1 ∧
      checkDirection fuel board p x 0 1 (-1) = some 1 ∧
      ∃ f b : Nat, RunLength board p x 0 1 0 f ∧ RunLength board p x 0 (-1) 0 b ∧
        checkDirection fuel board p x 0 1 0 = some (1 + (f : Int) + (b : Int)) ∧
        ∃ won : Bool, checkWin fuel board p x 0 = some won ∧
          (won = true ↔ board.settings.matches_ ≤ 1 + (f : Int) + (b : Int))) :=
  ⟨fun hw y hstart => checkWin_width_one board p y fuel hw hstart hfuel,
    fun hh x hstart => checkWin_height_one board p x fuel hh hstart hfuel⟩

/-! ## One iteration of the loop of `playGame` -/

/-- An iteration whose `placeTile` fails returns the state it started from. -/
theorem playTurn_failure (fuel : Nat) (st : PlayState) (newTile : Coordinates)
    (hfail : (placeTile st.gameBoard st.currentPlayer newTile.x newTile.y).2 = false) :
    playTurn fuel st newTile = some st := by
  have hsame := placeTile_failure_same st.gameBoard st.currentPlayer newTile.x newTile.y hfail
  simp only [playTurn, hfail, Bool.false_eq_true, if_false, hsame]

/-- An iteration whose `placeTile` succeeds, from a state of a session: both
checks return, and the next state has the new entry, the new board, the other
player, the next turn number and `finished` set by a win or a draw. -/
theorem playTurn_success (fuel : Nat) (settings : Settings) (st : PlayState)
    (newTile : Coordinates) (hinv : PlayInv settings st)
    (hfuel : loopFuel (boardInit settings) ≤ fuel)
    (hok : (placeTile st.gameBoard st.currentPlayer newTile.x newTile.y).2 = true) :
    ∃ won draw : Bool,
      checkWin fuel (placeTile st.gameBoard st.currentPlayer newTile.x newTile.y).1
        st.currentPlayer newTile.x newTile.y = some won ∧
      checkDraw fuel (placeTile st.gameBoard st.currentPlayer newTile.x newTile.y).1
        = some draw ∧
      (draw = true ↔ ∀ i j : Int,
        (placeTile st.gameBoard st.currentPlayer newTile.x newTile.y).1.inRange i j = true →
        (placeTile st.gameBoard st.currentPlayer newTile.x newTile.y).1.tileAt i j
          ≠ TicTacNone) ∧
      playTurn fuel st newTile = some (PlayState.mk
        (GameLog.mk (listInsertLast st.gameLog.turnList
          (TurnLog.mk st.turnNum st.currentPlayer newTile)))
        (placeTile st.gameBoard st.currentPlayer newTile.x newTile.y).1
        (changePlayer st.currentPlayer) (st.turnNum + 1)
        (won || draw || st.finished)) ∧
      playTurnOutput fuel st newTile = some (PlayState.mk
        (GameLog.mk (listInsertLast st.gameLog.turnList
          (TurnLog.mk st.turnNum st.currentPlayer newTile)))
        (placeTile st.gameBoard st.currentPlayer newTile.x newTile.y).1
        (changePlayer st.currentPlayer) (st.turnNum + 1)
        (won || draw || st.finished),
        if won then some (Announcement.won st.currentPlayer)
        else if draw then some Announcement.draw else none) := by
  obtain ⟨hset, hwf, _, _, _, _⟩ := hinv
  have hset1 := placeTile_settings st.gameBoard st.currentPlayer newTile.x newTile.y
  have hinr : st.gameBoard.inRange newTile.y newTile.x = true := by
    rcases placeTile_cases st.gameBoard st.currentPlayer newTile.x newTile.y with
      ⟨hin, _, _⟩ | ⟨_, h⟩
    · exact hin
    · rw [h] at hok; simp at hok
  have hstart : Holds (placeTile st.gameBoard st.currentPlayer newTile.x newTile.y).1
      st.currentPlayer newTile.x newTile.y :=
    ⟨by rw [placeTile_inRange]; exact hinr,
      (placeTile_tileAt st.gameBoard st.currentPlayer newTile.x newTile.y hok 0 0
        le_rfl le_rfl).2 hwf⟩
  have hfuel1 : loopFuel (placeTile st.gameBoard st.currentPlayer newTile.x newTile.y).1
      ≤ fuel := by
    unfold loopFuel at hfuel ⊢
    rw [hset1, hset]; exact hfuel
  obtain ⟨won, hwon, _⟩ := checkWin_spec _ st.currentPlayer newTile.x newTile.y fuel
    hstart hfuel1
  obtain ⟨draw, hdraw, hdiff⟩ := checkDraw_spec _ fuel hfuel1
  refine ⟨won, draw, hwon, hdraw, hdiff, ?_, ?_⟩
  · cases won with
    | true => simp only [playTurn, hok, if_true, hwon, Bool.true_or]
    | false =>
      cases draw with
      | true => simp only [playTurn, hok, if_true, hwon, hdraw, Bool.or_true, Bool.true_or]
      | false =>
        simp only [playTurn, hok, if_true, hwon, hdraw, Bool.false_or, Bool.false_eq_true,
          if_false]
  · cases won with
    | true => simp only [playTurnOutput, hok, if_true, hwon, Bool.true_or]
    | false =>
      cases draw with
      | true =>
        simp only [playTurnOutput, hok, if_true, hwon, hdraw, Bool.or_true, Bool.true_or,
          Bool.false_eq_true, if_false]
      | false =>
        simp only [playTurnOutput, hok, if_true, hwon, hdraw, Bool.false_or,
          Bool.false_eq_true, if_false]

/-- The board after an iteration is the board after its `placeTile` call. -/
theorem playTurn_board (fuel : Nat) (st st1 : PlayState) (newTile : Coordinates)
    (h : playTurn fuel st newTile = some st1) :
    st1.gameBoard = (placeTile st.gameBoard st.currentPlayer newTile.x newTile.y).1 ∧
    (st1.currentPlayer = st.currentPlayer ∨
      st1.currentPlayer = changePlayer st.currentPlayer) := by
  unfold playTurn at h
  simp only [] at h
  split at h
  · split at h
    · exact absurd h (by simp)
    · simp only [Option.some.injEq] at h
      subst h; exact ⟨rfl, Or.inr rfl⟩
    · split at h
      · exact absurd h (by simp)
      · simp only [Option.some.injEq] at h
        subst h; exact ⟨rfl, Or.inr rfl⟩
  · simp only [Option.some.injEq] at h
    subst h; exact ⟨rfl, Or.inl rfl⟩

/-- The loop does nothing from a finished state. -/
theorem playLoop_finished (fuel : Nat) (st : PlayState) (moves : List Coordinates)
    (h : st.finished = true) : playLoop fuel st moves = some st := by
  cases moves with
  | nil => rfl
  | cons c rest => simp only [playLoop, h, if_true]

/-- Running the loop on an input and then on its continuation. -/
theorem playLoop_append (fuel : Nat) (moves more : List Coordinates) :
    ∀ st : PlayState, playLoop fuel st (moves ++ more) =
      (playLoop fuel st moves).bind (fun st1 => playLoop fuel st1 more) := by
  induction moves with
  | nil => intro st; rfl
  | cons c rest ih =>
    intro st
    by_cases hfin : st.finished = true
    · rw [playLoop_finished fuel st _ hfin, playLoop_finished fuel st _ hfin]
      simp only [Option.some_bind]
      rw [playLoop_finished fuel st _ hfin]
    · simp only [List.cons_append, playLoop, hfin, Bool.false_eq_true, if_false]
      cases hturn : playTurn fuel st c with
      | none => rfl
      | some st1 => exact ih st1

/-- C13: an iteration of the loop of `playGame` whose `placeTile` fails leaves
the whole state as it was (game log, board, player to move, turn number,
`finished`), announces nothing, and the loop goes on from that same state
with the next coordinates entered. -/
theorem playTurn_failed_move_unchanged (fuel : Nat) (st : PlayState) (newTile : Coordinates)
    (hfail : (placeTile st.gameBoard st.currentPlayer newTile.x newTile.y).2 = false) :
    playTurn fuel st newTile = some st ∧
    playTurnOutput fuel st newTile = some (st, none) ∧
    (st.finished = false → ∀ rest : List Coordinates,
      playLoop fuel st (newTile :: rest) = playLoop fuel st rest) := by
  have hturn := playTurn_failure fuel st newTile hfail
  have hsame := placeTile_failure_same st.gameBoard st.currentPlayer newTile.x newTile.y hfail
  refine ⟨hturn, ?_, ?_⟩
  · simp only [playTurnOutput, hfail, Bool.false_eq_true, if_false, hsame]
  · intro hfin rest
    simp only [playLoop, hfin, Bool.false_eq_true, if_false, hturn]

/-! ## The game log along a session -/

theorem playLoop_cons (fuel : Nat) (st st1 : PlayState) (c : Coordinates)
    (rest : List Coordinates) (hfin : st.finished = false)
    (hturn : playTurn fuel st c = some st1) :
    playLoop fuel st (c :: rest) = playLoop fuel st1 rest := by
  simp only [playLoop, hfin, Bool.false_eq_true, if_false, hturn]

theorem placedMoves_cons (fuel : Nat) (st st1 : PlayState) (c : Coordinates)
    (rest : List Coordinates) (hfin : st.finished = false)
    (hturn : playTurn fuel st c = some st1) :
    placedMoves fuel st (c :: rest) =
      if (placeTile st.gameBoard st.currentPlayer c.x c.y).2 = true then
        c :: placedMoves fuel st1 rest
      else placedMoves fuel st1 rest := by
  simp only [placedMoves, hfin, Bool.false_eq_true, if_false, hturn]

/-- The loop from a state of a session returns a state of the session whose
turn list holds the entries it had, followed by one entry for each successful
placement, numbered from the turn number and alternating from the player of
the start state. -/
theorem playLoop_log (fuel : Nat) (settings : Settings)
    (hfuel : loopFuel (boardInit settings) ≤ fuel) (moves : List Coordinates) :
    ∀ (st : PlayState) (ds : List TurnLog), PlayInv settings st →
      st.gameLog.turnList.Represents ds →
      ∃ st1, playLoop fuel st moves = some st1 ∧ PlayInv settings st1 ∧
        st1.gameLog.turnList.Represents
          (ds ++ logFrom st.turnNum st.currentPlayer (placedMoves fuel st moves)) := by
  induction moves with
  | nil =>
    intro st ds hinv hrep
    exact ⟨st, rfl, hinv, by simpa [placedMoves, logFrom] using hrep⟩
  | cons c rest ih =>
    intro st ds hinv hrep
    by_cases hfin : st.finished = true
    · refine ⟨st, playLoop_finished fuel st _ hfin, hinv, ?_⟩
      simpa [placedMoves, hfin, logFrom] using hrep
    · have hfin0 : st.finished = false := by simpa using hfin
      obtain ⟨st1, hst1, hinv1⟩ := playTurn_inv fuel settings st c hinv hfuel
      rw [playLoop_cons fuel st st1 c rest hfin0 hst1,
        placedMoves_cons fuel st st1 c rest hfin0 hst1]
      by_cases hok : (placeTile st.gameBoard st.currentPlayer c.x c.y).2 = true
      · obtain ⟨won, draw, _, _, _, hturn, _⟩ :=
          playTurn_success fuel settings st c hinv hfuel hok
        rw [hturn] at hst1
        have hst1eq := Option.some.inj hst1
        have hrep1 := listInsertLast_represents st.gameLog.turnList ds
          (TurnLog.mk st.turnNum st.currentPlayer c) hrep
        have hlist : st1.gameLog.turnList = listInsertLast st.gameLog.turnList
            (TurnLog.mk st.turnNum st.currentPlayer c) := by rw [← hst1eq]
        have hnum : st1.turnNum = st.turnNum + 1 := by rw [← hst1eq]
        have hpl : st1.currentPlayer = changePlayer st.currentPlayer := by rw [← hst1eq]
        rw [← hlist] at hrep1
        obtain ⟨st2, hst2, hinv2, hrep2⟩ := ih st1 _ hinv1 hrep1
        refine ⟨st2, hst2, hinv2, ?_⟩
        rw [if_pos hok]
        rw [hnum, hpl, List.append_assoc] at hrep2
        exact hrep2
      · have hfail : (placeTile st.gameBoard st.currentPlayer c.x c.y).2 = false := by
          simpa using hok
        have hturn := playTurn_failure fuel st c hfail
        rw [hturn] at hst1
        have hst1eq := Option.some.inj hst1
        subst hst1eq
        obtain ⟨st2, hst2, hinv2, hrep2⟩ := ih st ds hinv hrep
        refine ⟨st2, hst2, hinv2, ?_⟩
        rw [if_neg hok]
        exact hrep2

theorem length_logFrom (cs : List Coordinates) :
    ∀ (turnNum : Int) (player : TicTacTile), (logFrom turnNum player cs).length = cs.length := by
  induction cs with
  | nil => intro _ _; rfl
  | cons c rest ih => intro t p; simp only [logFrom, List.length_cons, ih]

/-- The entry of index `i` logged from turn `turnNum` with X or O to move. -/
theorem getElem?_logFrom (cs : List Coordinates) :
    ∀ (turnNum : Int) (player : TicTacTile) (i : Nat),
      player = TicTacX ∨ player = TicTacO →
      (logFrom turnNum player cs)[i]? = (cs[i]?).map (fun c =>
        TurnLog.mk (turnNum + (i : Int))
          (if i % 2 = 0 then player else changePlayer player) c) := by
  induction cs with
  | nil => intro _ _ _ _; rfl
  | cons c rest ih =>
    intro t p i hp
    cases i with
    | zero => simp [logFrom]
    | succ i =>
      simp only [logFrom, List.getElem?_cons_succ]
      rw [ih (t + 1) (changePlayer p) i (changePlayer_player p hp)]
      have hcc : changePlayer (changePlayer p) = p := by
        rcases hp with h | h <;> subst h <;> decide
      have ht : t + 1 + (i : Int) = t + ((i + 1 : Nat) : Int) := by push_cast; ring
      rw [hcc, ht]
      rcases Nat.mod_two_eq_zero_or_one i with h | h
      · have h1 : (i + 1) % 2 = 1 := by omega
        simp [h, h1]
      · have h1 : (i + 1) % 2 = 0 := by omega
        simp [h, h1]

/-- The session up to some input: the state, its invariant, and its log as
the entries of the successful placements. -/
theorem playGame_log (fuel : Nat) (settings : Settings) (moves : List Coordinates)
    (hvalid : ValidSettings settings) (hfuel : loopFuel (boardInit settings) ≤ fuel) :
    ∃ st, playGame fuel settings moves = some st ∧ PlayInv settings st ∧
      st.gameLog.turnList.Represents
        (logFrom 1 TicTacX (placedMoves fuel (playInit settings) moves)) := by
  obtain ⟨st, hst, hinv, hrep⟩ := playLoop_log fuel settings hfuel moves (playInit settings) []
    (playInit_inv settings hvalid) (createList_represents TurnLog)
  exact ⟨st, hst, hinv, by simpa [playInit] using hrep⟩

/-- C12: in every state of a session the game log lists the successful
placements in the order they were made: it has one entry for each of them,
and the entry number `i + 1` has `turnNum = i + 1`, the coordinates of the
placement number `i + 1`, and the player `TicTacX` when `i + 1` is odd,
`TicTacO` when it is even. -/
theorem gameLog_chronological (fuel : Nat) (settings : Settings) (moves : List Coordinates)
    (hvalid : ValidSettings settings) (hfuel : loopFuel (boardInit settings) ≤ fuel) :
    ∃ st, playGame fuel settings moves = some st ∧
      st.gameLog.turnList.entries.length
        = (placedMoves fuel (playInit settings) moves).length ∧
      ∀ i : Nat, i < st.gameLog.turnList.entries.length →
        ∃ c : Coordinates, (placedMoves fuel (playInit settings) moves)[i]? = some c ∧
          st.gameLog.turnList.entries[i]? = some
            (TurnLog.mk ((i : Int) + 1)
              (if (i + 1) % 2 = 1 then TicTacX else TicTacO) c) := by
  obtain ⟨st, hst, _, hrep⟩ := playGame_log fuel settings moves hvalid hfuel
  have hentries := entries_represents _ _ hrep
  refine ⟨st, hst, by rw [hentries, length_logFrom], ?_⟩
  intro i hi
  rw [hentries, length_logFrom] at hi
  refine ⟨_, List.getElem?_eq_getElem hi, ?_⟩
  rw [hentries, getElem?_logFrom _ 1 TicTacX i (Or.inl rfl), List.getElem?_eq_getElem hi]
  simp only [Option.map_some', Option.some.injEq, TurnLog.mk.injEq, and_true]
  refine ⟨by ring, ?_⟩
  rcases Nat.mod_two_eq_zero_or_one i with h | h
  · have h1 : (i + 1) % 2 = 1 := by omega
    simp [h, h1]
  · have h1 : ¬ (i + 1) % 2 = 1 := by omega
    simp [h, h1]
    decide

/-- C11: in every state of a session the number of entries of the turn list
(and its `size`) is the number of `placeTile` calls that have succeeded so
far; from an unfinished state an iteration with a successful `placeTile` adds
exactly one entry, one with a failed `placeTile` adds none, and whatever is
entered later the number of entries does not decrease. -/
theorem turn_count_monotonic (fuel : Nat) (settings : Settings) (moves : List Coordinates)
    (hvalid : ValidSettings settings) (hfuel : loopFuel (boardInit settings) ≤ fuel) :
    ∃ st, playGame fuel settings moves = some st ∧
      st.gameLog.turnList.entries.length
        = (placedMoves fuel (playInit settings) moves).length ∧
      st.gameLog.turnList.size = (st.gameLog.turnList.entries.length : Int) ∧
      (∀ newTile : Coordinates, st.finished = false →
        ∃ st1, playTurn fuel st newTile = some st1 ∧
          playGame fuel settings (moves ++ [newTile]) = some st1 ∧
          ((placeTile st.gameBoard st.currentPlayer newTile.x newTile.y).2 = true →
            st1.gameLog.turnList.entries.length
              = st.gameLog.turnList.entries.length + 1) ∧
          ((placeTile st.gameBoard st.currentPlayer newTile.x newTile.y).2 = false →
            st1.gameLog.turnList.entries.length = st.gameLog.turnList.entries.length)) ∧
      (∀ more : List Coordinates,
        ∃ st2, playGame fuel settings (moves ++ more) = some st2 ∧
          st.gameLog.turnList.entries.length ≤ st2.gameLog.turnList.entries.length) := by
  obtain ⟨st, hst, hinv, hrep⟩ := playGame_log fuel settings moves hvalid hfuel
  have hentries := entries_represents _ _ hrep
  have hgame : ∀ more : List Coordinates,
      playGame fuel settings (moves ++ more) = playLoop fuel st more := by
    intro more
    unfold playGame at hst ⊢
    rw [playLoop_append, hst]
    rfl
  refine ⟨st, hst, by rw [hentries, length_logFrom], by rw [hentries, hrep.1], ?_, ?_⟩
  · intro newTile hfin
    obtain ⟨st1, hst1, _⟩ := playTurn_inv fuel settings st newTile hinv hfuel
    refine ⟨st1, hst1, ?_, ?_, ?_⟩
    · rw [hgame, playLoop_cons fuel st st1 newTile [] hfin hst1]
      rfl
    · intro hok
      obtain ⟨won, draw, _, _, _, hturn, _⟩ :=
        playTurn_success fuel settings st newTile hinv hfuel hok
      rw [hturn] at hst1
      have hst1eq := Option.some.inj hst1
      have hrep1 := listInsertLast_represents st.gameLog.turnList _
        (TurnLog.mk st.turnNum st.currentPlayer newTile) hrep
      have hlist : st1.gameLog.turnList = listInsertLast st.gameLog.turnList
          (TurnLog.mk st.turnNum st.currentPlayer newTile) := by rw [← hst1eq]
      rw [hlist, entries_represents _ _ hrep1, hentries, List.length_append,
        List.length_singleton]
    · intro hfail
      rw [playTurn_failure fuel st newTile hfail] at hst1
      rw [← Option.some.inj hst1]
  · intro more
    obtain ⟨st2, hst2, _, hrep2⟩ := playLoop_log fuel settings hfuel more st _ hinv hrep
    refine ⟨st2, by rw [hgame]; exact hst2, ?_⟩
    rw [hentries, entries_represents _ _ hrep2, List.length_append]
    omega

/-- C14: from an unfinished state of a session, an iteration with a
successful `placeTile` gets a value from `checkWin` and one from `checkDraw`
(`TRUE` exactly when the placement left no empty cell); when `checkWin` is
`TRUE` it announces the win of the player who placed the tile, also when the
board is full; it announces a draw only when `checkWin` is `FALSE` and
`checkDraw` is `TRUE`; in both cases `finished` is set. -/
theorem win_decided_before_draw (fuel : Nat) (settings : Settings) (moves : List Coordinates)
    (newTile : Coordinates) (hvalid : ValidSettings settings)
    (hfuel : loopFuel (boardInit settings) ≤ fuel) :
    ∃ st, playGame fuel settings moves = some st ∧
      (st.finished = false →
        (placeTile st.gameBoard st.currentPlayer newTile.x newTile.y).2 = true →
        ∃ (won draw : Bool) (st1 : PlayState) (said : Option Announcement),
          checkWin fuel (placeTile st.gameBoard st.currentPlayer newTile.x newTile.y).1
            st.currentPlayer newTile.x newTile.y = some won ∧
          checkDraw fuel (placeTile st.gameBoard st.currentPlayer newTile.x newTile.y).1
            = some draw ∧
          (draw = true ↔ ∀ i j : Int,
            (placeTile st.gameBoard st.currentPlayer newTile.x newTile.y).1.inRange i j
              = true →
            (placeTile st.gameBoard st.currentPlayer newTile.x newTile.y).1.tileAt i j
              ≠ TicTacNone) ∧
          playTurnOutput fuel st newTile = some (st1, said) ∧
          playTurn fuel st newTile = some st1 ∧
          (won = true → said = some (Announcement.won st.currentPlayer) ∧
            st1.finished = true) ∧
          (said = some Announcement.draw ↔ won = false ∧ draw = true) ∧
          (won = false → draw = true → st1.finished = true) ∧
          (won = false → draw = false → said = none ∧ st1.finished = false)) := by
  obtain ⟨st, hst, hinv, _⟩ := playGame_log fuel settings moves hvalid hfuel
  refine ⟨st, hst, fun hfin hok => ?_⟩
  obtain ⟨won, draw, hwon, hdraw, hdiff, hturn, hout⟩ :=
    playTurn_success fuel settings st newTile hinv hfuel hok
  refine ⟨won, draw, _, _, hwon, hdraw, hdiff, hout, hturn, ?_, ?_, ?_, ?_⟩
  · intro hw; subst hw; exact ⟨rfl, rfl⟩
  · cases won <;> cases draw <;> simp
  · intro hw hd; subst hw; subst hd; rfl
  · intro hw hd; subst hw; subst hd; exact ⟨rfl, by simpa using hfin⟩

/-! ## The tiles on the board of a session -/

/-- A `placeTile` call keeps every tile of the grid among the tiles of the
grid before the call and the tile placed. -/
theorem placeTile_cells (board : GameBoard) (tile : TicTacTile) (x y : Int)
    (P : TicTacTile → Prop) (hP : P tile)
    (hcells : ∀ row ∈ board.tiles, ∀ t ∈ row, P t) :
    ∀ row ∈ (placeTile board tile x y).1.tiles, ∀ t ∈ row, P t := by
  rcases placeTile_cases board tile x y with ⟨_, _, h⟩ | ⟨_, h⟩
  · rw [h]
    intro row hrow t ht
    rcases List.mem_or_eq_of_mem_set hrow with h1 | h1
    · exact hcells row h1 t ht
    · rw [h1] at ht
      rcases List.mem_or_eq_of_mem_set ht with h2 | h2
      · rw [List.getD_eq_getElem?_getD] at h2
        cases hget : board.tiles[y.toNat]? with
        | none => rw [hget] at h2; simp at h2
        | some r =>
          rw [hget] at h2
          exact hcells r (List.getElem?_mem hget) t h2
      · rw [h2]; exact hP
  · rw [h]; exact hcells

/-- Every tile read from a grid is a tile of the grid or `TicTacNone`. -/
theorem tileAt_mem_or_none (board : GameBoard) (i j : Int) :
    board.tileAt i j = TicTacNone ∨
      ∃ row ∈ board.tiles, board.tileAt i j ∈ row := by
  unfold GameBoard.tileAt
  rw [List.getD_eq_getElem?_getD, List.getD_eq_getElem?_getD]
  cases hrow : board.tiles[i.toNat]? with
  | none => left; simp
  | some r =>
    cases ht : r[j.toNat]? with
    | none => left; simp [ht]
    | some t =>
      right
      refine ⟨r, List.getElem?_mem hrow, ?_⟩
      simp only [Option.getD_some, ht]
      exact List.getElem?_mem ht

/-- Through the loop the player to move stays X or O and the grid holds
nothing but `TicTacNone`, `TicTacX` and `TicTacO`. -/
theorem playLoop_cells (fuel : Nat) (moves : List Coordinates) :
    ∀ st st1 : PlayState, playLoop fuel st moves = some st1 →
      (st.currentPlayer = TicTacX ∨ st.currentPlayer = TicTacO) →
      (∀ row ∈ st.gameBoard.tiles, ∀ t ∈ row,
        t = TicTacNone ∨ t = TicTacX ∨ t = TicTacO) →
      (st1.currentPlayer = TicTacX ∨ st1.currentPlayer = TicTacO) ∧
      (∀ row ∈ st1.gameBoard.tiles, ∀ t ∈ row,
        t = TicTacNone ∨ t = TicTacX ∨ t = TicTacO) := by
  induction moves with
  | nil =>
    intro st st1 h hp hc
    simp only [playLoop, Option.some.injEq] at h
    subst h; exact ⟨hp, hc⟩
  | cons c rest ih =>
    intro st st1 h hp hc
    by_cases hfin : st.finished = true
    · rw [playLoop_finished fuel st _ hfin] at h
      simp only [Option.some.injEq] at h
      subst h; exact ⟨hp, hc⟩
    · have hfin0 : st.finished = false := by simpa using hfin
      cases hturn : playTurn fuel st c with
      | none => simp [playLoop, hfin0, hturn] at h
      | some st2 =>
        rw [playLoop_cons fuel st st2 c rest hfin0 hturn] at h
        obtain ⟨hb, hpl⟩ := playTurn_board fuel st st2 c hturn
        apply ih st2 st1 h
        · rcases hpl with h1 | h1
          · rw [h1]; exact hp
          · rw [h1]; exact changePlayer_player _ hp
        · rw [hb]
          exact placeTile_cells st.gameBoard st.currentPlayer c.x c.y _
            (Or.inr hp) hc

/-- C15: in every state of a session, reached from `boardInit` on any input,
the tile that the next iteration passes to `placeTile` is `TicTacX` or
`TicTacO`, never `TicTacNone` or `TicTacTotal`, and every tile of the grid is
`TicTacNone`, `TicTacX` or `TicTacO`. -/
theorem board_tiles_are_players (fuel : Nat) (settings : Settings)
    (moves : List Coordinates) (hvalid : ValidSettings settings)
    (hfuel : loopFuel (boardInit settings) ≤ fuel) :
    ∃ st, playGame fuel settings moves = some st ∧
      (st.currentPlayer = TicTacX ∨ st.currentPlayer = TicTacO) ∧
      st.currentPlayer ≠ TicTacNone ∧ st.currentPlayer ≠ TicTacTotal ∧
      (∀ row ∈ st.gameBoard.tiles, ∀ t ∈ row,
        t = TicTacNone ∨ t = TicTacX ∨ t = TicTacO) ∧
      (∀ i j : Int, st.gameBoard.tileAt i j = TicTacNone ∨
        st.gameBoard.tileAt i j = TicTacX ∨ st.gameBoard.tileAt i j = TicTacO) := by
  obtain ⟨st, hst, _⟩ := playLoop_inv fuel settings hfuel moves (playInit settings)
    (playInit_inv settings hvalid)
  have hinit : ∀ row ∈ (playInit settings).gameBoard.tiles, ∀ t ∈ row,
      t = TicTacNone ∨ t = TicTacX ∨ t = TicTacO := by
    intro row hrow t ht
    simp only [playInit, boardInit] at hrow
    rw [List.eq_of_mem_replicate hrow] at ht
    exact Or.inl (List.eq_of_mem_replicate ht)
  obtain ⟨hp, hc⟩ := playLoop_cells fuel moves (playInit settings) st hst (Or.inl rfl) hinit
  refine ⟨st, hst, hp, ?_, ?_, hc, ?_⟩
  · rcases hp with h | h <;> rw [h] <;> decide
  · rcases hp with h | h <;> rw [h] <;> decide
  · intro i j
    rcases tileAt_mem_or_none st.gameBoard i j with h | ⟨row, hrow, ht⟩
    · exact Or.inl h
    · exact hc row hrow _ ht

/-! ## Lists grown by `listInsertLast`, and `printList` -/

theorem foldl_listInsertLast_represents {α : Type} (s : List α) :
    ∀ (list : LinkedList α) (ds : List α), list.Represents ds →
      (s.foldl listInsertLast list).Represents (ds ++ s) := by
  induction s with
  | nil => intro list ds h; simpa using h
  | cons d rest ih =>
    intro list ds h
    have := ih (listInsertLast list d) (ds ++ [d]) (listInsertLast_represents list ds d h)
    simpa [List.append_assoc] using this

/-- The list grown from `createList` by inserting the data of `s` is the
well-formed list holding `s`. -/
theorem buildList_represents {α : Type} (s : List α) : (buildList s).Represents s := by
  have := foldl_listInsertLast_represents s (createList α) [] (createList_represents α)
  simpa [buildList] using this

/-- The traversal of `printList` over a well-formed list, from node `k`. -/
theorem printNodes_represents {α : Type} (list : LinkedList α) (ds : List α)
    (h : list.Represents ds) (m : Nat) :
    ∀ (fuel k : Nat) (calls : List α), ds.length - k = m → m ≤ fuel → k < ds.length →
      printNodes list.nodes fuel k calls = some (calls ++ ds.drop k) := by
  induction m with
  | zero => intro fuel k calls h1 _ h3; omega
  | succ m ih =>
    intro fuel k calls h1 h2 h3
    obtain ⟨fuel, rfl⟩ : ∃ f, fuel = f + 1 := ⟨fuel - 1, by omega⟩
    have hk := h.2.2.2.2 k
    rw [List.getElem?_eq_getElem h3] at hk
    simp only [Option.map_some'] at hk
    rw [List.drop_eq_getElem_cons h3]
    by_cases hnext : k + 1 < ds.length
    · simp only [hnext, if_true] at hk
      simp only [printNodes, hk]
      rw [ih fuel (k + 1) _ (by omega) (by omega) hnext]
      simp
    · simp only [hnext, if_false] at hk
      simp only [printNodes, hk]
      rw [List.drop_eq_nil_of_le (by omega)]

/-- On a well-formed list that is not empty `printList` hands the data to the
printing function one by one from head to tail. -/
theorem printList_represents {α : Type} (fuel : Nat) (list : LinkedList α) (ds : List α)
    (h : list.Represents ds) (hne : ds ≠ []) (hfuel : ds.length ≤ fuel) :
    printList fuel list = some (PrintResult.printed ds) := by
  have hpos : 0 < ds.length := List.length_pos.mpr hne
  have hhead := h.2.2.1
  have htail := h.2.2.2.1
  rw [if_neg (by omega)] at hhead htail
  have := printNodes_represents list ds h ds.length fuel 0 [] (by omega) hfuel hpos
  simp only [printList, hhead, htail, this, List.nil_append, List.drop_zero]

/-- C19: for the list created by `createList` and grown by `listInsertLast`
with the data of `s`, and every datum `d`: the data read from head to tail
are `s`, after `listInsertLast(list, d)` they are `s` followed by `d`, and
`size`, the length of `s` before, has grown by exactly one. -/
theorem listInsertLast_keeps_order {α : Type} (s : List α) (d : α) :
    (buildList s).entries = s ∧ (buildList s).size = (s.length : Int) ∧
    (listInsertLast (buildList s) d).entries = s ++ [d] ∧
    (listInsertLast (buildList s) d).size = (buildList s).size + 1 ∧
    listInsertLast (buildList s) d = buildList (s ++ [d]) := by
  have hrep := buildList_represents s
  have hrep1 := listInsertLast_represents (buildList s) s d hrep
  refine ⟨entries_represents _ _ hrep, hrep.1, entries_represents _ _ hrep1, ?_, ?_⟩
  · rw [hrep1.1, hrep.1, List.length_append, List.length_singleton]
    push_cast; ring
  · simp only [buildList, List.foldl_append, List.foldl_cons, List.foldl_nil]

/-- C20: on the list grown from `createList` by `listInsertLast` with the data
of a non-empty `s`, `printList` calls the printing function once on each
datum, in the order of `s`; and in a session with at least one successful
placement `printGameLog` prints the turns in the order they were played: the
text number `i + 1` shows turn `i + 1`, the letter X for an odd and O for an
even turn, and the coordinates of the placement number `i + 1`. -/
theorem printList_in_turn_order (fuel : Nat) (settings : Settings)
    (moves : List Coordinates) (hvalid : ValidSettings settings)
    (hfuel : loopFuel (boardInit settings) ≤ fuel) :
    (∀ (α : Type) (s : List α) (pfuel : Nat), s ≠ [] → s.length ≤ pfuel →
      printList pfuel (buildList s) = some (PrintResult.printed s)) ∧
    ∃ st, playGame fuel settings moves = some st ∧
      (placedMoves fuel (playInit settings) moves ≠ [] →
        ∀ pfuel : Nat, (placedMoves fuel (playInit settings) moves).length ≤ pfuel →
          ∃ texts : List TurnText,
            printGameLog pfuel st.gameLog = some (PrintResult.printed texts) ∧
            texts = st.gameLog.turnList.entries.map printTurnLog ∧
            texts.length = (placedMoves fuel (playInit settings) moves).length ∧
            ∀ i : Nat, i < texts.length →
              ∃ c : Coordinates,
                (placedMoves fuel (playInit settings) moves)[i]? = some c ∧
                texts[i]? = some (TurnText.mk ((i : Int) + 1)
                  (if (i + 1) % 2 = 1 then 'X' else 'O') c.x c.y)) := by
  refine ⟨fun α s pfuel hne hlen =>
    printList_represents pfuel (buildList s) s (buildList_represents s) hne hlen, ?_⟩
  obtain ⟨st, hst, _, hrep⟩ := playGame_log fuel settings moves hvalid hfuel
  have hentries := entries_represents _ _ hrep
  refine ⟨st, hst, fun hne pfuel hlen => ?_⟩
  have hne1 : logFrom 1 TicTacX (placedMoves fuel (playInit settings) moves) ≠ [] := by
    intro h
    have := length_logFrom (placedMoves fuel (playInit settings) moves) 1 TicTacX
    rw [h] at this
    exact hne (List.length_eq_zero.mp this.symm)
  have hprint := printList_represents pfuel st.gameLog.turnList _ hrep hne1
    (by rw [length_logFrom]; exact hlen)
  refine ⟨(logFrom 1 TicTacX (placedMoves fuel (playInit settings) moves)).map printTurnLog,
    by simp only [printGameLog, hprint], by rw [hentries],
    by rw [List.length_map, length_logFrom], ?_⟩
  intro i hi
  rw [List.length_map, length_logFrom] at hi
  refine ⟨_, List.getElem?_eq_getElem hi, ?_⟩
  rw [List.getElem?_map, getElem?_logFrom _ 1 TicTacX i (Or.inl rfl),
    List.getElem?_eq_getElem hi]
  simp only [Option.map_some', Option.some.injEq, printTurnLog]
  rcases Nat.mod_two_eq_zero_or_one i with h | h
  · have h1 : (i + 1) % 2 = 1 := by omega
    simp only [h, h1, if_true, TurnText.mk.injEq, and_true]
    ring
  · have h1 : ¬ (i + 1) % 2 = 1 := by omega
    have h2 : ¬ i % 2 = 0 := by omega
    have hx : ¬ changePlayer TicTacX = TicTacX := by decide
    have ho : changePlayer TicTacX = TicTacO := by decide
    simp only [h1, h2, if_false, hx, ho, if_true, TurnText.mk.injEq, and_true]
    exact ⟨by ring, by decide⟩

/-! ## Termination of the scans from any start -/

theorem raySteps_next (board : GameBoard) (i j yStep xStep : Int)
    (hstep : xStep ≠ 0 ∨ yStep ≠ 0) (hin : board.inRange i j = true)
    (hnext : board.inRange (i + yStep) (j + xStep) = true) :
    raySteps board (i + yStep) (j + xStep) yStep xStep < raySteps board i j yStep xStep := by
  rw [inRange_iff] at hin hnext
  unfold raySteps
  split
  · omega
  · split
    · omega
    · split
      · omega
      · omega

theorem raySteps_le (board : GameBoard) (i j yStep xStep : Int)
    (hin : board.inRange i j = true) :
    raySteps board i j yStep xStep + 1 ≤ loopFuel board := by
  rw [inRange_iff] at hin
  unfold raySteps loopFuel
  split
  · omega
  · split
    · omega
    · split
      · omega
      · omega

/-- A scan entered at a cell of the grid with a non-zero step returns within
`raySteps` iterations. -/
theorem scanForward_returns_inRange (board : GameBoard) (tile : TicTacTile)
    (yStep xStep : Int) (hstep : xStep ≠ 0 ∨ yStep ≠ 0) (n : Nat) :
    ∀ (fuel : Nat) (i j counter : Int) (currentTile : TicTacTile),
      board.inRange i j = true → raySteps board i j yStep xStep ≤ n → n ≤ fuel →
      ∃ r, scanForward board tile yStep xStep fuel i j counter currentTile = some r := by
  induction n with
  | zero =>
    intro fuel i j counter currentTile hin hn _
    exfalso
    rw [inRange_iff] at hin
    unfold raySteps at hn
    split at hn
    · omega
    · split at hn
      · omega
      · split at hn
        · omega
        · omega
  | succ n ih =>
    intro fuel i j counter currentTile hin hn hfuel
    obtain ⟨fuel, rfl⟩ : ∃ f, fuel = f + 1 := ⟨fuel - 1, by omega⟩
    simp only [scanForward]
    split
    · rename_i hcond
      simp only [Bool.and_eq_true] at hcond
      have hlt := raySteps_next board i j yStep xStep hstep hin hcond.1
      exact ih fuel _ _ _ _ hcond.1 (by omega) (by omega)
    · exact ⟨_, rfl⟩

/-- A scan entered anywhere with a non-zero step returns within `loopFuel`
iterations. -/
theorem scanForward_returns (board : GameBoard) (tile : TicTacTile)
    (yStep xStep : Int) (hstep : xStep ≠ 0 ∨ yStep ≠ 0) (fuel : Nat) (i j counter : Int)
    (currentTile : TicTacTile) (hfuel : loopFuel board ≤ fuel) :
    ∃ r, scanForward board tile yStep xStep fuel i j counter currentTile = some r := by
  obtain ⟨fuel, rfl⟩ : ∃ f, fuel = f + 1 := ⟨fuel - 1, by unfold loopFuel at hfuel; omega⟩
  simp only [scanForward]
  split
  · rename_i hcond
    simp only [Bool.and_eq_true] at hcond
    have hle := raySteps_le board (i + yStep) (j + xStep) yStep xStep hcond.1
    exact scanForward_returns_inRange board tile yStep xStep hstep fuel fuel _ _ _ _ hcond.1
      (by omega) le_rfl
  · exact ⟨_, rfl⟩

/-- C26: on every board, for every tile, every start coordinate, inside the
grid or not, and every step other than `(0, 0)`, both scan loops of
`checkDirection` return with `width + height + 1` iterations of fuel, and so
does `checkDirection`. -/
theorem checkDirection_terminates (board : GameBoard) (tile : TicTacTile)
    (x y xStep yStep : Int) (fuel : Nat) (hstep : xStep ≠ 0 ∨ yStep ≠ 0)
    (hfuel : loopFuel board ≤ fuel) :
    ∃ (counter : Int) (currentTile : TicTacTile),
      scanForward board tile yStep xStep fuel y x 0 TicTacNone
        = some (counter, currentTile) ∧
      ∃ (counter1 : Int) (currentTile1 : TicTacTile),
        scanBackward board tile yStep xStep fuel (y - yStep) (x - xStep) counter currentTile
          = some (counter1, currentTile1) ∧
        checkDirection fuel board tile x y xStep yStep = some counter1 := by
  obtain ⟨r1, h1⟩ := scanForward_returns board tile yStep xStep hstep fuel y x 0 TicTacNone
    hfuel
  have hstep1 : -xStep ≠ 0 ∨ -yStep ≠ 0 := by
    rcases hstep with h | h
    · left; simpa using h
    · right; simpa using h
  obtain ⟨r2, h2⟩ := scanForward_returns board tile (-yStep) (-xStep) hstep1 fuel
    (y - yStep) (x - xStep) r1.1 r1.2 hfuel
  rw [← scanBackward_eq_scanForward] at h2
  refine ⟨r1.1, r1.2, h1, r2.1, r2.2, h2, ?_⟩
  simp only [checkDirection, h1, h2]

/-! ## The precondition of `checkWin` -/

/-- C27: there is a board, a player and a cell of the grid that does not hold
the player's tile at which `checkWin` returns `TRUE`: on the row X X X empty
with `matches = 3`, from the empty cell, the first scan counts nothing and
the second scan counts the three X behind the start cell. -/
theorem checkWin_needs_precondition :
    ∃ (board : GameBoard) (p : TicTacTile) (x y : Int),
      board.WellFormed ∧ board.inRange y x = true ∧ board.tileAt y x ≠ p ∧
      board.tileAt y x = TicTacNone ∧
      checkWin (loopFuel board) board p x y = some true ∧
      scanForward board p 0 1 (loopFuel board) y x 0 TicTacNone = some (0, TicTacNone) ∧
      scanBackward board p 0 1 (loopFuel board) (y - 0) (x - 1) 0 TicTacNone
        = some (3, p) ∧
      checkDirection (loopFuel board) board p x y 1 0 = some 3 :=
  ⟨gapBoard, TicTacX, 3, 0, by decide, by decide, by decide, by decide, by decide, by decide,
    by decide, by decide⟩

/-! ## The loops of `boardInit` -/

theorem set_after_prefix {α : Type} (l rest : List α) (a b : α) :
    (l ++ a :: rest).set l.length b = l ++ b :: rest := by
  rw [List.set_append_right _ _ le_rfl]
  simp

/-- The inner loop of `boardInit` turns a row whose first `j` tiles are
`TicTacNone` into the row of `width` tiles `TicTacNone`. -/
theorem boardInitRow_spec (settings : Settings) (n : Nat) :
    ∀ (fuel : Nat) (j : Int) (rest : List TicTacTile),
      0 ≤ j → j ≤ settings.width → (settings.width - j).toNat = n → rest.length = n →
      n < fuel →
      boardInitRow settings fuel j (List.replicate j.toNat TicTacNone ++ rest)
        = some (List.replicate settings.width.toNat TicTacNone) := by
  induction n with
  | zero =>
    intro fuel j rest hj0 hjw hn hrest hfuel
    obtain ⟨fuel, rfl⟩ : ∃ f, fuel = f + 1 := ⟨fuel - 1, by omega⟩
    have hj : ¬ j < settings.width := by omega
    have hrest0 : rest = [] := List.length_eq_zero.mp hrest
    have hjeq : j.toNat = settings.width.toNat := by omega
    simp only [boardInitRow, hj, if_false, hrest0, List.append_nil, hjeq]
  | succ n ih =>
    intro fuel j rest hj0 hjw hn hrest hfuel
    obtain ⟨fuel, rfl⟩ : ∃ f, fuel = f + 1 := ⟨fuel - 1, by omega⟩
    have hj : j < settings.width := by omega
    obtain ⟨a, rest1, rfl⟩ : ∃ a rest1, rest = a :: rest1 := by
      cases rest with
      | nil => simp at hrest
      | cons a rest1 => exact ⟨a, rest1, rfl⟩
    have hset : (List.replicate j.toNat TicTacNone ++ a :: rest1).set j.toNat TicTacNone
        = List.replicate (j + 1).toNat TicTacNone ++ rest1 := by
      have hlen : (List.replicate j.toNat TicTacNone).length = j.toNat := by simp
      have := set_after_prefix (List.replicate j.toNat TicTacNone) rest1 a TicTacNone
      rw [hlen] at this
      rw [this]
      have e : (j + 1).toNat = j.toNat + 1 := by omega
      rw [e, List.replicate_succ']
      simp
    simp only [boardInitRow, hj, if_true, hset]
    exact ih fuel (j + 1) rest1 (by omega) (by omega) (by omega) (by simpa using hrest)
      (by omega)

/-- The outer loop of `boardInit` turns an array whose first `i` rows are set
into the grid of `height` rows of `width` tiles `TicTacNone`. -/
theorem boardInitRows_spec (settings : Settings) (fresh : Nat → List TicTacTile)
    (fuel : Nat) (hw : 0 ≤ settings.width)
    (hfresh : ∀ i : Nat, (fresh i).length = settings.width.toNat)
    (hfuel : settings.width.toNat < fuel) (n : Nat) :
    ∀ (m : Nat) (i : Int) (rest : List (List TicTacTile)),
      0 ≤ i → i ≤ settings.height → (settings.height - i).toNat = n → rest.length = n →
      n < m →
      boardInitRows settings fresh fuel m i
          (List.replicate i.toNat (List.replicate settings.width.toNat TicTacNone) ++ rest)
        = some (List.replicate settings.height.toNat
            (List.replicate settings.width.toNat TicTacNone)) := by
  induction n with
  | zero =>
    intro m i rest hi0 hih hn hrest hm
    obtain ⟨m, rfl⟩ : ∃ f, m = f + 1 := ⟨m - 1, by omega⟩
    have hi : ¬ i < settings.height := by omega
    have hrest0 : rest = [] := List.length_eq_zero.mp hrest
    have hieq : i.toNat = settings.height.toNat := by omega
    simp only [boardInitRows, hi, if_false, hrest0, List.append_nil, hieq]
  | succ n ih =>
    intro m i rest hi0 hih hn hrest hm
    obtain ⟨m, rfl⟩ : ∃ f, m = f + 1 := ⟨m - 1, by omega⟩
    have hi : i < settings.height := by omega
    obtain ⟨a, rest1, rfl⟩ : ∃ a rest1, rest = a :: rest1 := by
      cases rest with
      | nil => simp at hrest
      | cons a rest1 => exact ⟨a, rest1, rfl⟩
    have hrow := boardInitRow_spec settings (settings.width - 0).toNat fuel 0
      (fresh i.toNat) le_rfl hw rfl (by simpa using hfresh i.toNat) (by simpa using hfuel)
    simp only [Int.toNat_zero, List.replicate_zero, List.nil_append] at hrow
    have hset : (List.replicate i.toNat (List.replicate settings.width.toNat TicTacNone)
          ++ a :: rest1).set i.toNat (List.replicate settings.width.toNat TicTacNone)
        = List.replicate (i + 1).toNat (List.replicate settings.width.toNat TicTacNone)
          ++ rest1 := by
      have hlen : (List.replicate i.toNat
          (List.replicate settings.width.toNat TicTacNone)).length = i.toNat := by simp
      have := set_after_prefix
        (List.replicate i.toNat (List.replicate settings.width.toNat TicTacNone)) rest1 a
        (List.replicate settings.width.toNat TicTacNone)
      rw [hlen] at this
      rw [this]
      have e : (i + 1).toNat = i.toNat + 1 := by omega
      rw [e, List.replicate_succ']
      simp
    simp only [boardInitRows, hi, if_true, hrow, hset]
    exact ih m (i + 1) rest1 (by omega) (by omega) (by omega) (by simpa using hrest)
      (by omega)

/-- The loops of `boardInit`, whatever `malloc` left in the rows, produce the
board `boardInit`. -/
theorem boardInitLoops_eq (fuel : Nat) (fresh : Nat → List TicTacTile) (settings : Settings)
    (hw : 0 ≤ settings.width) (hh : 0 ≤ settings.height)
    (hfresh : ∀ i : Nat, (fresh i).length = settings.width.toNat)
    (hfuel : loopFuel (boardInit settings) ≤ fuel) :
    boardInitLoops fuel fresh settings = some (boardInit settings) := by
  have hf : settings.width.toNat + settings.height.toNat + 1 ≤ fuel := hfuel
  have := boardInitRows_spec settings fresh fuel hw hfresh (by omega)
    (settings.height - 0).toNat fuel 0 (List.replicate settings.height.toNat [])
    le_rfl hh rfl (by simp) (by simp only [sub_zero]; omega)
  simp only [Int.toNat_zero, List.replicate_zero, List.nil_append] at this
  simp only [boardInitLoops, this, boardInit]

/-- C22: for settings with positive width and height, the loops of
`boardInit`, whatever the allocated memory held, produce the board of the
settings with exactly `height` rows of `width` tiles, every tile
`TicTacNone`; on it `checkDraw` returns `FALSE` and `placeTile` succeeds at
every coordinate of the grid. -/
theorem boardInit_fresh_board (settings : Settings)
    (hw : 0 < settings.width) (hh : 0 < settings.height) :
    (∀ (fuel : Nat) (fresh : Nat → List TicTacTile),
      (∀ i : Nat, (fresh i).length = settings.width.toNat) →
      loopFuel (boardInit settings) ≤ fuel →
      boardInitLoops fuel fresh settings = some (boardInit settings)) ∧
    (boardInit settings).settings = settings ∧
    ((boardInit settings).tiles.length : Int) = settings.height ∧
    (∀ row ∈ (boardInit settings).tiles,
      (row.length : Int) = settings.width ∧ ∀ t ∈ row, t = TicTacNone) ∧
    (∀ fuel : Nat, loopFuel (boardInit settings) ≤ fuel →
      checkDraw fuel (boardInit settings) = some false) ∧
    (∀ (tile : TicTacTile) (x y : Int), 0 ≤ x → x < settings.width → 0 ≤ y →
      y < settings.height → (placeTile (boardInit settings) tile x y).2 = true) := by
  have hwf := boardInit_wellFormed settings (by omega) (by omega)
  refine ⟨fun fuel fresh hfresh hfuel =>
      boardInitLoops_eq fuel fresh settings (by omega) (by omega) hfresh hfuel,
    rfl, hwf.1, ?_, ?_, ?_⟩
  · intro row hrow
    refine ⟨hwf.2 row hrow, fun t ht => ?_⟩
    simp only [boardInit] at hrow
    rw [List.eq_of_mem_replicate hrow] at ht
    exact List.eq_of_mem_replicate ht
  · intro fuel hfuel
    obtain ⟨r, hr, hiff⟩ := checkDraw_spec (boardInit settings) fuel hfuel
    have hfalse : r = false := by
      cases r with
      | false => rfl
      | true =>
        exfalso
        have hin : (boardInit settings).inRange 0 0 = true := by
          rw [inRange_iff]; exact ⟨le_rfl, hh, le_rfl, hw⟩
        exact hiff.mp rfl 0 0 hin (boardInit_tileAt settings 0 0)
    rw [hr, hfalse]
  · intro tile x y hx0 hx1 hy0 hy1
    rcases placeTile_cases (boardInit settings) tile x y with ⟨_, _, h⟩ | ⟨hn, _⟩
    · rw [h]
    · exfalso
      apply hn
      refine ⟨?_, boardInit_tileAt settings y x⟩
      rw [inRange_iff]; exact ⟨hy0, hy1, hx0, hx1⟩

/-! ## Sessions: the finished game has a log, the unfinished game has no run -/

/-- A loop that sets `finished` has made a successful placement. -/
theorem placedMoves_ne_nil_of_finished (fuel : Nat) (moves : List Coordinates) :
    ∀ st st1 : PlayState, playLoop fuel st moves = some st1 → st.finished = false →
      st1.finished = true → placedMoves fuel st moves ≠ [] := by
  induction moves with
  | nil =>
    intro st st1 h hfin hfin1
    simp only [playLoop, Option.some.injEq] at h
    rw [← h, hfin] at hfin1
    exact absurd hfin1 (by simp)
  | cons c rest ih =>
    intro st st1 h hfin hfin1
    cases hturn : playTurn fuel st c with
    | none => simp [playLoop, hfin, hturn] at h
    | some st2 =>
      rw [playLoop_cons fuel st st2 c rest hfin hturn] at h
      rw [placedMoves_cons fuel st st2 c rest hfin hturn]
      by_cases hok : (placeTile st.gameBoard st.currentPlayer c.x c.y).2 = true
      · rw [if_pos hok]; exact List.cons_ne_nil _ _
      · rw [if_neg hok]
        have hfail : (placeTile st.gameBoard st.currentPlayer c.x c.y).2 = false := by
          simpa using hok
        rw [playTurn_failure fuel st c hfail] at hturn
        have := Option.some.inj hturn
        subst this
        exact ih st st1 h hfin hfin1

/-- C30: in a session whose loop has finished, the game log that `playGame`
returns has at least one entry, and `printGameLog` prints its turns:
`printList` hands the entries to the printing function and does not take its
`List is corrupt or invalid` branch, the branch it takes on the empty list of
`createList`. -/
theorem finished_log_not_empty (fuel : Nat) (settings : Settings) (moves : List Coordinates)
    (hvalid : ValidSettings settings) (hfuel : loopFuel (boardInit settings) ≤ fuel) :
    (∀ pfuel : Nat, printList pfuel (createList TurnLog) = some PrintResult.corrupt) ∧
    ∃ st, playGame fuel settings moves = some st ∧
      (st.finished = true →
        st.gameLog.turnList.entries ≠ [] ∧ 0 < st.gameLog.turnList.size ∧
        ∀ pfuel : Nat, st.gameLog.turnList.entries.length ≤ pfuel →
          printList pfuel st.gameLog.turnList
            = some (PrintResult.printed st.gameLog.turnList.entries) ∧
          printGameLog pfuel st.gameLog
            = some (PrintResult.printed (st.gameLog.turnList.entries.map printTurnLog))) := by
  refine ⟨fun pfuel => rfl, ?_⟩
  obtain ⟨st, hst, _, hrep⟩ := playGame_log fuel settings moves hvalid hfuel
  have hentries := entries_represents _ _ hrep
  refine ⟨st, hst, fun hfin => ?_⟩
  have hplaced := placedMoves_ne_nil_of_finished fuel moves (playInit settings) st hst rfl hfin
  have hne : logFrom 1 TicTacX (placedMoves fuel (playInit settings) moves) ≠ [] := by
    intro h
    have := length_logFrom (placedMoves fuel (playInit settings) moves) 1 TicTacX
    rw [h] at this
    exact hplaced (List.length_eq_zero.mp this.symm)
  rw [hentries]
  refine ⟨hne, ?_, fun pfuel hlen => ?_⟩
  · rw [hrep.1]
    have := List.length_pos.mpr hne
    omega
  · have hprint := printList_represents pfuel st.gameLog.turnList _ hrep hne hlen
    exact ⟨hprint, by simp only [printGameLog, hprint]⟩

/-- A fresh board has no run of a player when `matches` is positive. -/
theorem boardInit_no_run (settings : Settings) (p : TicTacTile)
    (hm : 0 < settings.matches_) (hp : p ≠ TicTacNone) : ¬ HasRun (boardInit settings) p := by
  rintro ⟨d, _, x0, _, y0, _, hall⟩
  have h0 := (hall 0 (by
    show 0 < settings.matches_.toNat
    omega)).2
  rw [boardInit_tileAt] at h0
  exact hp h0.symm

/-- A successful placement of `p` gives no run to another tile. -/
theorem hasRun_other_tile (board : GameBoard) (p q : TicTacTile) (x y : Int)
    (hwf : board.WellFormed) (hok : (placeTile board p x y).2 = true) (hq : q ≠ p)
    (h : HasRun (placeTile board p x y).1 q) : HasRun board q := by
  have hset := placeTile_settings board p x y
  obtain ⟨d, hd, x0, hx0, y0, hy0, hall⟩ := h
  rw [hset] at hx0 hy0 hall
  refine ⟨d, hd, x0, hx0, y0, hy0, fun k hk => ?_⟩
  obtain ⟨hin, ht⟩ := hall k hk
  rw [placeTile_inRange] at hin
  refine ⟨hin, ?_⟩
  rw [inRange_iff] at hin
  have hcell := placeTile_tileAt board p x y hok _ _ hin.1 hin.2.2.1
  rw [← hcell.1]
  · exact ht
  · by_contra hc
    push_neg at hc
    rw [hc.1, hc.2, (placeTile_tileAt board p x y hok 0 0 le_rfl le_rfl).2 hwf] at ht
    exact hq ht.symm

/-- Through the loop of a session an unfinished state has no run of X and no
run of O. -/
theorem playLoop_no_run (fuel : Nat) (settings : Settings)
    (hfuel : loopFuel (boardInit settings) ≤ fuel) (moves : List Coordinates) :
    ∀ st : PlayState, PlayInv settings st →
      (st.finished = false →
        ¬ HasRun st.gameBoard TicTacX ∧ ¬ HasRun st.gameBoard TicTacO) →
      ∃ st1, playLoop fuel st moves = some st1 ∧ PlayInv settings st1 ∧
        (st1.finished = false →
          ¬ HasRun st1.gameBoard TicTacX ∧ ¬ HasRun st1.gameBoard TicTacO) := by
  induction moves with
  | nil => intro st hinv hno; exact ⟨st, rfl, hinv, hno⟩
  | cons c rest ih =>
    intro st hinv hno
    by_cases hfin : st.finished = true
    · exact ⟨st, playLoop_finished fuel st _ hfin, hinv, hno⟩
    · have hfin0 : st.finished = false := by simpa using hfin
      obtain ⟨st1, hst1, hinv1⟩ := playTurn_inv fuel settings st c hinv hfuel
      rw [playLoop_cons fuel st st1 c rest hfin0 hst1]
      apply ih st1 hinv1
      intro hfin1
      by_cases hok : (placeTile st.gameBoard st.currentPlayer c.x c.y).2 = true
      · obtain ⟨won, draw, hwon, _, _, hturn, _⟩ :=
          playTurn_success fuel settings st c hinv hfuel hok
        rw [hturn] at hst1
        have hst1eq := Option.some.inj hst1
        have hb : st1.gameBoard = (placeTile st.gameBoard st.currentPlayer c.x c.y).1 := by
          rw [← hst1eq]
        have hf : st1.finished = (won || draw || st.finished) := by rw [← hst1eq]
        have hwon0 : won = false := by
          rw [hf] at hfin1
          cases won with
          | false => rfl
          | true => simp at hfin1
        obtain ⟨hset, hwf, hplayer, _, _, _⟩ := hinv
        have hinr : st.gameBoard.inRange c.y c.x = true := by
          rcases placeTile_cases st.gameBoard st.currentPlayer c.x c.y with
            ⟨hin, _, _⟩ | ⟨_, h⟩
          · exact hin
          · rw [h] at hok; simp at hok
        have hstart : Holds (placeTile st.gameBoard st.currentPlayer c.x c.y).1
            st.currentPlayer c.x c.y :=
          ⟨by rw [placeTile_inRange]; exact hinr,
            (placeTile_tileAt st.gameBoard st.currentPlayer c.x c.y hok 0 0
              le_rfl le_rfl).2 hwf⟩
        have hfuel1 : loopFuel (placeTile st.gameBoard st.currentPlayer c.x c.y).1 ≤ fuel := by
          unfold loopFuel at hfuel ⊢
          rw [placeTile_settings, hset]; exact hfuel
        obtain ⟨won1, hwon1, hiff, _⟩ := checkWin_spec _ st.currentPlayer c.x c.y fuel
          hstart hfuel1
        rw [hwon] at hwon1
        have hw1 : won1 = false := by rw [← Option.some.inj hwon1]; exact hwon0
        have hown : ∀ hnot : ¬ HasRun st.gameBoard st.currentPlayer,
            ¬ HasRun (placeTile st.gameBoard st.currentPlayer c.x c.y).1 st.currentPlayer := by
          intro hnot hrun
          have := winLine_of_new_run st.gameBoard _ st.currentPlayer c.x c.y
            (placeTile_settings _ _ _ _)
            (fun i j hi hj hne =>
              (placeTile_tileAt st.gameBoard st.currentPlayer c.x c.y hok i j hi hj).1 hne)
            hnot hrun
          have := hiff.mpr this
          rw [hw1] at this
          exact absurd this (by simp)
        obtain ⟨hnx, hno_o⟩ := hno hfin0
        rw [hb]
        rcases hplayer with hp | hp
        · rw [hp] at hown hok
          rw [hp]
          exact ⟨hown hnx, fun h =>
            hno_o (hasRun_other_tile st.gameBoard TicTacX TicTacO c.x c.y hwf hok (by decide) h)⟩
        · rw [hp] at hown hok
          rw [hp]
          exact ⟨fun h =>
            hnx (hasRun_other_tile st.gameBoard TicTacO TicTacX c.x c.y hwf hok (by decide) h),
            hown hno_o⟩
      · have hfail : (placeTile st.gameBoard st.currentPlayer c.x c.y).2 = false := by
          simpa using hok
        rw [playTurn_failure fuel st c hfail] at hst1
        have := Option.some.inj hst1
        subst this
        exact hno hfin0

/-- C25: in every unfinished state of a session (where `playGame` awaits a
move) the board has no run of `matches` contiguous tiles of X nor of O; and a
successful placement from such a state makes `checkWin` return `TRUE` exactly
when it leaves a run of the player who placed the tile, which is exactly when
it leaves a run of either player. -/
theorem no_run_while_awaiting_move (fuel : Nat) (settings : Settings)
    (moves : List Coordinates) (hvalid : ValidSettings settings)
    (hfuel : loopFuel (boardInit settings) ≤ fuel) :
    ∃ st, playGame fuel settings moves = some st ∧
      (st.finished = false →
        ¬ HasRun st.gameBoard TicTacX ∧ ¬ HasRun st.gameBoard TicTacO ∧
        ∀ newTile : Coordinates,
          (placeTile st.gameBoard st.currentPlayer newTile.x newTile.y).2 = true →
          ∃ won : Bool,
            checkWin fuel (placeTile st.gameBoard st.currentPlayer newTile.x newTile.y).1
              st.currentPlayer newTile.x newTile.y = some won ∧
            (won = true ↔
              HasRun (placeTile st.gameBoard st.currentPlayer newTile.x newTile.y).1
                st.currentPlayer) ∧
            (won = true ↔
              HasRun (placeTile st.gameBoard st.currentPlayer newTile.x newTile.y).1 TicTacX ∨
              HasRun (placeTile st.gameBoard st.currentPlayer newTile.x newTile.y).1
                TicTacO)) := by
  have hm : 0 < settings.matches_ := hvalid.2.2.1.1
  obtain ⟨st, hst, hinv, hno⟩ := playLoop_no_run fuel settings hfuel moves (playInit settings)
    (playInit_inv settings hvalid)
    (fun _ => ⟨boardInit_no_run settings TicTacX hm (by decide),
      boardInit_no_run settings TicTacO hm (by decide)⟩)
  refine ⟨st, hst, fun hfin => ?_⟩
  obtain ⟨hnx, hno_o⟩ := hno hfin
  refine ⟨hnx, hno_o, fun newTile hok => ?_⟩
  obtain ⟨hset, hwf, hplayer, _, _, _⟩ := hinv
  have hinr : st.gameBoard.inRange newTile.y newTile.x = true := by
    rcases placeTile_cases st.gameBoard st.currentPlayer newTile.x newTile.y with
      ⟨hin, _, _⟩ | ⟨_, h⟩
    · exact hin
    · rw [h] at hok; simp at hok
  have hstart : Holds (placeTile st.gameBoard st.currentPlayer newTile.x newTile.y).1
      st.currentPlayer newTile.x newTile.y :=
    ⟨by rw [placeTile_inRange]; exact hinr,
      (placeTile_tileAt st.gameBoard st.currentPlayer newTile.x newTile.y hok 0 0
        le_rfl le_rfl).2 hwf⟩
  have hfuel1 : loopFuel (placeTile st.gameBoard st.currentPlayer newTile.x newTile.y).1
      ≤ fuel := by
    unfold loopFuel at hfuel ⊢
    rw [placeTile_settings, hset]; exact hfuel
  obtain ⟨won, hwon, hiff, _⟩ := checkWin_spec _ st.currentPlayer newTile.x newTile.y fuel
    hstart hfuel1
  have hown : ¬ HasRun st.gameBoard st.currentPlayer →
      (won = true ↔
        HasRun (placeTile st.gameBoard st.currentPlayer newTile.x newTile.y).1
          st.currentPlayer) := by
    intro hnot
    rw [hiff]
    exact ⟨hasRun_of_winLine _ _ _ _, fun hrun =>
      winLine_of_new_run st.gameBoard _ st.currentPlayer newTile.x newTile.y
        (placeTile_settings _ _ _ _)
        (fun i j hi hj hne =>
          (placeTile_tileAt st.gameBoard st.currentPlayer newTile.x newTile.y hok i j
            hi hj).1 hne)
        hnot hrun⟩
  refine ⟨won, hwon, ?_, ?_⟩
  · rcases hplayer with hp | hp
    · rw [hp] at hown ⊢; exact hown hnx
    · rw [hp] at hown ⊢; exact hown hno_o
  · rcases hplayer with hp | hp
    · rw [hp] at hown hok ⊢
      rw [hown hnx]
      exact ⟨Or.inl, fun h => h.elim id (fun h2 => absurd
        (hasRun_other_tile st.gameBoard TicTacX TicTacO newTile.x newTile.y hwf hok
          (by decide) h2) hno_o)⟩
    · rw [hp] at hown hok ⊢
      rw [hown hno_o]
      exact ⟨Or.inr, fun h => h.elim (fun h2 => absurd
        (hasRun_other_tile st.gameBoard TicTacO TicTacX newTile.x newTile.y hwf hok
          (by decide) h2) hnx) id⟩

/-! ## The log and the occupied cells -/

/-- A successful placement of a player's tile keeps the correspondence
between the log and the board, with the new entry. -/
theorem boardLog_placeTile (board : GameBoard) (ds : List TurnLog) (tile : TicTacTile)
    (x y turnNum : Int) (hwf : board.WellFormed) (hbl : BoardLog board ds)
    (hok : (placeTile board tile x y).2 = true) (ht : tile ≠ TicTacNone) :
    BoardLog (placeTile board tile x y).1
      (ds ++ [TurnLog.mk turnNum tile (Coordinates.mk x y)]) := by
  obtain ⟨hent, hnodup, hocc⟩ := hbl
  have hcell : board.inRange y x = true ∧ board.tileAt y x = TicTacNone := by
    rcases placeTile_cases board tile x y with ⟨hin, he, _⟩ | ⟨_, h⟩
    · exact ⟨hin, he⟩
    · rw [h] at hok; simp at hok
  have hnew := (placeTile_tileAt board tile x y hok 0 0 le_rfl le_rfl).2 hwf
  have hold : ∀ e ∈ ds, e.location.y ≠ y ∨ e.location.x ≠ x := by
    intro e he
    by_contra hc
    push_neg at hc
    obtain ⟨_, h2, h3⟩ := hent e he
    rw [hc.1, hc.2, hcell.2] at h2
    exact h3 h2.symm
  refine ⟨?_, ?_, ?_⟩
  · intro e he
    rcases List.mem_append.mp he with h | h
    · obtain ⟨h1, h2, h3⟩ := hent e h
      refine ⟨by rw [placeTile_inRange]; exact h1, ?_, h3⟩
      rw [inRange_iff] at h1
      rw [(placeTile_tileAt board tile x y hok _ _ h1.1 h1.2.2.1).1 (hold e h)]
      exact h2
    · rw [List.mem_singleton] at h
      subst h
      exact ⟨by rw [placeTile_inRange]; exact hcell.1, hnew, ht⟩
  · rw [List.map_append, List.nodup_append]
    refine ⟨hnodup, by simp, ?_⟩
    intro c hc1 hc2
    simp only [List.map_cons, List.map_nil, List.mem_singleton] at hc2
    obtain ⟨e, he, hloc⟩ := List.mem_map.mp hc1
    have := hold e he
    rw [hloc, hc2] at this
    simp at this
  · intro i j hin hne
    rw [placeTile_inRange] at hin
    by_cases hc : i = y ∧ j = x
    · exact ⟨_, List.mem_append.mpr (Or.inr (List.mem_singleton.mpr rfl)), by
        rw [hc.1, hc.2]⟩
    · have hc1 : i ≠ y ∨ j ≠ x := by
        by_contra h
        push_neg at h
        exact hc h
      have hin1 := hin
      rw [inRange_iff] at hin1
      rw [(placeTile_tileAt board tile x y hok i j hin1.1 hin1.2.2.1).1 hc1] at hne
      obtain ⟨e, he, hloc⟩ := hocc i j hin hne
      exact ⟨e, List.mem_append.mpr (Or.inl he), hloc⟩

/-- Through the loop of a session the log and the board keep corresponding. -/
theorem playLoop_boardLog (fuel : Nat) (settings : Settings)
    (hfuel : loopFuel (boardInit settings) ≤ fuel) (moves : List Coordinates) :
    ∀ (st : PlayState) (ds : List TurnLog), PlayInv settings st →
      st.gameLog.turnList.Represents ds → BoardLog st.gameBoard ds →
      ∃ st1 ds1, playLoop fuel st moves = some st1 ∧ PlayInv settings st1 ∧
        st1.gameLog.turnList.Represents ds1 ∧ BoardLog st1.gameBoard ds1 := by
  induction moves with
  | nil => intro st ds hinv hrep hbl; exact ⟨st, ds, rfl, hinv, hrep, hbl⟩
  | cons c rest ih =>
    intro st ds hinv hrep hbl
    by_cases hfin : st.finished = true
    · exact ⟨st, ds, playLoop_finished fuel st _ hfin, hinv, hrep, hbl⟩
    · have hfin0 : st.finished = false := by simpa using hfin
      obtain ⟨st1, hst1, hinv1⟩ := playTurn_inv fuel settings st c hinv hfuel
      rw [playLoop_cons fuel st st1 c rest hfin0 hst1]
      by_cases hok : (placeTile st.gameBoard st.currentPlayer c.x c.y).2 = true
      · obtain ⟨won, draw, _, _, _, hturn, _⟩ :=
          playTurn_success fuel settings st c hinv hfuel hok
        rw [hturn] at hst1
        have hst1eq := Option.some.inj hst1
        have hlist : st1.gameLog.turnList = listInsertLast st.gameLog.turnList
            (TurnLog.mk st.turnNum st.currentPlayer c) := by rw [← hst1eq]
        have hb : st1.gameBoard = (placeTile st.gameBoard st.currentPlayer c.x c.y).1 := by
          rw [← hst1eq]
        have hrep1 := listInsertLast_represents st.gameLog.turnList ds
          (TurnLog.mk st.turnNum st.currentPlayer c) hrep
        rw [← hlist] at hrep1
        have hne : st.currentPlayer ≠ TicTacNone := by
          rcases hinv.2.2.1 with h | h <;> rw [h] <;> decide
        have hbl1 := boardLog_placeTile st.gameBoard ds st.currentPlayer c.x c.y st.turnNum
          hinv.2.1 hbl hok hne
        rw [← hb] at hbl1
        exact ih st1 _ hinv1 hrep1 hbl1
      · have hfail : (placeTile st.gameBoard st.currentPlayer c.x c.y).2 = false := by
          simpa using hok
        rw [playTurn_failure fuel st c hfail] at hst1
        have := Option.some.inj hst1
        subst this
        exact ih st ds hinv hrep hbl

/-- The session up to some input: its log and its board correspond. -/
theorem playGame_boardLog (fuel : Nat) (settings : Settings) (moves : List Coordinates)
    (hvalid : ValidSettings settings) (hfuel : loopFuel (boardInit settings) ≤ fuel) :
    ∃ st, playGame fuel settings moves = some st ∧ PlayInv settings st ∧
      st.gameLog.turnList.Represents
        (logFrom 1 TicTacX (placedMoves fuel (playInit settings) moves)) ∧
      BoardLog st.gameBoard st.gameLog.turnList.entries := by
  obtain ⟨st, hst, hinv, hrep⟩ := playGame_log fuel settings moves hvalid hfuel
  obtain ⟨st1, ds1, hst1, _, hrep1, hbl1⟩ := playLoop_boardLog fuel settings hfuel moves
    (playInit settings) [] (playInit_inv settings hvalid) (createList_represents TurnLog)
    ⟨fun e he => by simp at he, by simp, fun i j _ hne =>
      absurd (boardInit_tileAt settings i j) hne⟩
  have heq : st1 = st := by
    unfold playGame at hst
    rw [hst] at hst1
    exact (Option.some.inj hst1).symm
  subst heq
  refine ⟨st1, hst, hinv, hrep, ?_⟩
  rw [entries_represents _ _ hrep1]
  exact hbl1

theorem filter_add_count (row : List TicTacTile) :
    (row.filter (fun t => decide (t ≠ TicTacNone))).length + List.count TicTacNone row
      = row.length := by
  induction row with
  | nil => rfl
  | cons a rest ih =>
    by_cases ha : a = TicTacNone
    · subst ha
      simp only [ne_eq, not_true_eq_false, decide_False, Bool.false_eq_true, not_false_eq_true,
        List.filter_cons_of_neg, List.count_cons_self, List.length_cons]
      simp only [ne_eq] at ih
      omega
    · have hc : List.count TicTacNone (a :: rest) = List.count TicTacNone rest :=
        List.count_cons_of_ne (fun h => ha h.symm) rest
      rw [hc]
      simp only [ne_eq, ha, not_false_eq_true, decide_True, List.filter_cons_of_pos,
        List.length_cons]
      simp only [ne_eq] at ih
      omega

/-- On a well-formed board the occupied and the empty cells are all the
cells. -/
theorem occupiedCount_add_emptyCount (board : GameBoard) (hwf : board.WellFormed) :
    ((occupiedCount board + emptyCount board : Nat) : Int)
      = board.settings.width * board.settings.height := by
  obtain ⟨hlen, hrows⟩ := hwf
  have hsum : ∀ (tiles : List (List TicTacTile)),
      (∀ row ∈ tiles, (row.length : Int) = board.settings.width) →
      (((tiles.map (fun row =>
          (row.filter (fun t => decide (t ≠ TicTacNone))).length)).sum
        + (tiles.map (List.count TicTacNone)).sum : Nat) : Int)
        = board.settings.width * (tiles.length : Int) := by
    intro tiles
    induction tiles with
    | nil => intro _; simp
    | cons row rest ih =>
      intro h
      have h1 := ih (fun r hr => h r (List.mem_cons_of_mem _ hr))
      have h2 := h row (List.mem_cons_self _ _)
      have h3 := filter_add_count row
      simp only [List.map_cons, List.sum_cons, List.length_cons]
      push_cast at h1 ⊢
      have h4 : ((row.filter (fun t => decide (t ≠ TicTacNone))).length : Int)
          + (List.count TicTacNone row : Int) = (row.length : Int) := by
        exact_mod_cast h3
      linarith
  have := hsum board.tiles hrows
  rw [hlen] at this
  exact this

/-- C28: in every state of a session every entry of the game log has its
location inside the grid, no two entries have the same location, and the
number of tiles on the board other than `TicTacNone` is the number of log
entries. -/
theorem log_locations_distinct (fuel : Nat) (settings : Settings) (moves : List Coordinates)
    (hvalid : ValidSettings settings) (hfuel : loopFuel (boardInit settings) ≤ fuel) :
    ∃ st, playGame fuel settings moves = some st ∧
      (∀ e ∈ st.gameLog.turnList.entries,
        (0 ≤ e.location.x ∧ e.location.x < settings.width) ∧
        (0 ≤ e.location.y ∧ e.location.y < settings.height)) ∧
      (st.gameLog.turnList.entries.map (fun e => e.location)).Nodup ∧
      (∀ i j : Nat, i < j → j < st.gameLog.turnList.entries.length →
        (st.gameLog.turnList.entries[i]?).map (fun e => e.location)
          ≠ (st.gameLog.turnList.entries[j]?).map (fun e => e.location)) ∧
      occupiedCount st.gameBoard = st.gameLog.turnList.entries.length := by
  obtain ⟨st, hst, hinv, hrep, hbl⟩ := playGame_boardLog fuel settings moves hvalid hfuel
  have hentries := entries_represents _ _ hrep
  obtain ⟨hset, hwf, _, hcount, ⟨ds, hrepds, hds⟩, _⟩ := hinv
  refine ⟨st, hst, ?_, hbl.2.1, ?_, ?_⟩
  · intro e he
    have := (hbl.1 e he).1
    rw [inRange_iff, hset] at this
    exact ⟨⟨this.2.2.1, this.2.2.2⟩, ⟨this.1, this.2.1⟩⟩
  · intro i j hij hj heq
    have hnd := hbl.2.1
    rw [← List.getElem?_map, ← List.getElem?_map] at heq
    have hi' : i < (st.gameLog.turnList.entries.map (fun e => e.location)).length := by
      rw [List.length_map]; omega
    have hj' : j < (st.gameLog.turnList.entries.map (fun e => e.location)).length := by
      rw [List.length_map]; omega
    rw [List.getElem?_eq_getElem hi', List.getElem?_eq_getElem hj'] at heq
    have := (List.Nodup.getElem_inj_iff hnd).mp (Option.some.inj heq)
    omega
  · have htot := occupiedCount_add_emptyCount st.gameBoard hwf
    rw [hset] at htot
    rw [entries_represents _ _ hrepds]
    push_cast at htot
    have : (occupiedCount st.gameBoard : Int) = (ds.length : Int) := by linarith
    exact_mod_cast this

/-! ## A win needs `matches` tiles of the winner -/

/-- The entries logged from a turn of X or O: the player of the first entry
has every other entry, starting with the first. -/
theorem logFrom_player_count (cs : List Coordinates) :
    ∀ (turnNum : Int) (player : TicTacTile), player = TicTacX ∨ player = TicTacO →
      ((logFrom turnNum player cs).filter (fun e => decide (e.player = player))).length
        = (cs.length + 1) / 2 ∧
      ((logFrom turnNum player cs).filter
        (fun e => decide (e.player = changePlayer player))).length = cs.length / 2 := by
  induction cs with
  | nil => intro _ _ _; exact ⟨rfl, rfl⟩
  | cons c rest ih =>
    intro t p hp
    have hcc : changePlayer (changePlayer p) = p := by
      rcases hp with h | h <;> subst h <;> decide
    have hne : ¬ p = changePlayer p := by
      rcases hp with h | h <;> subst h <;> decide
    obtain ⟨h1, h2⟩ := ih (t + 1) (changePlayer p) (changePlayer_player p hp)
    rw [hcc] at h2
    constructor
    · simp only [logFrom, List.filter_cons, decide_True, if_true, List.length_cons, h2]
      omega
    · simp only [logFrom, List.filter_cons, hne, decide_False, Bool.false_eq_true, if_false,
        List.length_cons, h1]

/-- The cells of a line of `p` are the locations of as many log entries of
the player `p`. -/
theorem line_le_player_entries (board : GameBoard) (ds : List TurnLog) (p : TicTacTile)
    (x y dx dy : Int) (s m : Nat) (hstep : dx ≠ 0 ∨ dy ≠ 0) (hp : p ≠ TicTacNone)
    (hbl : BoardLog board ds) (hl : LineThrough board p x y dx dy s m) :
    m ≤ (ds.filter (fun e => decide (e.player = p))).length := by
  have hnodup : ((List.range m).map (fun k : Nat =>
      Coordinates.mk (x + ((k : Int) - (s : Int)) * dx)
        (y + ((k : Int) - (s : Int)) * dy))).Nodup := by
    apply List.Nodup.map_on _ (List.nodup_range m)
    intro a _ b _ hab
    simp only [Coordinates.mk.injEq] at hab
    have h1 : ((a : Int) - (b : Int)) * dx = 0 := by linarith [hab.1]
    have h2 : ((a : Int) - (b : Int)) * dy = 0 := by linarith [hab.2]
    rcases hstep with h | h
    · rcases mul_eq_zero.mp h1 with h3 | h3
      · omega
      · exact absurd h3 h
    · rcases mul_eq_zero.mp h2 with h3 | h3
      · omega
      · exact absurd h3 h
  have hsub : (List.range m).map (fun k : Nat =>
      Coordinates.mk (x + ((k : Int) - (s : Int)) * dx)
        (y + ((k : Int) - (s : Int)) * dy))
      ⊆ (ds.filter (fun e => decide (e.player = p))).map (fun e => e.location) := by
    intro c hc
    obtain ⟨k, hk, rfl⟩ := List.mem_map.mp hc
    rw [List.mem_range] at hk
    obtain ⟨hin, ht⟩ := hl.2 k hk
    obtain ⟨e, he, hloc⟩ := hbl.2.2 _ _ hin (by rw [ht]; exact hp)
    refine List.mem_map.mpr ⟨e, List.mem_filter.mpr ⟨he, ?_⟩, hloc⟩
    have h2 := (hbl.1 e he).2.1
    rw [hloc] at h2
    simp only [decide_eq_true_eq]
    rw [← h2]; exact ht
  have := (hnodup.subperm hsub).length_le
  simpa using this

/-- The session after one more iteration from an unfinished state. -/
theorem playGame_snoc (fuel : Nat) (settings : Settings) (moves : List Coordinates)
    (st st1 : PlayState) (newTile : Coordinates)
    (hst : playGame fuel settings moves = some st) (hfin : st.finished = false)
    (hturn : playTurn fuel st newTile = some st1) :
    playGame fuel settings (moves ++ [newTile]) = some st1 := by
  unfold playGame at hst ⊢
  rw [playLoop_append, hst]
  simp only [Option.some_bind]
  rw [playLoop_cons fuel st st1 newTile [] hfin hturn]
  rfl

/-- C29: in a session, when a successful placement on turn `t` makes
`checkWin` return `TRUE`, the game is finished with the win of the player who
placed the tile, `t >= 2 * matches - 1`, the last entry of the log is that
turn of that player, and the log has at least `matches` entries of that
player. -/
theorem win_not_before_turn (fuel : Nat) (settings : Settings) (moves : List Coordinates)
    (newTile : Coordinates) (hvalid : ValidSettings settings)
    (hfuel : loopFuel (boardInit settings) ≤ fuel) :
    ∃ st, playGame fuel settings moves = some st ∧
      (st.finished = false →
        (placeTile st.gameBoard st.currentPlayer newTile.x newTile.y).2 = true →
        checkWin fuel (placeTile st.gameBoard st.currentPlayer newTile.x newTile.y).1
          st.currentPlayer newTile.x newTile.y = some true →
        ∃ st1, playGame fuel settings (moves ++ [newTile]) = some st1 ∧
          st1.finished = true ∧
          playTurnOutput fuel st newTile
            = some (st1, some (Announcement.won st.currentPlayer)) ∧
          2 * settings.matches_ - 1 ≤ st.turnNum ∧
          (st1.gameLog.turnList.entries.length : Int) = st.turnNum ∧
          st1.gameLog.turnList.entries.getLast?
            = some (TurnLog.mk st.turnNum st.currentPlayer newTile) ∧
          settings.matches_ ≤ ((st1.gameLog.turnList.entries.filter
            (fun e => decide (e.player = st.currentPlayer))).length : Int)) := by
  obtain ⟨st, hst, hinv, hrep, _⟩ := playGame_boardLog fuel settings moves hvalid hfuel
  refine ⟨st, hst, fun hfin hok hwin => ?_⟩
  obtain ⟨won, draw, hwon, _, _, hturn, hout⟩ :=
    playTurn_success fuel settings st newTile hinv hfuel hok
  rw [hwin] at hwon
  have hw : won = true := (Option.some.inj hwon).symm
  subst hw
  simp only [Bool.true_or, if_true] at hturn hout
  have hgame := playGame_snoc fuel settings moves st _ newTile hst hfin hturn
  obtain ⟨st1, hst1, hinv1, hrep1, hbl1⟩ :=
    playGame_boardLog fuel settings (moves ++ [newTile]) hvalid hfuel
  rw [hgame] at hst1
  have hst1eq := Option.some.inj hst1
  have hlist : st1.gameLog.turnList = listInsertLast st.gameLog.turnList
      (TurnLog.mk st.turnNum st.currentPlayer newTile) := by rw [← hst1eq]
  have hb : st1.gameBoard = (placeTile st.gameBoard st.currentPlayer newTile.x newTile.y).1 := by
    rw [← hst1eq]
  have hrepn := listInsertLast_represents st.gameLog.turnList _
    (TurnLog.mk st.turnNum st.currentPlayer newTile) hrep
  rw [← hlist] at hrepn
  have hentries1 := entries_represents _ _ hrep1
  have hentriesn := entries_represents _ _ hrepn
  obtain ⟨hset, hwf, hplayer, _, ⟨ds, hrepds, hds⟩, _⟩ := hinv
  have hlen0 : ((logFrom 1 TicTacX (placedMoves fuel (playInit settings) moves)).length : Int)
      = st.turnNum - 1 := by
    rw [← entries_represents _ _ hrep, entries_represents _ _ hrepds]; exact hds
  have hlen : (st1.gameLog.turnList.entries.length : Int) = st.turnNum := by
    rw [hentriesn, List.length_append, List.length_singleton]
    push_cast
    omega
  -- the winning line
  have hne : st.currentPlayer ≠ TicTacNone := by
    rcases hplayer with h | h <;> rw [h] <;> decide
  have hinr : st.gameBoard.inRange newTile.y newTile.x = true := by
    rcases placeTile_cases st.gameBoard st.currentPlayer newTile.x newTile.y with
      ⟨hin, _, _⟩ | ⟨_, h⟩
    · exact hin
    · rw [h] at hok; simp at hok
  have hstart : Holds (placeTile st.gameBoard st.currentPlayer newTile.x newTile.y).1
      st.currentPlayer newTile.x newTile.y :=
    ⟨by rw [placeTile_inRange]; exact hinr,
      (placeTile_tileAt st.gameBoard st.currentPlayer newTile.x newTile.y hok 0 0
        le_rfl le_rfl).2 hwf⟩
  have hfuel1 : loopFuel (placeTile st.gameBoard st.currentPlayer newTile.x newTile.y).1
      ≤ fuel := by
    unfold loopFuel at hfuel ⊢
    rw [placeTile_settings, hset]; exact hfuel
  obtain ⟨won1, hwon1, hiff, _⟩ := checkWin_spec _ st.currentPlayer newTile.x newTile.y fuel
    hstart hfuel1
  rw [hwin] at hwon1
  have hline := hiff.mp (Option.some.inj hwon1).symm
  obtain ⟨⟨dx, dy⟩, hd, s, m, hm, hl⟩ := hline
  rw [placeTile_settings, hset] at hm
  rw [← hb] at hl
  have hcount := line_le_player_entries st1.gameBoard _ st.currentPlayer newTile.x newTile.y
    dx dy s m (winAxes_step hd) hne hbl1 hl
  have hcounts := logFrom_player_count (placedMoves fuel (playInit settings)
    (moves ++ [newTile])) 1 TicTacX (Or.inl rfl)
  rw [← hentries1] at hcounts
  have hcp : changePlayer TicTacX = TicTacO := by decide
  rw [hcp] at hcounts
  have hlen1 : (placedMoves fuel (playInit settings) (moves ++ [newTile])).length
      = st1.gameLog.turnList.entries.length := by
    rw [hentries1, length_logFrom]
  rw [hlen1] at hcounts
  refine ⟨st1, by rw [hgame, hst1eq], by rw [← hst1eq], by rw [← hst1eq]; exact hout, ?_,
    hlen, ?_, ?_⟩
  · rcases hplayer with hp | hp
    · rw [hp, hcounts.1] at hcount
      omega
    · rw [hp, hcounts.2] at hcount
      omega
  · rw [hentriesn]; simp
  · have : (m : Int) ≤ ((st1.gameLog.turnList.entries.filter
        (fun e => decide (e.player = st.currentPlayer))).length : Int) := by
      exact_mod_cast hcount
    omega

/-! ## The name of the log file -/

theorem toDigits_eq_decimal : ∀ n : Nat, n < 100 → Nat.toDigits 10 n = decimal n := by
  decide

theorem pad_toDigits_eq_twoDigits : ∀ n : Nat, n < 100 →
    (if (Nat.toDigits 10 n).length < 2 then
      List.replicate (2 - (Nat.toDigits 10 n).length) '0' ++ Nat.toDigits 10 n
    else Nat.toDigits 10 n) = twoDigits n := by
  decide

theorem formatD_eq_decimal (n : Int) (h0 : 0 ≤ n) (h1 : n ≤ 99) :
    formatD n = decimal n.toNat := by
  unfold formatD
  rw [if_neg (by omega)]
  exact toDigits_eq_decimal n.toNat (by omega)

theorem format02D_eq_twoDigits (n : Int) (h0 : 0 ≤ n) (h1 : n ≤ 99) :
    format02D n = twoDigits n.toNat := by
  have hf : formatD n = Nat.toDigits 10 n.toNat := by
    unfold formatD
    rw [if_neg (by omega)]
  unfold format02D
  rw [hf]
  exact pad_toDigits_eq_twoDigits n.toNat (by omega)

theorem length_decimal_le (n : Nat) : (decimal n).length ≤ 2 := by
  unfold decimal
  split <;> simp

/-- C24: for settings with width, height and matches in `1 .. 99` and a local
time with hour `0 .. 23`, minute `0 .. 59`, day `1 .. 31` and `tm_mon` in
`0 .. 11` (month `1 .. 12`), the name written by `createLogFile` is
`MNK_<width>-<height>-<matches>_<HH>-<MM>_<DD>-<MM>.log`, the three settings
in decimal without padding and the four time and date fields with two digits;
it has at most 28 characters, so with its terminator it fits the
`LOG_NAME_LEN` characters that `saveLog` allocates. -/
theorem createLogFileName_fits (settings : Settings) (tm_hour tm_min tm_mday tm_mon : Int)
    (hw : 1 ≤ settings.width ∧ settings.width ≤ 99)
    (hh : 1 ≤ settings.height ∧ settings.height ≤ 99)
    (hk : 1 ≤ settings.matches_ ∧ settings.matches_ ≤ 99)
    (hhour : 0 ≤ tm_hour ∧ tm_hour ≤ 23) (hmin : 0 ≤ tm_min ∧ tm_min ≤ 59)
    (hday : 1 ≤ tm_mday ∧ tm_mday ≤ 31) (hmon : 0 ≤ tm_mon ∧ tm_mon ≤ 11) :
    createLogFileName settings tm_hour tm_min tm_mday tm_mon =
      ['M', 'N', 'K', '_'] ++ decimal settings.width.toNat ++ ['-'] ++
        decimal settings.height.toNat ++ ['-'] ++ decimal settings.matches_.toNat ++ ['_'] ++
        twoDigits tm_hour.toNat ++ ['-'] ++ twoDigits tm_min.toNat ++ ['_'] ++
        twoDigits tm_mday.toNat ++ ['-'] ++ twoDigits (tm_mon + 1).toNat ++
        ['.', 'l', 'o', 'g'] ∧
    (createLogFileName settings tm_hour tm_min tm_mday tm_mon).length ≤ 28 ∧
    (createLogFileName settings tm_hour tm_min tm_mday tm_mon).length + 1 ≤ LOG_NAME_LEN := by
  have hname : createLogFileName settings tm_hour tm_min tm_mday tm_mon =
      ['M', 'N', 'K', '_'] ++ decimal settings.width.toNat ++ ['-'] ++
        decimal settings.height.toNat ++ ['-'] ++ decimal settings.matches_.toNat ++ ['_'] ++
        twoDigits tm_hour.toNat ++ ['-'] ++ twoDigits tm_min.toNat ++ ['_'] ++
        twoDigits tm_mday.toNat ++ ['-'] ++ twoDigits (tm_mon + 1).toNat ++
        ['.', 'l', 'o', 'g'] := by
    unfold createLogFileName
    rw [formatD_eq_decimal _ (by omega) hw.2, formatD_eq_decimal _ (by omega) hh.2,
      formatD_eq_decimal _ (by omega) hk.2, format02D_eq_twoDigits _ hhour.1 (by omega),
      format02D_eq_twoDigits _ hmin.1 (by omega), format02D_eq_twoDigits _ (by omega) (by omega),
      format02D_eq_twoDigits _ (by omega) (by omega)]
  have h1 := length_decimal_le settings.width.toNat
  have h2 := length_decimal_le settings.height.toNat
  have h3 := length_decimal_le settings.matches_.toNat
  have hlen : (createLogFileName settings tm_hour tm_min tm_mday tm_mon).length ≤ 28 := by
    rw [hname]
    simp only [List.length_append, List.length_cons, List.length_nil, twoDigits]
    omega
  exact ⟨hname, hlen, by
    show (createLogFileName settings tm_hour tm_min tm_mday tm_mon).length + 1 ≤ 29
    omega⟩

/-! ## The settings file -/

theorem readSettingLines_error (lines : List (Option (List Char × Int))) (st : SettingsRead)
    (h : st.error = true) : readSettingLines st lines = st := by
  cases lines with
  | nil => rfl
  | cons line rest => simp [readSettingLines, h]

theorem settingValues_append (letter : Char) (vs : List (List Char × Int))
    (v : List Char × Int) :
    settingValues letter (vs ++ [v]) =
      settingValues letter vs ++ (if IsSettingLine letter v then [v.2] else []) := by
  unfold settingValues
  rw [List.filter_append, List.map_append]
  by_cases h : IsSettingLine letter v <;> simp [List.filter, h]

theorem validSetting_spec (setting : List Char) (value : Int)
    (h : validSetting setting value = true) :
    setting.length = 1 ∧
      (firstLower setting = 'm' ∨ firstLower setting = 'n' ∨ firstLower setting = 'k') ∧
      0 < value ∧ value ≤ MAX_DIMENSION := by
  unfold validSetting at h
  split at h
  · split at h
    · split at h
      · rename_i h1 h2 h3
        exact ⟨h1, h2, h3.1, h3.2⟩
      · cases h
    · cases h
  · cases h

theorem holdsSetting_first (held value : Int) (values : List Int)
    (h : HoldsSetting held values) (h0 : held = 0) (hpos : 0 < value)
    (hle : value ≤ MAX_DIMENSION) : HoldsSetting value (values ++ [value]) := by
  rcases h with ⟨_, hnil⟩ | ⟨_, hp, _⟩
  · right
    rw [hnil]
    exact ⟨rfl, hpos, hle⟩
  · omega

theorem readSettingLine_inv (st : SettingsRead) (vs : List (List Char × Int))
    (line : Option (List Char × Int)) (hinv : SettingsInv st vs)
    (hok : (readSettingLine st line).error = false) :
    ∃ v, line = some v ∧ SettingsInv (readSettingLine st line) (vs ++ [v]) := by
  obtain ⟨herr, hcount, hm, hn, hk, hlen⟩ := hinv
  cases line with
  | none => simp [readSettingLine] at hok
  | some v =>
    obtain ⟨setting, value⟩ := v
    refine ⟨(setting, value), rfl, ?_⟩
    by_cases hv : validSetting setting value = true
    · obtain ⟨h1, h2, h3, h4⟩ := validSetting_spec _ _ hv
      have hmn : ¬ ('m' = 'n') := by decide
      have hmk : ¬ ('m' = 'k') := by decide
      have hnk : ¬ ('n' = 'k') := by decide
      by_cases c1 : firstLower setting = 'm' ∧ st.width = 0
      · have hst : readSettingLine st (some (setting, value)) =
            SettingsRead.mk st.error (st.lineCount + 1) value st.height st.matches_ := by
          simp [readSettingLine, hv, c1]
        have im : IsSettingLine 'm' (setting, value) := ⟨h1, c1.1⟩
        have in_ : ¬ IsSettingLine 'n' (setting, value) := fun h => hmn (c1.1.symm.trans h.2)
        have ik : ¬ IsSettingLine 'k' (setting, value) := fun h => hmk (c1.1.symm.trans h.2)
        rw [hst]
        refine ⟨herr, ?_, ?_, ?_, ?_, ?_⟩
        · simp [hcount]
        · rw [settingValues_append, if_pos im]
          exact holdsSetting_first _ _ _ hm c1.2 h3 h4
        · rw [settingValues_append, if_neg in_, List.append_nil]
          exact hn
        · rw [settingValues_append, if_neg ik, List.append_nil]
          exact hk
        · rw [settingValues_append, settingValues_append, settingValues_append, if_pos im,
            if_neg in_, if_neg ik]
          simp only [List.length_append, List.length_cons, List.length_nil]
          omega
      · by_cases c2 : firstLower setting = 'n' ∧ st.height = 0
        · have hst : readSettingLine st (some (setting, value)) =
              SettingsRead.mk st.error (st.lineCount + 1) st.width value st.matches_ := by
            simp [readSettingLine, hv, c1, c2]
          have im : ¬ IsSettingLine 'm' (setting, value) :=
            fun h => hmn (h.2.symm.trans c2.1)
          have in_ : IsSettingLine 'n' (setting, value) := ⟨h1, c2.1⟩
          have ik : ¬ IsSettingLine 'k' (setting, value) :=
            fun h => hnk (c2.1.symm.trans h.2)
          rw [hst]
          refine ⟨herr, ?_, ?_, ?_, ?_, ?_⟩
          · simp [hcount]
          · rw [settingValues_append, if_neg im, List.append_nil]
            exact hm
          · rw [settingValues_append, if_pos in_]
            exact holdsSetting_first _ _ _ hn c2.2 h3 h4
          · rw [settingValues_append, if_neg ik, List.append_nil]
            exact hk
          · rw [settingValues_append, settingValues_append, settingValues_append, if_neg im,
              if_pos in_, if_neg ik]
            simp only [List.length_append, List.length_cons, List.length_nil]
            omega
        · by_cases c3 : firstLower setting = 'k' ∧ st.matches_ = 0
          · have hst : readSettingLine st (some (setting, value)) =
                SettingsRead.mk st.error (st.lineCount + 1) st.width st.height value := by
              simp [readSettingLine, hv, c1, c2, c3]
            have im : ¬ IsSettingLine 'm' (setting, value) :=
              fun h => hmk (h.2.symm.trans c3.1)
            have in_ : ¬ IsSettingLine 'n' (setting, value) :=
              fun h => hnk (h.2.symm.trans c3.1)
            have ik : IsSettingLine 'k' (setting, value) := ⟨h1, c3.1⟩
            rw [hst]
            refine ⟨herr, ?_, ?_, ?_, ?_, ?_⟩
            · simp [hcount]
            · rw [settingValues_append, if_neg im, List.append_nil]
              exact hm
            · rw [settingValues_append, if_neg in_, List.append_nil]
              exact hn
            · rw [settingValues_append, if_pos ik]
              exact holdsSetting_first _ _ _ hk c3.2 h3 h4
            · rw [settingValues_append, settingValues_append, settingValues_append,
                if_neg im, if_neg in_, if_pos ik]
              simp only [List.length_append, List.length_cons, List.length_nil]
              omega
          · simp [readSettingLine, hv, c1, c2, c3] at hok
    · simp [readSettingLine, hv] at hok

theorem readSettingLines_inv (lines : List (Option (List Char × Int))) :
    ∀ (st : SettingsRead) (vs : List (List Char × Int)), SettingsInv st vs →
      (readSettingLines st lines).error = false →
      ∃ ws, lines = ws.map some ∧ SettingsInv (readSettingLines st lines) (vs ++ ws) := by
  induction lines with
  | nil =>
    intro st vs hinv _
    exact ⟨[], rfl, by simpa [readSettingLines] using hinv⟩
  | cons line rest ih =>
    intro st vs hinv hok
    have hstep : readSettingLines st (line :: rest) =
        readSettingLines (readSettingLine st line) rest := by
      simp [readSettingLines, hinv.1]
    rw [hstep] at hok ⊢
    have hline : (readSettingLine st line).error = false := by
      by_contra hne
      have htrue : (readSettingLine st line).error = true := by simpa using hne
      rw [readSettingLines_error rest _ htrue] at hok
      exact hne hok
    obtain ⟨v, hv, hinv1⟩ := readSettingLine_inv st vs line hinv hline
    obtain ⟨ws, hws, hinv2⟩ := ih _ _ hinv1 hok
    refine ⟨v :: ws, by simp [hv, hws], ?_⟩
    simpa using hinv2

theorem holdsSetting_length (held : Int) (values : List Int) (h : HoldsSetting held values) :
    values.length ≤ 1 ∧
      (values.length = 1 → values = [held] ∧ 0 < held ∧ held ≤ MAX_DIMENSION) := by
  rcases h with ⟨_, hnil⟩ | ⟨hone, hp, hle⟩
  · rw [hnil]
    simp
  · rw [hone]
    exact ⟨le_refl _, fun _ => ⟨rfl, hp, hle⟩⟩

theorem settingsInv_init :
    SettingsInv (SettingsRead.mk false 0 0 0 0) [] := by
  refine ⟨rfl, rfl, Or.inl ⟨rfl, rfl⟩, Or.inl ⟨rfl, rfl⟩, Or.inl ⟨rfl, rfl⟩, rfl⟩

/-- C21: whenever `getSettings` returns `FALSE` for `error`, the file was read
as exactly three `name=value` lines, exactly one of them named `M`, one `N`
and one `K` (in either case); the exported width, height and matches are the
values of these lines, each lies in `1 .. 99`, and matches is at most the
smaller of width and height. -/
theorem getSettings_validated (file : Option (List (Option (List Char × Int))))
    (settings : Settings) (hok : (getSettings file settings).1 = false) :
    ∃ vs : List (List Char × Int), file = some (vs.map some) ∧ vs.length = 3 ∧
      settingValues 'm' vs = [(getSettings file settings).2.width] ∧
      settingValues 'n' vs = [(getSettings file settings).2.height] ∧
      settingValues 'k' vs = [(getSettings file settings).2.matches_] ∧
      (1 ≤ (getSettings file settings).2.width ∧
        (getSettings file settings).2.width ≤ 99) ∧
      (1 ≤ (getSettings file settings).2.height ∧
        (getSettings file settings).2.height ≤ 99) ∧
      (1 ≤ (getSettings file settings).2.matches_ ∧
        (getSettings file settings).2.matches_ ≤ 99) ∧
      (getSettings file settings).2.matches_ ≤
        min (getSettings file settings).2.width (getSettings file settings).2.height ∧
      ValidSettings (getSettings file settings).2 := by
  cases file with
  | none => simp [getSettings] at hok
  | some lines =>
    by_cases he : (readSettingLines (SettingsRead.mk false 0 0 0 0) lines).error = true
    · simp [getSettings, he] at hok
    · have he0 : (readSettingLines (SettingsRead.mk false 0 0 0 0) lines).error = false := by
        simpa using he
      obtain ⟨ws, hws, _, hcount, hm, hn, hk, hlen⟩ :=
        readSettingLines_inv lines _ [] settingsInv_init he0
      rw [List.nil_append] at hcount hm hn hk hlen
      by_cases hl : (readSettingLines (SettingsRead.mk false 0 0 0 0) lines).lineCount < 3
      · simp [getSettings, he0, hl] at hok
      · by_cases hc : (readSettingLines (SettingsRead.mk false 0 0 0 0) lines).width <
            (readSettingLines (SettingsRead.mk false 0 0 0 0) lines).matches_ ∨
            (readSettingLines (SettingsRead.mk false 0 0 0 0) lines).height <
            (readSettingLines (SettingsRead.mk false 0 0 0 0) lines).matches_
        · simp [getSettings, he0, hl, hc] at hok
        · have hres : (getSettings (some lines) settings).2 =
              Settings.mk (readSettingLines (SettingsRead.mk false 0 0 0 0) lines).width
                (readSettingLines (SettingsRead.mk false 0 0 0 0) lines).height
                (readSettingLines (SettingsRead.mk false 0 0 0 0) lines).matches_ := by
            simp [getSettings, he0, hl, hc]
          obtain ⟨hm1, hm2⟩ := holdsSetting_length _ _ hm
          obtain ⟨hn1, hn2⟩ := holdsSetting_length _ _ hn
          obtain ⟨hk1, hk2⟩ := holdsSetting_length _ _ hk
          have hws3 : ws.length = 3 := by omega
          obtain ⟨hmv, hmp, hmle⟩ := hm2 (by omega)
          obtain ⟨hnv, hnp, hnle⟩ := hn2 (by omega)
          obtain ⟨hkv, hkp, hkle⟩ := hk2 (by omega)
          have hmle1 : (readSettingLines (SettingsRead.mk false 0 0 0 0) lines).width ≤ 99 :=
            hmle
          have hnle1 : (readSettingLines (SettingsRead.mk false 0 0 0 0) lines).height ≤ 99 :=
            hnle
          have hkle1 : (readSettingLines (SettingsRead.mk false 0 0 0 0) lines).matches_ ≤ 99 :=
            hkle
          rw [hres]
          refine ⟨ws, by rw [hws], hws3, hmv, hnv, hkv, ⟨hmp, hmle1⟩, ⟨hnp, hnle1⟩,
            ⟨hkp, hkle1⟩, ?_, ⟨hmp, hmle1⟩, ⟨hnp, hnle1⟩, ⟨hkp, hkle1⟩, hc⟩
          show (readSettingLines (SettingsRead.mk false 0 0 0 0) lines).matches_ ≤
            min (readSettingLines (SettingsRead.mk false 0 0 0 0) lines).width
              (readSettingLines (SettingsRead.mk false 0 0 0 0) lines).height
          rw [le_min_iff]
          omega

/-! ## The coordinate string -/

theorem getD_eq_headD_drop (s : List Char) (i : Nat) (d : Char) :
    s.getD i d = (s.drop i).headD d := by
  induction s generalizing i with
  | nil => simp
  | cons c rest ih =>
    cases i with
    | zero => simp
    | succ k => simp

theorem skipSpace_spec (s : List Char) :
    BlankText (s.take (skipSpace s)) ∧
      ¬ ((s.drop (skipSpace s)).headD NUL = SPACE ∨ (s.drop (skipSpace s)).headD NUL = TAB) := by
  induction s with
  | nil =>
    refine ⟨by simp [BlankText, skipSpace], ?_⟩
    simp only [skipSpace, List.drop_nil, List.headD_nil]
    decide
  | cons c rest ih =>
    by_cases hc : c = SPACE ∨ c = TAB
    · have hs : skipSpace (c :: rest) = skipSpace rest + 1 := by simp [skipSpace, hc]
      rw [hs]
      refine ⟨?_, by simpa using ih.2⟩
      intro x hx
      simp only [List.take_succ_cons, List.mem_cons] at hx
      rcases hx with rfl | hx
      · exact hc
      · exact ih.1 x hx
    · have hs : skipSpace (c :: rest) = 0 := by simp [skipSpace, hc]
      rw [hs]
      refine ⟨by simp [BlankText], ?_⟩
      simpa using hc

theorem skipSpace_blank (b rest : List Char) (hb : BlankText b)
    (hrest : ¬ (rest.headD NUL = SPACE ∨ rest.headD NUL = TAB)) :
    skipSpace (b ++ rest) = b.length := by
  induction b with
  | nil =>
    cases rest with
    | nil => rfl
    | cons c tail =>
      have hc : ¬ (c = SPACE ∨ c = TAB) := by simpa using hrest
      simp [skipSpace, hc]
  | cons c tail ih =>
    have hc : c = SPACE ∨ c = TAB := hb c (List.mem_cons_self _ _)
    have ht : BlankText tail := fun x hx => hb x (List.mem_cons_of_mem _ hx)
    simp [skipSpace, hc, ih ht]

theorem takeWhile_prefix (p : Char → Bool) (l r : List Char) (hl : ∀ c ∈ l, p c = true)
    (hr : p (r.headD NUL) = false) : (l ++ r).takeWhile p = l := by
  induction l with
  | nil =>
    cases r with
    | nil => rfl
    | cons c t =>
      have hc : p c = false := by simpa using hr
      simp [List.takeWhile, hc]
  | cons c t ih =>
    have hc : p c = true := hl c (List.mem_cons_self _ _)
    have ht : ∀ x ∈ t, p x = true := fun x hx => hl x (List.mem_cons_of_mem _ hx)
    simp [List.takeWhile, hc, ih ht]

theorem drop_length_takeWhile (p : Char → Bool) (s : List Char) :
    s.drop (s.takeWhile p).length = s.dropWhile p := by
  induction s with
  | nil => rfl
  | cons c t ih =>
    by_cases hc : p c = true
    · simp [List.takeWhile, List.dropWhile, hc, ih]
    · have hc0 : p c = false := by simpa using hc
      simp [List.takeWhile, List.dropWhile, hc0]

theorem headD_dropWhile (p : Char → Bool) (s : List Char) (hnul : p NUL = false) :
    p ((s.dropWhile p).headD NUL) = false := by
  induction s with
  | nil => simpa using hnul
  | cons c t ih =>
    by_cases hc : p c = true
    · simpa [List.dropWhile, hc] using ih
    · have hc0 : p c = false := by simpa using hc
      simp [List.dropWhile, hc0]

theorem isdigit_not_sign (c : Char) (h : isdigit c = true) :
    isspace c = false ∧ c ≠ '+' ∧ c ≠ '-' ∧ c ≠ SPACE ∧ c ≠ TAB ∧ c ≠ ',' := by
  unfold isdigit at h
  have h1 : 48 ≤ c.toNat ∧ c.toNat ≤ 57 := by simpa using h
  refine ⟨?_, ?_, ?_, ?_, ?_, ?_⟩
  · unfold isspace
    have hs : c ≠ SPACE := by
      rintro rfl
      revert h1
      decide
    simp only [decide_eq_false_iff_not, not_or, not_and, not_le]
    exact ⟨hs, fun _ => by omega⟩
  all_goals
    rintro rfl
    revert h1
    decide

theorem strtolEnd_number (n rest : List Char) (hn : NumberText n)
    (hrest : isdigit (rest.headD NUL) = false) :
    strtolEnd (n ++ rest) = n.length ∧ 0 < n.length := by
  obtain ⟨ws, sign, ds, rfl, hws, hsign, hne, hds⟩ := hn
  obtain ⟨d, dt, rfl⟩ := List.exists_cons_of_ne_nil hne
  have hd : isdigit d = true := hds d (List.mem_cons_self _ _)
  obtain ⟨hd1, hd2, hd3, _, _, _⟩ := isdigit_not_sign d hd
  have hplus : isspace '+' = false := by decide
  have hminus : isspace '-' = false := by decide
  have hhead : isspace ((sign ++ (d :: dt) ++ rest).headD NUL) = false := by
    rcases hsign with rfl | rfl | rfl
    · simpa using hd1
    · simpa using hplus
    · simpa using hminus
  have h1 : (ws ++ sign ++ (d :: dt) ++ rest).takeWhile isspace = ws := by
    have := takeWhile_prefix isspace ws (sign ++ (d :: dt) ++ rest) hws hhead
    simpa [List.append_assoc] using this
  have h2 : (ws ++ sign ++ (d :: dt) ++ rest).drop ws.length = sign ++ (d :: dt) ++ rest := by
    simp [List.append_assoc]
  have h3 : (if (sign ++ (d :: dt) ++ rest).headD NUL = '+' ∨
      (sign ++ (d :: dt) ++ rest).headD NUL = '-' then 1 else 0) = sign.length := by
    rcases hsign with rfl | rfl | rfl
    · simp [hd2, hd3]
    · simp
    · simp
  have h4 : (ws ++ sign ++ (d :: dt) ++ rest).drop (ws.length + sign.length) =
      (d :: dt) ++ rest := by
    have : ws.length + sign.length = (ws ++ sign).length := by simp
    rw [this, List.append_assoc (ws ++ sign), List.drop_left]
  have h5 : ((d :: dt) ++ rest).takeWhile isdigit = d :: dt :=
    takeWhile_prefix isdigit (d :: dt) rest hds hrest
  unfold strtolEnd
  simp only [h1, h2, h3, h4, h5]
  simp
  omega

theorem take_length_takeWhile (p : Char → Bool) (s : List Char) :
    s.take (s.takeWhile p).length = s.takeWhile p := by
  induction s with
  | nil => rfl
  | cons c t ih =>
    by_cases hc : p c = true
    · simp [List.takeWhile, hc, ih]
    · have hc0 : p c = false := by simpa using hc
      simp [List.takeWhile, hc0]

theorem take_sign (t : List Char) :
    t.take (if t.headD NUL = '+' ∨ t.headD NUL = '-' then 1 else 0) = [] ∨
    t.take (if t.headD NUL = '+' ∨ t.headD NUL = '-' then 1 else 0) = ['+'] ∨
    t.take (if t.headD NUL = '+' ∨ t.headD NUL = '-' then 1 else 0) = ['-'] := by
  cases t with
  | nil => simp
  | cons c tail =>
    by_cases hc : c = '+' ∨ c = '-'
    · rcases hc with rfl | rfl
      · right; left; simp
      · right; right; simp
    · left
      simp [hc]

theorem strtolEnd_decomp (s : List Char) (h : 0 < strtolEnd s) :
    ∃ n rest : List Char, s = n ++ rest ∧ NumberText n ∧ isdigit (rest.headD NUL) = false := by
  have hne : (s.drop ((s.takeWhile isspace).length +
      (if (s.drop (s.takeWhile isspace).length).headD NUL = '+' ∨
        (s.drop (s.takeWhile isspace).length).headD NUL = '-' then 1 else 0))).takeWhile
      isdigit ≠ [] := by
    intro h0
    unfold strtolEnd at h
    simp only [h0, List.length_nil] at h
    simp at h
  generalize hsg : (if (s.drop (s.takeWhile isspace).length).headD NUL = '+' ∨
        (s.drop (s.takeWhile isspace).length).headD NUL = '-' then 1 else 0) = sg at hne
  have hsign := take_sign (s.drop (s.takeWhile isspace).length)
  rw [hsg] at hsign
  refine ⟨s.takeWhile isspace ++ (s.drop (s.takeWhile isspace).length).take sg ++
      (s.drop ((s.takeWhile isspace).length + sg)).takeWhile isdigit,
    (s.drop ((s.takeWhile isspace).length + sg)).dropWhile isdigit, ?_, ?_, ?_⟩
  · have e2 : s.drop ((s.takeWhile isspace).length + sg) =
        (s.drop (s.takeWhile isspace).length).drop sg := by
      rw [List.drop_drop, Nat.add_comm]
    have e4 : s.takeWhile isspace ++ s.drop (s.takeWhile isspace).length = s := by
      rw [drop_length_takeWhile]
      exact List.takeWhile_append_dropWhile isspace s
    rw [List.append_assoc, List.append_assoc, List.takeWhile_append_dropWhile, e2,
      List.take_append_drop, e4]
  · exact ⟨_, _, _, rfl, fun c hc => List.mem_takeWhile_imp hc, hsign, hne,
      fun c hc => List.mem_takeWhile_imp hc⟩
  · exact headD_dropWhile isdigit _ (by decide)

theorem strtolEnd_pos (s : List Char) (h : 0 < strtolEnd s) :
    NumberText (s.take (strtolEnd s)) ∧ isdigit ((s.drop (strtolEnd s)).headD NUL) = false := by
  obtain ⟨n, rest, rfl, hn, hr⟩ := strtolEnd_decomp s h
  rw [(strtolEnd_number n rest hn hr).1, List.take_left, List.drop_left]
  exact ⟨hn, hr⟩

theorem blank_not_digit (c : Char) (h : c = SPACE ∨ c = TAB) : isdigit c = false := by
  rcases h with rfl | rfl <;> decide

theorem headD_blank_append (b rest : List Char) (hb : BlankText b)
    (hrest : isdigit (rest.headD NUL) = false) : isdigit ((b ++ rest).headD NUL) = false := by
  cases b with
  | nil => simpa using hrest
  | cons c t => simpa using blank_not_digit c (hb c (List.mem_cons_self _ _))

theorem validCoordString_parts (n1 b1 n2 b2 rest : List Char) (hn1 : NumberText n1)
    (hb1 : BlankText b1) (hn2 : NumberText n2) (hb2 : BlankText b2)
    (hrest : rest.headD NUL = NUL ∨ rest.headD NUL = NEWLINE) :
    validCoordString (n1 ++ (b1 ++ (',' :: (n2 ++ (b2 ++ rest))))) = true := by
  have hcomma : isdigit ((',' :: (n2 ++ (b2 ++ rest))).headD NUL) = false := by
    show isdigit ',' = false
    decide
  have hcb : ¬ ((',' :: (n2 ++ (b2 ++ rest))).headD NUL = SPACE ∨
      (',' :: (n2 ++ (b2 ++ rest))).headD NUL = TAB) := by
    show ¬ (',' = SPACE ∨ ',' = TAB)
    decide
  have hrd : isdigit (rest.headD NUL) = false := by
    rcases hrest with h | h <;> rw [h] <;> decide
  have hrb : ¬ (rest.headD NUL = SPACE ∨ rest.headD NUL = TAB) := by
    rcases hrest with h | h <;> rw [h] <;> decide
  have h1 := strtolEnd_number n1 (b1 ++ (',' :: (n2 ++ (b2 ++ rest)))) hn1
    (headD_blank_append _ _ hb1 hcomma)
  have h2 : (n1 ++ (b1 ++ (',' :: (n2 ++ (b2 ++ rest))))).drop n1.length =
      b1 ++ (',' :: (n2 ++ (b2 ++ rest))) := List.drop_left _ _
  have h3 : skipSpace (b1 ++ (',' :: (n2 ++ (b2 ++ rest)))) = b1.length :=
    skipSpace_blank b1 _ hb1 hcb
  have h4 : (b1 ++ (',' :: (n2 ++ (b2 ++ rest)))).getD b1.length NUL = ',' := by
    rw [getD_eq_headD_drop, List.drop_left]
    rfl
  have h5 : (b1 ++ (',' :: (n2 ++ (b2 ++ rest)))).drop (b1.length + 1) =
      n2 ++ (b2 ++ rest) := by
    rw [← List.drop_drop, List.drop_left]
    rfl
  have h6 := strtolEnd_number n2 (b2 ++ rest) hn2 (headD_blank_append _ _ hb2 hrd)
  have h7 : (n2 ++ (b2 ++ rest)).drop n2.length = b2 ++ rest := List.drop_left _ _
  have h8 : skipSpace (b2 ++ rest) = b2.length := skipSpace_blank b2 _ hb2 hrb
  have h9 : (b2 ++ rest).getD b2.length NUL = rest.headD NUL := by
    rw [getD_eq_headD_drop, List.drop_left]
  unfold validCoordString
  simp only [h1.1, h2, h3, h4, h5, h6.1, h7, h8, h9]
  rw [if_pos h1.2, if_pos trivial, if_pos h6.2, if_pos hrest]

theorem validCoordString_of_accepted (s : List Char) (h : AcceptedCoordFormat s) :
    validCoordString s = true := by
  obtain ⟨n1, b1, n2, b2, rest, rfl, hn1, hb1, hn2, hb2, hrest⟩ := h
  have := validCoordString_parts n1 b1 n2 b2 rest hn1 hb1 hn2 hb2 hrest
  simpa [List.append_assoc] using this

theorem drop_eq_cons (l : List Char) (i : Nat) (c : Char) (h : l.getD i NUL = c)
    (hc : c ≠ NUL) : l.drop i = c :: l.drop (i + 1) := by
  induction l generalizing i with
  | nil =>
    rw [List.getD_nil] at h
    exact absurd h.symm hc
  | cons x t ih =>
    cases i with
    | zero =>
      rw [List.getD_cons_zero] at h
      simp [h]
    | succ k =>
      rw [List.getD_cons_succ] at h
      simpa using ih k h

theorem accepted_of_validCoordString (s : List Char) (h : validCoordString s = true) :
    AcceptedCoordFormat s := by
  unfold validCoordString at h
  simp only [] at h
  split_ifs at h with c1 c2 c3 c4
  obtain ⟨hn1, _⟩ := strtolEnd_pos s c1
  obtain ⟨hb1, _⟩ := skipSpace_spec (s.drop (strtolEnd s))
  obtain ⟨hn2, _⟩ := strtolEnd_pos _ c3
  obtain ⟨hb2, _⟩ := skipSpace_spec
    (((s.drop (strtolEnd s)).drop (skipSpace (s.drop (strtolEnd s)) + 1)).drop
      (strtolEnd ((s.drop (strtolEnd s)).drop (skipSpace (s.drop (strtolEnd s)) + 1))))
  have hcomma := drop_eq_cons _ _ _ c2 (by decide)
  rw [getD_eq_headD_drop] at c4
  refine ⟨_, _, _, _, _, ?_, hn1, hb1, hn2, hb2, c4⟩
  simp only [List.append_assoc, List.singleton_append, List.cons_append, List.nil_append,
    List.take_append_drop]
  rw [← hcomma, List.take_append_drop, List.take_append_drop]

theorem documented_accepted (s : List Char) (h : DocumentedCoordFormat s) :
    AcceptedCoordFormat s := by
  obtain ⟨w1, d1, w2, w3, d2, w4, nl, rfl, hw1, hd1, hw2, hw3, hd2, hw4, hnl⟩ := h
  have hblank : ∀ w : List Char, BlankText w → ∀ c ∈ w, isspace c = true := by
    intro w hw c hc
    rcases hw c hc with rfl | rfl <;> decide
  have hne : ∀ d : List Char, DigitText d → d ≠ [] := by
    rintro d ⟨hlen, _⟩ rfl
    simp at hlen
  refine ⟨w1 ++ d1, w2, w3 ++ d2, w4, nl, by simp only [List.append_assoc],
    ⟨w1, [], d1, by simp, hblank w1 hw1, Or.inl rfl, hne d1 hd1, hd1.2⟩, hw2,
    ⟨w3, [], d2, by simp, hblank w3 hw3, Or.inl rfl, hne d2 hd2, hd2.2⟩, hw4, ?_⟩
  rcases hnl with rfl | rfl
  · left; rfl
  · right; rfl

theorem not_documented_signed : ¬ DocumentedCoordFormat ['+', '1', ',', '2'] := by
  rintro ⟨w1, d1, w2, w3, d2, w4, nl, hs, hw1, hd1, -⟩
  cases w1 with
  | nil =>
    cases d1 with
    | nil =>
      have := hd1.1
      simp at this
    | cons c t =>
      simp only [List.nil_append, List.cons_append, List.cons.injEq] at hs
      have hc := hd1.2 c (List.mem_cons_self _ _)
      rw [← hs.1] at hc
      revert hc
      decide
  | cons c t =>
    simp only [List.cons_append, List.cons.injEq] at hs
    have hc := hw1 c (List.mem_cons_self _ _)
    rw [← hs.1] at hc
    revert hc
    decide

theorem not_documented_three_digits : ¬ DocumentedCoordFormat ['1', '2', '3', ',', '4'] := by
  rintro ⟨w1, d1, w2, w3, d2, w4, nl, hs, hw1, hd1, hw2, -⟩
  have hblank : ∀ c : Char, isdigit c = true → ¬ (c = SPACE ∨ c = TAB) := by
    intro c hc hb
    rw [blank_not_digit c hb] at hc
    cases hc
  cases w1 with
  | cons c t =>
    simp only [List.cons_append, List.cons.injEq] at hs
    exact hblank c (by rw [← hs.1]; decide) (hw1 c (List.mem_cons_self _ _))
  | nil =>
    obtain ⟨hlen, -⟩ := hd1
    rcases hlen with h1 | h2
    · obtain ⟨a, rfl⟩ := List.length_eq_one.mp h1
      cases w2 with
      | nil =>
        simp only [List.nil_append, List.cons_append, List.cons.injEq] at hs
        exact absurd hs.2.1 (by decide)
      | cons c t =>
        simp only [List.nil_append, List.cons_append, List.cons.injEq] at hs
        exact hblank c (by rw [← hs.2.1]; decide) (hw2 c (List.mem_cons_self _ _))
    · obtain ⟨a, b, rfl⟩ := List.length_eq_two.mp h2
      cases w2 with
      | nil =>
        simp only [List.nil_append, List.cons_append, List.cons.injEq] at hs
        exact absurd hs.2.2.1 (by decide)
      | cons c t =>
        simp only [List.nil_append, List.cons_append, List.cons.injEq] at hs
        exact hblank c (by rw [← hs.2.2.1]; decide) (hw2 c (List.mem_cons_self _ _))

theorem documented_chars (s : List Char) (h : DocumentedCoordFormat s) :
    ∀ c ∈ s, (c = SPACE ∨ c = TAB) ∨ isdigit c = true ∨ c = ',' ∨ c = NEWLINE := by
  obtain ⟨w1, d1, w2, w3, d2, w4, nl, rfl, hw1, hd1, hw2, hw3, hd2, hw4, hnl⟩ := h
  intro c hc
  simp only [List.mem_append, List.mem_singleton] at hc
  rcases hc with ((((((hc | hc) | hc) | hc) | hc) | hc) | hc) | hc
  · exact Or.inl (hw1 c hc)
  · exact Or.inr (Or.inl (hd1.2 c hc))
  · exact Or.inl (hw2 c hc)
  · exact Or.inr (Or.inr (Or.inl hc))
  · exact Or.inl (hw3 c hc)
  · exact Or.inr (Or.inl (hd2.2 c hc))
  · exact Or.inl (hw4 c hc)
  · rcases hnl with rfl | rfl
    · cases hc
    · exact Or.inr (Or.inr (Or.inr (List.mem_singleton.mp hc)))

theorem not_documented_after_newline :
    ¬ DocumentedCoordFormat ['1', ',', '2', NEWLINE, 'x'] := by
  intro h
  have hx := documented_chars _ h 'x' (by decide)
  revert hx
  decide

/-- The strings for which `validCoordString` returns TRUE are those made of a
number text (optional `isspace` whitespace, an optional sign and one or more
digits), optional spaces and tabs, a comma, a second number text, optional
spaces and tabs, and then the end of the string or a newline, after which
anything may follow.  Every string of the documented format is one of them. -/
theorem validCoordString_iff_accepted (s : List Char) :
    (validCoordString s = true ↔ AcceptedCoordFormat s) ∧
      (DocumentedCoordFormat s → validCoordString s = true) :=
  ⟨⟨accepted_of_validCoordString s, validCoordString_of_accepted s⟩,
    fun h => validCoordString_of_accepted s (documented_accepted s h)⟩

/-- C23: `validCoordString` does not keep to the format that its comment
documents.  It returns TRUE for the string `+1,2`, which is not of the format
`[ws] 1-2 digits [ws] comma [ws] 1-2 digits [ws][\n]`, because `strtol` takes
a sign; in the same way it returns TRUE for `123,4`, which has three digits,
and for `1,2` followed by a newline and `x`, where text follows the newline. -/
theorem validCoordString_outside_documented_format :
    (validCoordString ['+', '1', ',', '2'] = true ∧
      ¬ DocumentedCoordFormat ['+', '1', ',', '2']) ∧
    (validCoordString ['1', '2', '3', ',', '4'] = true ∧
      ¬ DocumentedCoordFormat ['1', '2', '3', ',', '4']) ∧
    (validCoordString ['1', ',', '2', NEWLINE, 'x'] = true ∧
      ¬ DocumentedCoordFormat ['1', ',', '2', NEWLINE, 'x']) :=
  ⟨⟨by decide, not_documented_signed⟩, ⟨by decide, not_documented_three_digits⟩,
    ⟨by decide, not_documented_after_newline⟩⟩

/-! ## Instances of the statements on concrete boards -/

theorem checkWin_iff_line_witness :
    Holds diagonalBoard TicTacX 2 2 ∧ loopFuel diagonalBoard ≤ 7 ∧
    ∃ won : Bool, checkWin 7 diagonalBoard TicTacX 2 2 = some won ∧
      (won = true ↔ ∃ d ∈ winAxes, ∃ s m : Nat,
          diagonalBoard.settings.matches_ ≤ (m : Int) ∧
            LineThrough diagonalBoard TicTacX 2 2 d.1 d.2 s m) ∧
      (0 < diagonalBoard.settings.matches_ →
        (won = true ↔ ∃ d ∈ winAxes, ∃ s : Nat,
          LineThrough diagonalBoard TicTacX 2 2 d.1 d.2 s
            diagonalBoard.settings.matches_.toNat)) :=
  ⟨by decide, by decide,
    checkWin_iff_line diagonalBoard TicTacX 2 2 7 (by decide) (by decide)⟩

theorem checkDirection_count_witness :
    Holds diagonalBoard TicTacX 1 1 ∧ ((1 : Int), (1 : Int)) ∈ winAxes ∧
    ∃ f b : Nat, RunLength diagonalBoard TicTacX 1 1 1 1 f ∧
      RunLength diagonalBoard TicTacX 1 1 (-1) (-1) b ∧
      ∀ fuel : Nat, loopFuel diagonalBoard ≤ fuel →
        checkDirection fuel diagonalBoard TicTacX 1 1 1 1 = some (1 + (f : Int) + (b : Int)) :=
  ⟨by decide, by decide,
    checkDirection_count diagonalBoard TicTacX 1 1 1 1 (by decide) (by decide)⟩

theorem placeTile_success_frame_witness :
    openBoard.WellFormed ∧ (placeTile openBoard TicTacX 2 0).2 = true ∧
    (placeTile openBoard TicTacX 2 0).1.tileAt 0 2 = TicTacX ∧
    (∀ i j : Int, 0 ≤ i → 0 ≤ j → (i ≠ 0 ∨ j ≠ 2) →
      (placeTile openBoard TicTacX 2 0).1.tileAt i j = openBoard.tileAt i j) ∧
    (placeTile openBoard TicTacX 2 0).1.settings = openBoard.settings ∧
    (placeTile openBoard TicTacX 2 0).1.WellFormed :=
  ⟨by decide, by decide,
    placeTile_success_frame openBoard TicTacX 2 0 (by decide) (by decide)⟩

theorem placeTile_failure_unchanged_witness :
    (placeTile openBoard TicTacO 5 5).2 = false ∧
    (placeTile openBoard TicTacO 5 5).1 = openBoard :=
  ⟨by decide, placeTile_failure_unchanged openBoard TicTacO 5 5 (by decide)⟩

theorem checkDraw_iff_full_witness :
    loopFuel openBoard ≤ 7 ∧
    ∃ r, checkDraw 7 openBoard = some r ∧
      (r = true ↔
        ∀ i j : Int, openBoard.inRange i j = true → openBoard.tileAt i j ≠ TicTacNone) ∧
      (r = false ↔
        ∃ i j : Int, openBoard.inRange i j = true ∧ openBoard.tileAt i j = TicTacNone) :=
  ⟨by decide, checkDraw_iff_full openBoard 7 (by decide)⟩

theorem placeAll_keeps_tiles_witness :
    (placeAll openBoard [(TicTacX, 2, 0)]).tileAt 0 2 ≠ TicTacNone ∧
    (placeAll openBoard ([(TicTacX, 2, 0)] ++ [(TicTacO, 2, 0), (TicTacO, 2, 2)])).tileAt 0 2
      = (placeAll openBoard [(TicTacX, 2, 0)]).tileAt 0 2 :=
  ⟨by decide, placeAll_keeps_tiles openBoard [(TicTacX, 2, 0)]
    [(TicTacO, 2, 0), (TicTacO, 2, 2)] 0 2 (by decide) (by decide) (by decide)⟩

theorem checkWin_iff_new_run_witness :
    openBoard.WellFormed ∧ ¬ HasRun openBoard TicTacX ∧
    openBoard.inRange 0 2 = true ∧ openBoard.tileAt 0 2 = TicTacNone ∧
    loopFuel openBoard ≤ 7 ∧
    (placeTile openBoard TicTacX 2 0).2 = true ∧
    ∃ won : Bool, checkWin 7 (placeTile openBoard TicTacX 2 0).1 TicTacX 2 0 = some won ∧
      (HasRun (placeTile openBoard TicTacX 2 0).1 TicTacX ↔ won = true) :=
  ⟨by decide, by decide, by decide, by decide, by decide,
    checkWin_iff_new_run openBoard TicTacX 2 0 7 (by decide) (by decide) (by decide)
      (by decide) (by decide)⟩

theorem checkWin_mirror_witness :
    diagonalBoard.WellFormed ∧ Holds diagonalBoard TicTacX 2 2 ∧ loopFuel diagonalBoard ≤ 7 ∧
    ∃ won : Bool, checkWin 7 diagonalBoard TicTacX 2 2 = some won ∧
      checkWin 7 (mirrorLeftRight diagonalBoard) TicTacX
        (diagonalBoard.settings.width - 1 - 2) 2 = some won ∧
      checkWin 7 (mirrorTopBottom diagonalBoard) TicTacX 2
        (diagonalBoard.settings.height - 1 - 2) = some won :=
  ⟨by decide, by decide, by decide,
    checkWin_mirror diagonalBoard TicTacX 2 2 7 (by decide) (by decide) (by decide)⟩

theorem playGame_termination_bound_witness :
    ValidSettings (Settings.mk 3 3 3) ∧ loopFuel (boardInit (Settings.mk 3 3 3)) ≤ 7 ∧
    ∃ st, playGame 7 (Settings.mk 3 3 3) [Coordinates.mk 0 0, Coordinates.mk 1 1] = some st ∧
      (emptyCount st.gameBoard : Int) + (st.gameLog.turnList.entries.length : Int)
        = (Settings.mk 3 3 3).width * (Settings.mk 3 3 3).height ∧
      (st.gameLog.turnList.entries.length : Int)
        ≤ (Settings.mk 3 3 3).width * (Settings.mk 3 3 3).height ∧
      ((st.gameLog.turnList.entries.length : Int)
          = (Settings.mk 3 3 3).width * (Settings.mk 3 3 3).height →
        st.finished = true) ∧
      st.gameLog.turnList.size = (st.gameLog.turnList.entries.length : Int) ∧
      st.turnNum = (st.gameLog.turnList.entries.length : Int) + 1 :=
  ⟨by decide, by decide,
    playGame_termination_bound (Settings.mk 3 3 3) [Coordinates.mk 0 0, Coordinates.mk 1 1] 7
      (by decide) (by decide)⟩

theorem turn_count_monotonic_witness :
    ValidSettings (Settings.mk 3 3 3) ∧ loopFuel (boardInit (Settings.mk 3 3 3)) ≤ 7 ∧
    ∃ st, playGame 7 (Settings.mk 3 3 3) centreLastMoves = some st ∧
      st.gameLog.turnList.entries.length
        = (placedMoves 7 (playInit (Settings.mk 3 3 3)) centreLastMoves).length ∧
      st.gameLog.turnList.size = (st.gameLog.turnList.entries.length : Int) ∧
      (∀ newTile : Coordinates, st.finished = false →
        ∃ st1, playTurn 7 st newTile = some st1 ∧
          playGame 7 (Settings.mk 3 3 3) (centreLastMoves ++ [newTile]) = some st1 ∧
          ((placeTile st.gameBoard st.currentPlayer newTile.x newTile.y).2 = true →
            st1.gameLog.turnList.entries.length
              = st.gameLog.turnList.entries.length + 1) ∧
          ((placeTile st.gameBoard st.currentPlayer newTile.x newTile.y).2 = false →
            st1.gameLog.turnList.entries.length = st.gameLog.turnList.entries.length)) ∧
      (∀ more : List Coordinates,
        ∃ st2, playGame 7 (Settings.mk 3 3 3) (centreLastMoves ++ more) = some st2 ∧
          st.gameLog.turnList.entries.length ≤ st2.gameLog.turnList.entries.length) :=
  ⟨by decide, by decide,
    turn_count_monotonic 7 (Settings.mk 3 3 3) centreLastMoves (by decide) (by decide)⟩

theorem gameLog_chronological_witness :
    ValidSettings (Settings.mk 3 3 3) ∧ loopFuel (boardInit (Settings.mk 3 3 3)) ≤ 7 ∧
    ∃ st, playGame 7 (Settings.mk 3 3 3) centreLastMoves = some st ∧
      st.gameLog.turnList.entries.length
        = (placedMoves 7 (playInit (Settings.mk 3 3 3)) centreLastMoves).length ∧
      ∀ i : Nat, i < st.gameLog.turnList.entries.length →
        ∃ c : Coordinates,
          (placedMoves 7 (playInit (Settings.mk 3 3 3)) centreLastMoves)[i]? = some c ∧
          st.gameLog.turnList.entries[i]? = some
            (TurnLog.mk ((i : Int) + 1)
              (if (i + 1) % 2 = 1 then TicTacX else TicTacO) c) :=
  ⟨by decide, by decide,
    gameLog_chronological 7 (Settings.mk 3 3 3) centreLastMoves (by decide) (by decide)⟩

theorem playTurn_failed_move_unchanged_witness :
    (placeTile openState.gameBoard openState.currentPlayer 0 0).2 = false ∧
    playTurn 7 openState (Coordinates.mk 0 0) = some openState ∧
    playTurnOutput 7 openState (Coordinates.mk 0 0) = some (openState, none) ∧
    (openState.finished = false → ∀ rest : List Coordinates,
      playLoop 7 openState (Coordinates.mk 0 0 :: rest) = playLoop 7 openState rest) :=
  ⟨by decide, playTurn_failed_move_unchanged 7 openState (Coordinates.mk 0 0) (by decide)⟩

theorem win_decided_before_draw_witness :
    ValidSettings (Settings.mk 3 3 3) ∧ loopFuel (boardInit (Settings.mk 3 3 3)) ≤ 7 ∧
    ∃ st, playGame 7 (Settings.mk 3 3 3) centreLastMoves = some st ∧
      (st.finished = false →
        (placeTile st.gameBoard st.currentPlayer 1 1).2 = true →
        ∃ (won draw : Bool) (st1 : PlayState) (said : Option Announcement),
          checkWin 7 (placeTile st.gameBoard st.currentPlayer 1 1).1
            st.currentPlayer 1 1 = some won ∧
          checkDraw 7 (placeTile st.gameBoard st.currentPlayer 1 1).1 = some draw ∧
          (draw = true ↔ ∀ i j : Int,
            (placeTile st.gameBoard st.currentPlayer 1 1).1.inRange i j = true →
            (placeTile st.gameBoard st.currentPlayer 1 1).1.tileAt i j ≠ TicTacNone) ∧
          playTurnOutput 7 st (Coordinates.mk 1 1) = some (st1, said) ∧
          playTurn 7 st (Coordinates.mk 1 1) = some st1 ∧
          (won = true → said = some (Announcement.won st.currentPlayer) ∧
            st1.finished = true) ∧
          (said = some Announcement.draw ↔ won = false ∧ draw = true) ∧
          (won = false → draw = true → st1.finished = true) ∧
          (won = false → draw = false → said = none ∧ st1.finished = false)) :=
  ⟨by decide, by decide,
    win_decided_before_draw 7 (Settings.mk 3 3 3) centreLastMoves (Coordinates.mk 1 1)
      (by decide) (by decide)⟩

theorem board_tiles_are_players_witness :
    ValidSettings (Settings.mk 3 3 3) ∧ loopFuel (boardInit (Settings.mk 3 3 3)) ≤ 7 ∧
    ∃ st, playGame 7 (Settings.mk 3 3 3) centreLastMoves = some st ∧
      (st.currentPlayer = TicTacX ∨ st.currentPlayer = TicTacO) ∧
      st.currentPlayer ≠ TicTacNone ∧ st.currentPlayer ≠ TicTacTotal ∧
      (∀ row ∈ st.gameBoard.tiles, ∀ t ∈ row,
        t = TicTacNone ∨ t = TicTacX ∨ t = TicTacO) ∧
      (∀ i j : Int, st.gameBoard.tileAt i j = TicTacNone ∨
        st.gameBoard.tileAt i j = TicTacX ∨ st.gameBoard.tileAt i j = TicTacO) :=
  ⟨by decide, by decide,
    board_tiles_are_players 7 (Settings.mk 3 3 3) centreLastMoves (by decide) (by decide)⟩

theorem checkWin_any_cell_of_run_witness :
    ((1 : Int), (0 : Int)) ∈ winAxes ∧
    (∀ k : Nat, k < 4 → Holds runBoard TicTacO (0 + (k : Int) * 1) (2 + (k : Int) * 0)) ∧
    runBoard.settings.matches_ ≤ ((4 : Nat) : Int) ∧ loopFuel runBoard ≤ 11 ∧
    (∀ k : Nat, k < 4 →
      checkWin 11 runBoard TicTacO (0 + (k : Int) * 1) (2 + (k : Int) * 0) = some true) ∧
    ∃ c : Int, ((4 : Nat) : Int) ≤ c ∧
      (∀ k : Nat, k < 4 →
        checkDirection 11 runBoard TicTacO (0 + (k : Int) * 1) (2 + (k : Int) * 0) 1 0
          = some c) ∧
      (¬ Holds runBoard TicTacO (0 - 1) (2 - 0) →
        ¬ Holds runBoard TicTacO (0 + ((4 : Nat) : Int) * 1) (2 + ((4 : Nat) : Int) * 0) →
        c = ((4 : Nat) : Int)) :=
  ⟨by decide, by decide, by decide, by decide,
    checkWin_any_cell_of_run runBoard TicTacO 0 2 1 0 4 11 (by decide) (by decide)
      (by decide) (by decide)⟩

theorem checkWin_degenerate_boards_witness :
    loopFuel columnBoard ≤ 7 ∧ columnBoard.settings.width = 1 ∧
    Holds columnBoard TicTacX 0 4 ∧ checkWin 7 columnBoard TicTacX 0 4 = some true ∧
    (checkDirection 7 columnBoard TicTacX 0 4 1 0 = some 1 ∧
      checkDirection 7 columnBoard TicTacX 0 4 1 1 = some 1 ∧
      checkDirection 7 columnBoard TicTacX 0 4 1 (-1) = some 1 ∧
      ∃ f b : Nat, RunLength columnBoard TicTacX 0 4 0 1 f ∧
        RunLength columnBoard TicTacX 0 4 0 (-1) b ∧
        checkDirection 7 columnBoard TicTacX 0 4 0 1 = some (1 + (f : Int) + (b : Int)) ∧
        ∃ won : Bool, checkWin 7 columnBoard TicTacX 0 4 = some won ∧
          (won = true ↔ columnBoard.settings.matches_ ≤ 1 + (f : Int) + (b : Int))) ∧
    loopFuel rowBoard ≤ 7 ∧ rowBoard.settings.height = 1 ∧ Holds rowBoard TicTacO 2 0 ∧
    (checkDirection 7 rowBoard TicTacO 2 0 0 1 = some 1 ∧
      checkDirection 7 rowBoard TicTacO 2 0 1 1 = some 1 ∧
      checkDirection 7 rowBoard TicTacO 2 0 1 (-1) = some 1 ∧
      ∃ f b : Nat, RunLength rowBoard TicTacO 2 0 1 0 f ∧
        RunLength rowBoard TicTacO 2 0 (-1) 0 b ∧
        checkDirection 7 rowBoard TicTacO 2 0 1 0 = some (1 + (f : Int) + (b : Int)) ∧
        ∃ won : Bool, checkWin 7 rowBoard TicTacO 2 0 = some won ∧
          (won = true ↔ rowBoard.settings.matches_ ≤ 1 + (f : Int) + (b : Int))) :=
  ⟨by decide, by decide, by decide, by decide,
    (checkWin_degenerate_boards columnBoard TicTacX 7 (by decide)).1 (by decide) 4
      (by decide),
    by decide, by decide, by decide,
    (checkWin_degenerate_boards rowBoard TicTacO 7 (by decide)).2 (by decide) 2
      (by decide)⟩

theorem printList_in_turn_order_witness :
    ValidSettings (Settings.mk 3 3 3) ∧ loopFuel (boardInit (Settings.mk 3 3 3)) ≤ 7 ∧
    (∀ (α : Type) (s : List α) (pfuel : Nat), s ≠ [] → s.length ≤ pfuel →
      printList pfuel (buildList s) = some (PrintResult.printed s)) ∧
    ∃ st, playGame 7 (Settings.mk 3 3 3) centreLastMoves = some st ∧
      (placedMoves 7 (playInit (Settings.mk 3 3 3)) centreLastMoves ≠ [] →
        ∀ pfuel : Nat,
          (placedMoves 7 (playInit (Settings.mk 3 3 3)) centreLastMoves).length ≤ pfuel →
          ∃ texts : List TurnText,
            printGameLog pfuel st.gameLog = some (PrintResult.printed texts) ∧
            texts = st.gameLog.turnList.entries.map printTurnLog ∧
            texts.length
              = (placedMoves 7 (playInit (Settings.mk 3 3 3)) centreLastMoves).length ∧
            ∀ i : Nat, i < texts.length →
              ∃ c : Coordinates,
                (placedMoves 7 (playInit (Settings.mk 3 3 3)) centreLastMoves)[i]? = some c ∧
                texts[i]? = some (TurnText.mk ((i : Int) + 1)
                  (if (i + 1) % 2 = 1 then 'X' else 'O') c.x c.y)) :=
  ⟨by decide, by decide,
    printList_in_turn_order 7 (Settings.mk 3 3 3) centreLastMoves (by decide) (by decide)⟩

theorem getSettings_validated_witness :
    (getSettings threeLineFile (Settings.mk 0 0 0)).1 = false ∧
    ∃ vs : List (List Char × Int), threeLineFile = some (vs.map some) ∧ vs.length = 3 ∧
      settingValues 'm' vs = [(getSettings threeLineFile (Settings.mk 0 0 0)).2.width] ∧
      settingValues 'n' vs = [(getSettings threeLineFile (Settings.mk 0 0 0)).2.height] ∧
      settingValues 'k' vs = [(getSettings threeLineFile (Settings.mk 0 0 0)).2.matches_] ∧
      (1 ≤ (getSettings threeLineFile (Settings.mk 0 0 0)).2.width ∧
        (getSettings threeLineFile (Settings.mk 0 0 0)).2.width ≤ 99) ∧
      (1 ≤ (getSettings threeLineFile (Settings.mk 0 0 0)).2.height ∧
        (getSettings threeLineFile (Settings.mk 0 0 0)).2.height ≤ 99) ∧
      (1 ≤ (getSettings threeLineFile (Settings.mk 0 0 0)).2.matches_ ∧
        (getSettings threeLineFile (Settings.mk 0 0 0)).2.matches_ ≤ 99) ∧
      (getSettings threeLineFile (Settings.mk 0 0 0)).2.matches_ ≤
        min (getSettings threeLineFile (Settings.mk 0 0 0)).2.width
          (getSettings threeLineFile (Settings.mk 0 0 0)).2.height ∧
      ValidSettings (getSettings threeLineFile (Settings.mk 0 0 0)).2 :=
  ⟨by decide, getSettings_validated threeLineFile (Settings.mk 0 0 0) (by decide)⟩

theorem boardInit_fresh_board_witness :
    0 < (Settings.mk 3 3 3).width ∧ 0 < (Settings.mk 3 3 3).height ∧
    (∀ (fuel : Nat) (fresh : Nat → List TicTacTile),
      (∀ i : Nat, (fresh i).length = (Settings.mk 3 3 3).width.toNat) →
      loopFuel (boardInit (Settings.mk 3 3 3)) ≤ fuel →
      boardInitLoops fuel fresh (Settings.mk 3 3 3) = some (boardInit (Settings.mk 3 3 3))) ∧
    (boardInit (Settings.mk 3 3 3)).settings = Settings.mk 3 3 3 ∧
    ((boardInit (Settings.mk 3 3 3)).tiles.length : Int) = (Settings.mk 3 3 3).height ∧
    (∀ row ∈ (boardInit (Settings.mk 3 3 3)).tiles,
      (row.length : Int) = (Settings.mk 3 3 3).width ∧ ∀ t ∈ row, t = TicTacNone) ∧
    (∀ fuel : Nat, loopFuel (boardInit (Settings.mk 3 3 3)) ≤ fuel →
      checkDraw fuel (boardInit (Settings.mk 3 3 3)) = some false) ∧
    (∀ (tile : TicTacTile) (x y : Int), 0 ≤ x → x < (Settings.mk 3 3 3).width → 0 ≤ y →
      y < (Settings.mk 3 3 3).height →
      (placeTile (boardInit (Settings.mk 3 3 3)) tile x y).2 = true) :=
  ⟨by decide, by decide, boardInit_fresh_board (Settings.mk 3 3 3) (by decide) (by decide)⟩

theorem validCoordString_iff_accepted_witness :
    DocumentedCoordFormat paddedCoordString ∧
    (validCoordString paddedCoordString = true ↔ AcceptedCoordFormat paddedCoordString) ∧
    validCoordString paddedCoordString = true :=
  have hdoc : DocumentedCoordFormat paddedCoordString :=
    ⟨[SPACE], ['1', '2'], [SPACE], [TAB], ['7'], [], [NEWLINE], rfl, by decide, by decide,
      by decide, by decide, by decide, by decide, Or.inr rfl⟩
  ⟨hdoc, (validCoordString_iff_accepted paddedCoordString).1,
    (validCoordString_iff_accepted paddedCoordString).2 hdoc⟩

theorem createLogFileName_fits_witness :
    (1 ≤ (Settings.mk 99 99 99).width ∧ (Settings.mk 99 99 99).width ≤ 99) ∧
    (1 ≤ (Settings.mk 99 99 99).height ∧ (Settings.mk 99 99 99).height ≤ 99) ∧
    (1 ≤ (Settings.mk 99 99 99).matches_ ∧ (Settings.mk 99 99 99).matches_ ≤ 99) ∧
    ((0 : Int) ≤ 23 ∧ (23 : Int) ≤ 23) ∧ ((0 : Int) ≤ 5 ∧ (5 : Int) ≤ 59) ∧
    ((1 : Int) ≤ 31 ∧ (31 : Int) ≤ 31) ∧ ((0 : Int) ≤ 11 ∧ (11 : Int) ≤ 11) ∧
    createLogFileName (Settings.mk 99 99 99) 23 5 31 11 =
      ['M', 'N', 'K', '_'] ++ decimal (Settings.mk 99 99 99).width.toNat ++ ['-'] ++
        decimal (Settings.mk 99 99 99).height.toNat ++ ['-'] ++
        decimal (Settings.mk 99 99 99).matches_.toNat ++ ['_'] ++
        twoDigits (23 : Int).toNat ++ ['-'] ++ twoDigits (5 : Int).toNat ++ ['_'] ++
        twoDigits (31 : Int).toNat ++ ['-'] ++ twoDigits ((11 : Int) + 1).toNat ++
        ['.', 'l', 'o', 'g'] ∧
    (createLogFileName (Settings.mk 99 99 99) 23 5 31 11).length ≤ 28 ∧
    (createLogFileName (Settings.mk 99 99 99) 23 5 31 11).length + 1 ≤ LOG_NAME_LEN :=
  ⟨by decide, by decide, by decide, by decide, by decide, by decide, by decide,
    createLogFileName_fits (Settings.mk 99 99 99) 23 5 31 11 (by decide) (by decide)
      (by decide) (by decide) (by decide) (by decide) (by decide)⟩

theorem checkDirection_terminates_witness :
    ((1 : Int) ≠ 0 ∨ (0 : Int) ≠ 0) ∧ loopFuel openBoard ≤ 7 ∧
    ∃ (counter : Int) (currentTile : TicTacTile),
      scanForward openBoard TicTacX 0 1 7 0 0 0 TicTacNone = some (counter, currentTile) ∧
      ∃ (counter1 : Int) (currentTile1 : TicTacTile),
        scanBackward openBoard TicTacX 0 1 7 (0 - 0) (0 - 1) counter currentTile
          = some (counter1, currentTile1) ∧
        checkDirection 7 openBoard TicTacX 0 0 1 0 = some counter1 :=
  ⟨by decide, by decide,
    checkDirection_terminates openBoard TicTacX 0 0 1 0 7 (by decide) (by decide)⟩

theorem no_run_while_awaiting_move_witness :
    ValidSettings (Settings.mk 3 3 3) ∧ loopFuel (boardInit (Settings.mk 3 3 3)) ≤ 7 ∧
    ∃ st, playGame 7 (Settings.mk 3 3 3) centreLastMoves = some st ∧
      (st.finished = false →
        ¬ HasRun st.gameBoard TicTacX ∧ ¬ HasRun st.gameBoard TicTacO ∧
        ∀ newTile : Coordinates,
          (placeTile st.gameBoard st.currentPlayer newTile.x newTile.y).2 = true →
          ∃ won : Bool,
            checkWin 7 (placeTile st.gameBoard st.currentPlayer newTile.x newTile.y).1
              st.currentPlayer newTile.x newTile.y = some won ∧
            (won = true ↔
              HasRun (placeTile st.gameBoard st.currentPlayer newTile.x newTile.y).1
                st.currentPlayer) ∧
            (won = true ↔
              HasRun (placeTile st.gameBoard st.currentPlayer newTile.x newTile.y).1 TicTacX ∨
              HasRun (placeTile st.gameBoard st.currentPlayer newTile.x newTile.y).1
                TicTacO)) :=
  ⟨by decide, by decide,
    no_run_while_awaiting_move 7 (Settings.mk 3 3 3) centreLastMoves (by decide) (by decide)⟩

theorem log_locations_distinct_witness :
    ValidSettings (Settings.mk 3 3 3) ∧ loopFuel (boardInit (Settings.mk 3 3 3)) ≤ 7 ∧
    ∃ st, playGame 7 (Settings.mk 3 3 3) centreLastMoves = some st ∧
      (∀ e ∈ st.gameLog.turnList.entries,
        (0 ≤ e.location.x ∧ e.location.x < (Settings.mk 3 3 3).width) ∧
        (0 ≤ e.location.y ∧ e.location.y < (Settings.mk 3 3 3).height)) ∧
      (st.gameLog.turnList.entries.map (fun e => e.location)).Nodup ∧
      (∀ i j : Nat, i < j → j < st.gameLog.turnList.entries.length →
        (st.gameLog.turnList.entries[i]?).map (fun e => e.location)
          ≠ (st.gameLog.turnList.entries[j]?).map (fun e => e.location)) ∧
      occupiedCount st.gameBoard = st.gameLog.turnList.entries.length :=
  ⟨by decide, by decide,
    log_locations_distinct 7 (Settings.mk 3 3 3) centreLastMoves (by decide) (by decide)⟩

theorem win_not_before_turn_witness :
    ValidSettings (Settings.mk 3 3 3) ∧ loopFuel (boardInit (Settings.mk 3 3 3)) ≤ 7 ∧
    ∃ st, playGame 7 (Settings.mk 3 3 3) centreLastMoves = some st ∧
      (st.finished = false →
        (placeTile st.gameBoard st.currentPlayer (Coordinates.mk 1 1).x
          (Coordinates.mk 1 1).y).2 = true →
        checkWin 7 (placeTile st.gameBoard st.currentPlayer (Coordinates.mk 1 1).x
          (Coordinates.mk 1 1).y).1 st.currentPlayer (Coordinates.mk 1 1).x
          (Coordinates.mk 1 1).y = some true →
        ∃ st1, playGame 7 (Settings.mk 3 3 3) (centreLastMoves ++ [Coordinates.mk 1 1])
            = some st1 ∧
          st1.finished = true ∧
          playTurnOutput 7 st (Coordinates.mk 1 1)
            = some (st1, some (Announcement.won st.currentPlayer)) ∧
          2 * (Settings.mk 3 3 3).matches_ - 1 ≤ st.turnNum ∧
          (st1.gameLog.turnList.entries.length : Int) = st.turnNum ∧
          st1.gameLog.turnList.entries.getLast?
            = some (TurnLog.mk st.turnNum st.currentPlayer (Coordinates.mk 1 1)) ∧
          (Settings.mk 3 3 3).matches_ ≤ ((st1.gameLog.turnList.entries.filter
            (fun e => decide (e.player = st.currentPlayer))).length : Int)) :=
  ⟨by decide, by decide,
    win_not_before_turn 7 (Settings.mk 3 3 3) centreLastMoves (Coordinates.mk 1 1)
      (by decide) (by decide)⟩

theorem finished_log_not_empty_witness :
    ValidSettings (Settings.mk 3 3 3) ∧ loopFuel (boardInit (Settings.mk 3 3 3)) ≤ 7 ∧
    (∀ pfuel : Nat, printList pfuel (createList TurnLog) = some PrintResult.corrupt) ∧
    ∃ st, playGame 7 (Settings.mk 3 3 3) (centreLastMoves ++ [Coordinates.mk 1 1]) = some st ∧
      (st.finished = true →
        st.gameLog.turnList.entries ≠ [] ∧ 0 < st.gameLog.turnList.size ∧
        ∀ pfuel : Nat, st.gameLog.turnList.entries.length ≤ pfuel →
          printList pfuel st.gameLog.turnList
            = some (PrintResult.printed st.gameLog.turnList.entries) ∧
          printGameLog pfuel st.gameLog
            = some (PrintResult.printed (st.gameLog.turnList.entries.map printTurnLog))) :=
  ⟨by decide, by decide,
    finished_log_not_empty 7 (Settings.mk 3 3 3) (centreLastMoves ++ [Coordinates.mk 1 1])
      (by decide) (by decide)⟩

end TicTacToe
